import Mathlib

/-!
Verification of the rank-assignment and ordering core of antv-layout
(`src/packages/layout/src/dagre/rank/util.ts`,
`src/packages/layout/src/dagre/rank/feasible-tree.ts`,
`src/packages/layout/src/dagre/order/*`, and the unnamed
`resolveConflicts` / `initOrder` modules).

Node ids are modelled as naturals, JS numbers used for ranks and minlen as
integers, and the mutable `data.rank` field of the caller's graph as an
association list threaded through the algorithms in store-passing style.
A JS `undefined` rank is `none`.  Recursive DFS routines are given a fuel
argument; every theorem that relies on the run having completed proves
that the fuel supplied by the top-level entry point suffices.
-/

namespace AntvDagre

/-- A node of the working graph for the rank stage.  `layer` is the optional
absolute-rank pin read by the WithLayer variants (`data.layer`). -/
structure GNode where
  id : Nat
  layer : Option Int := none
deriving Repr, DecidableEq

/-- A directed edge with its `minlen` attribute (`e.data.minlen!`). -/
structure GEdge where
  eid : Nat
  source : Nat
  target : Nat
  minlen : Int
deriving Repr, DecidableEq

/-- The caller-owned graph consumed by the rank stage. -/
structure DGraph where
  nodes : List GNode
  edges : List GEdge
deriving Repr, DecidableEq

def nodeIds (g : DGraph) : List Nat := g.nodes.map (·.id)

/-- `g.getNode(v)`: first node with the given id. -/
def getNodeL (g : DGraph) (v : Nat) : Option GNode := g.nodes.find? (fun n => n.id == v)

/-- `g.getRelatedEdges(v, "in")`. -/
def inEdges (g : DGraph) (v : Nat) : List GEdge := g.edges.filter (fun e => e.target == v)

/-- `g.getRelatedEdges(v, "out")`. -/
def outEdges (g : DGraph) (v : Nat) : List GEdge := g.edges.filter (fun e => e.source == v)

/-- `g.getRelatedEdges(v, "both")`. -/
def bothEdges (g : DGraph) (v : Nat) : List GEdge :=
  g.edges.filter (fun e => e.source == v || e.target == v)

/-- The mutable per-node `data.rank` store: latest write shadows. -/
def RankMap : Type := List (Nat × Int)

instance : DecidableEq RankMap := by unfold RankMap; infer_instance

def rlookup (m : RankMap) (v : Nat) : Option Int :=
  (List.find? (fun p => p.1 == v) m).map (·.2)

/-- `slack(g, e) = rank(target) - rank(source) - minlen` (rank/util.ts).  The
source reads `data.rank!`; per feasibleTree's precondition 5 every node has
been assigned a rank, so a missing rank (JS `NaN` arithmetic) is out of the
modelled domain and defaulted to 0 here; all theorems using `slackD` carry
hypotheses under which every endpoint is ranked. -/
def slackD (m : RankMap) (e : GEdge) : Int :=
  (rlookup m e.target).getD 0 - (rlookup m e.source).getD 0 - e.minlen

/-- State of `longestPath`'s memoized DFS: the `visited` record and the
node `rank` fields written so far. -/
structure LPSt where
  visited : List Nat
  ranks : RankMap
deriving DecidableEq

/-- The `forEach` over `v`'s outgoing edges inside `longestPath`'s DFS
(rank/util.ts lines 38-48), with the recursive DFS call abstracted as
`rec`: for each edge compute `r = wRank - minlen` and fold it into the
running minimum `acc` unless `r` is falsy (`if (r)`) or `wRank` was
`undefined` (in which case `r` is `NaN`, also falsy). -/
def lpFold (rec : Nat → LPSt → LPSt × Option Int) :
    List GEdge → LPSt → Option Int → LPSt × Option Int
  | [], s, acc => (s, acc)
  | e :: es, s, acc =>
    let q := rec e.target s
    let acc2 : Option Int :=
      match q.2 with
      | none => acc
      | some wr =>
        let r := wr - e.minlen
        if r = 0 then acc
        else
          match acc with
          | none => some r
          | some a => if r < a then some r else some a
    lpFold rec es q.1 acc2

/-- The final `if (!rank) rank = 0` of the DFS: an unset or zero accumulator
becomes rank 0. -/
def lpRank (acc : Option Int) : Int :=
  match acc with
  | none => 0
  | some a => if a = 0 then 0 else a

/-- The memoized DFS of `longestPath` (rank/util.ts lines 28-56).
Returns the updated store and the JS return value (`none` = `undefined`,
which only arises on fuel exhaustion, shown unreachable for DAG inputs).
A node's rank is the minimum over outgoing edges of `child_rank - minlen`
(values `r` with `r == 0` are skipped by the source's `if (r)` test), or 0. -/
def dfsLP (g : DGraph) : Nat → Nat → LPSt → LPSt × Option Int
  | 0, _, s => (s, none)
  | fuel+1, v, s =>
    if (getNodeL g v).isNone then (s, some 0)
    else if v ∈ s.visited then (s, rlookup s.ranks v)
    else
      let p := lpFold (dfsLP g fuel) (outEdges g v) ⟨v :: s.visited, s.ranks⟩ none
      (⟨p.1.visited, (v, lpRank p.2) :: p.1.ranks⟩, some (lpRank p.2))

/-- `longestPath(g)`: run the DFS from every node with no incoming edge
(rank/util.ts lines 58-60) and return the written `rank` fields. -/
def longestPath (g : DGraph) : RankMap :=
  ((g.nodes.filter (fun n => (inEdges g n.id).length == 0)).foldl
    (fun s n => (dfsLP g (g.nodes.length + 1) n.id s).1)
    ⟨[], []⟩).ranks

/-- The undirected tight tree `t` built by `feasibleTree`: node ids plus the
tree edges copied from `g` (tree edge source = the endpoint already in `t`). -/
structure TEdge where
  eid : Nat
  source : Nat
  target : Nat
deriving Repr, DecidableEq

structure TGraph where
  tnodes : List Nat
  tedges : List TEdge
deriving Repr, DecidableEq

/-- The `forEach` over `v`'s incident edges inside `tightTree`'s DFS
(feasible-tree.ts lines 65-85), with the recursive call abstracted as
`rec`: a neighbour `w` joined by a zero-slack edge is admitted to the
tree together with the edge, and the DFS recurses from `w`. -/
def tdFold (m : RankMap) (rec : Nat → TGraph → TGraph)
    (adm : DGraph → Nat → GEdge → Prop) [∀ g w e, Decidable (adm g w e)]
    (g : DGraph) (v : Nat) : List GEdge → TGraph → TGraph
  | [], t => t
  | e :: es, t =>
    let w := if v = e.source then e.target else e.source
    let t2 :=
      if w ∉ t.tnodes ∧ adm g w e then
        rec w ⟨t.tnodes ++ [w], t.tedges ++ [⟨e.eid, v, w⟩]⟩
      else t
    tdFold m rec adm g v es t2

/-- The admission test of `tightTree`: `!slack(g, e)`. -/
def tightAdmit (m : RankMap) (_ : DGraph) (_ : Nat) (e : GEdge) : Prop := slackD m e = 0

instance (m : RankMap) (g : DGraph) (w : Nat) (e : GEdge) :
    Decidable (tightAdmit m g w e) := by unfold tightAdmit; infer_instance

/-- The recursive admission step of `tightTree` (feasible-tree.ts lines 64-86). -/
def tightDfs (g : DGraph) (m : RankMap) : Nat → Nat → TGraph → TGraph
  | 0, _, t => t
  | fuel+1, v, t => tdFold m (tightDfs g m fuel) (tightAdmit m) g v (bothEdges g v) t

/-- `tightTree(t, g)`: run the admission DFS from every node currently in the
tree (the source iterates the snapshot `t.getAllNodes()`; nodes admitted
during the sweep are reached through the recursion). -/
def tightTree (g : DGraph) (m : RankMap) (t : TGraph) : TGraph :=
  t.tnodes.foldl (fun t v => tightDfs g m (g.nodes.length + 1) v t) t

/-- Modelled from the spec: `minBy` from `dagre/util` (not under src/) —
"implementations must pick a single edge deterministically, e.g.
first-seen-wins": returns the first list element of minimal score. -/
def minBy {α : Type} (l : List α) (f : α → WithTop Int) : Option α :=
  l.foldl
    (fun best e =>
      match best with
      | none => some e
      | some b => if f e < f b then some e else some b)
    none

/-- The score used by `findMinSlackEdge` (feasible-tree.ts lines 175-186):
`slack` when exactly one endpoint is in the tree, else `Infinity`. -/
def ftScore (t : TGraph) (m : RankMap) (e : GEdge) : WithTop Int :=
  if (e.source ∈ t.tnodes) ≠ (e.target ∈ t.tnodes) then ((slackD m e : Int) : WithTop Int)
  else ⊤

/-- `findMinSlackEdge(t, g)`. -/
def findMinSlackEdge (t : TGraph) (g : DGraph) (m : RankMap) : Option GEdge :=
  minBy g.edges (ftScore t m)

/-- `shiftRanks(t, g, delta)`: add `delta` to the rank of every tree node
(a missing or zero rank is first treated as 0 by the source's
`if (!v.data.rank) v.data.rank = 0`). -/
def shiftRanks (t : TGraph) (m : RankMap) (delta : Int) : RankMap :=
  t.tnodes.foldl (fun m v => (v, (rlookup m v).getD 0 + delta) :: m) m

/-- The `while (tightTree(t, g) < size)` loop of `feasibleTree`
(feasible-tree.ts lines 45-53), with fuel; the top-level entry supplies
`g.nodes.length`, proven sufficient for connected inputs. -/
def ftLoop (g : DGraph) : Nat → TGraph → RankMap → TGraph × RankMap
  | fuel, t, m =>
    let t2 := tightTree g m t
    if t2.tnodes.length < g.nodes.length then
      match fuel with
      | 0 => (t2, m)
      | fuel+1 =>
        match findMinSlackEdge t2 g m with
        | none => (t2, m)
        | some e =>
          let delta := if e.source ∈ t2.tnodes then slackD m e else - slackD m e
          ftLoop g fuel t2 (shiftRanks t2 m delta)
    else (t2, m)

/-- `feasibleTree(g)`: seed the tree with the first node and tighten until it
spans the graph; returns the tree and the adjusted ranks.  (The source
indexes `g.getAllNodes()[0]` unconditionally; an empty graph is outside the
stated preconditions and returns an empty tree here.) -/
def feasibleTree (g : DGraph) (m : RankMap) : TGraph × RankMap :=
  match g.nodes with
  | [] => (⟨[], []⟩, m)
  | n :: _ => ftLoop g g.nodes.length ⟨[n.id], []⟩ m

/-! ### The WithLayer variants (layer pins) -/

/-- State of pass 2 of `longestPathWithLayer`: the `forwardVisited` record
and the shared `rank` store. -/
structure FSt where
  fvisited : List Nat
  ranks : RankMap
deriving DecidableEq

/-- `dfsForward` of `longestPathWithLayer` (rank/util.ts lines 115-134): a
node's candidate rank is its `layer` pin if present, else the propagated
`nextRank`; the stored rank is raised to the candidate (`max`), and this
update happens on every visit, before the `forwardVisited` cut-off. -/
def dfsForward (g : DGraph) : Nat → Nat → Int → FSt → FSt
  | 0, _, _, s => s
  | fuel+1, v, nextRank, s =>
    match getNodeL g v with
    | none => s
    | some nd =>
      let currRank : Int := match nd.layer with | some l => l | none => nextRank
      let ranks2 : RankMap :=
        match rlookup s.ranks v with
        | none => (v, currRank) :: s.ranks
        | some r => if r < currRank then (v, currRank) :: s.ranks else s.ranks
      if v ∈ s.fvisited then ⟨s.fvisited, ranks2⟩
      else
        (outEdges g v).foldl
          (fun s e => dfsForward g fuel e.target (currRank + e.minlen) s)
          ⟨v :: s.fvisited, ranks2⟩

/-- `longestPathWithLayer(g)` (rank/util.ts lines 63-147): pass 1 is the
`longestPath` DFS (its running `minRank` equals the minimum rank written,
since ranks are write-once); pass 2 walks all nodes in order, running
`dfsForward` from every pinned node and shifting every unpinned node by
`-minRank`. -/
def longestPathWithLayer (g : DGraph) : RankMap :=
  let pass1 : RankMap :=
    ((g.nodes.filter (fun n => (inEdges g n.id).length == 0)).foldl
      (fun s n => (dfsLP g (g.nodes.length + 1) n.id s).1)
      ⟨[], []⟩).ranks
  let minRank : Int := ((pass1.map (·.2)).min?).getD 0
  (g.nodes.foldl
    (fun (s : FSt) n =>
      match n.layer with
      | some l => dfsForward g (g.nodes.length + 1) n.id l s
      | none => ⟨s.fvisited, (n.id, (rlookup s.ranks n.id).getD 0 - minRank) :: s.ranks⟩)
    ⟨[], pass1⟩).ranks

/-- The admission test of `tightTreeWithLayer`: a neighbour carrying a
`layer` pin is admitted unconditionally
(`g.getNode(w)!.data.layer !== undefined || !slack(g, e)`). -/
def tightAdmitWL (m : RankMap) (g : DGraph) (w : Nat) (e : GEdge) : Prop :=
  ((getNodeL g w).bind (·.layer)) ≠ none ∨ slackD m e = 0

instance (m : RankMap) (g : DGraph) (w : Nat) (e : GEdge) :
    Decidable (tightAdmitWL m g w e) := by unfold tightAdmitWL; infer_instance

/-- `tightTreeWithLayer`'s admission DFS (feasible-tree.ts lines 143-165):
identical to `tightDfs` except for the admission test. -/
def tightDfsWL (g : DGraph) (m : RankMap) : Nat → Nat → TGraph → TGraph
  | 0, _, t => t
  | fuel+1, v, t => tdFold m (tightDfsWL g m fuel) (tightAdmitWL m) g v (bothEdges g v) t

/-- `tightTreeWithLayer(t, g)`. -/
def tightTreeWL (g : DGraph) (m : RankMap) (t : TGraph) : TGraph :=
  t.tnodes.foldl (fun t v => tightDfsWL g m (g.nodes.length + 1) v t) t

/-- The tightening loop of `feasibleTreeWithLayer` (feasible-tree.ts
lines 128-132); note that `shiftRanks` moves every node currently in the
tree, pinned or not. -/
def ftLoopWL (g : DGraph) : Nat → TGraph → RankMap → TGraph × RankMap
  | fuel, t, m =>
    let t2 := tightTreeWL g m t
    if t2.tnodes.length < g.nodes.length then
      match fuel with
      | 0 => (t2, m)
      | fuel+1 =>
        match findMinSlackEdge t2 g m with
        | none => (t2, m)
        | some e =>
          let delta := if e.source ∈ t2.tnodes then slackD m e else - slackD m e
          ftLoopWL g fuel t2 (shiftRanks t2 m delta)
    else (t2, m)

/-- `feasibleTreeWithLayer(g)` (feasible-tree.ts lines 118-135). -/
def feasibleTreeWithLayer (g : DGraph) (m : RankMap) : TGraph × RankMap :=
  match g.nodes with
  | [] => (⟨[], []⟩, m)
  | n :: _ => ftLoopWL g g.nodes.length ⟨[n.id], []⟩ m

/-! ### Hypothesis predicates for the rank-stage theorems -/

/-- Well-formed input graph: every edge endpoint is a node and node ids are
distinct. -/
def WFg (g : DGraph) : Prop :=
  (∀ e ∈ g.edges, (getNodeL g e.source).isSome ∧ (getNodeL g e.target).isSome) ∧
  (nodeIds g).Nodup

/-- Every edge carries `minlen >= 1`. -/
def MinlenOK (g : DGraph) : Prop := ∀ e ∈ g.edges, 1 ≤ e.minlen

/-- `g` is a DAG, witnessed by a topological numbering. -/
def Topo (g : DGraph) (f : Nat → Nat) : Prop := ∀ e ∈ g.edges, f e.source < f e.target

/-- Undirected connectivity, stated as: every nonempty proper subset of the
node-id set is left by some edge. -/
def Conn (g : DGraph) : Prop :=
  ∀ S ∈ (nodeIds g).toFinset.powerset, S.Nonempty → S ≠ (nodeIds g).toFinset →
    ∃ e ∈ g.edges, ((e.source ∈ S ∧ e.target ∉ S) ∨ (e.target ∈ S ∧ e.source ∉ S))

/-- Every node has an assigned rank. -/
def AllRanked (g : DGraph) (m : RankMap) : Prop :=
  ∀ v ∈ nodeIds g, (rlookup m v).isSome

/-- Rank feasibility: every edge is at least as long as its `minlen`. -/
def Feas (g : DGraph) (m : RankMap) : Prop :=
  ∀ e ∈ g.edges, 0 ≤ slackD m e

instance (g : DGraph) : Decidable (WFg g) := by unfold WFg; infer_instance

instance (g : DGraph) : Decidable (MinlenOK g) := by unfold MinlenOK; infer_instance

instance (g : DGraph) (f : Nat → Nat) : Decidable (Topo g f) := by
  unfold Topo; infer_instance

instance (g : DGraph) : Decidable (Conn g) := by unfold Conn; infer_instance

instance (g : DGraph) (m : RankMap) : Decidable (AllRanked g m) := by
  unfold AllRanked; infer_instance

instance (g : DGraph) (m : RankMap) : Decidable (Feas g m) := by
  unfold Feas; infer_instance

/-! ### Basic lemmas about the rank store -/

theorem rlookup_cons_self (m : RankMap) (v : Nat) (r : Int) :
    rlookup ((v, r) :: m) v = some r := by
  simp [rlookup, List.find?]

theorem rlookup_cons_ne (m : RankMap) (v w : Nat) (r : Int) (h : w ≠ v) :
    rlookup ((v, r) :: m) w = rlookup m w := by
  have : (v == w) = false := by simp [Ne.symm h]
  simp [rlookup, List.find?, this]

theorem getNodeL_isSome_iff (g : DGraph) (v : Nat) :
    (getNodeL g v).isSome ↔ v ∈ nodeIds g := by
  constructor
  · intro h
    rw [getNodeL, List.find?_isSome] at h
    obtain ⟨n, hn, hid⟩ := h
    simp only [beq_iff_eq] at hid
    exact hid ▸ List.mem_map_of_mem _ hn
  · intro h
    obtain ⟨n, hn, hid⟩ := List.mem_map.mp h
    rw [getNodeL, List.find?_isSome]
    exact ⟨n, hn, by simp [hid]⟩

theorem visited_length_le (g : DGraph) (hnd : (nodeIds g).Nodup) (l : List Nat)
    (h1 : l.Nodup) (h2 : ∀ v ∈ l, (getNodeL g v).isSome) :
    l.length ≤ g.nodes.length := by
  have hsub : l.toFinset ⊆ (nodeIds g).toFinset := by
    intro x hx
    rw [List.mem_toFinset] at hx ⊢
    exact (getNodeL_isSome_iff g x).mp (h2 x hx)
  calc l.length = l.toFinset.card := (List.toFinset_card_of_nodup h1).symm
    _ ≤ (nodeIds g).toFinset.card := Finset.card_le_card hsub
    _ = (nodeIds g).length := List.toFinset_card_of_nodup hnd
    _ = g.nodes.length := List.length_map _ _

theorem mem_outEdges (g : DGraph) (v : Nat) (e : GEdge) :
    e ∈ outEdges g v ↔ e ∈ g.edges ∧ e.source = v := by
  simp [outEdges, List.mem_filter]

theorem mem_inEdges (g : DGraph) (v : Nat) (e : GEdge) :
    e ∈ inEdges g v ↔ e ∈ g.edges ∧ e.target = v := by
  simp [inEdges, List.mem_filter]

theorem mem_bothEdges (g : DGraph) (v : Nat) (e : GEdge) :
    e ∈ bothEdges g v ↔ e ∈ g.edges ∧ (e.source = v ∨ e.target = v) := by
  simp [bothEdges, List.mem_filter]

/-! ### Invariants of the `longestPath` DFS -/

/-- Partial-correctness property of the written ranks: every assigned rank is
nonpositive and is at most `minlen` below the (assigned) rank of each
out-neighbour. -/
def GoodR (g : DGraph) (m : RankMap) : Prop :=
  ∀ v r, rlookup m v = some r →
    r ≤ 0 ∧ ∀ e ∈ g.edges, e.source = v →
      ∃ rt, rlookup m e.target = some rt ∧ r ≤ rt - e.minlen

/-- The DFS state invariant. -/
def SInv (g : DGraph) (s : LPSt) : Prop :=
  s.visited.Nodup ∧ (∀ v ∈ s.visited, (getNodeL g v).isSome) ∧
  (∀ v r, rlookup s.ranks v = some r → v ∈ s.visited) ∧ GoodR g s.ranks

/-- Relation between a DFS pre-state and post-state: the invariant holds, the
visited set and the assigned ranks only grow (write-once), and the set of
in-progress nodes (visited but not yet ranked) is unchanged. -/
def DfsPost (g : DGraph) (s s2 : LPSt) : Prop :=
  SInv g s2 ∧ (∀ u ∈ s.visited, u ∈ s2.visited) ∧
  s.visited.length ≤ s2.visited.length ∧
  (∀ u r, rlookup s.ranks u = some r → rlookup s2.ranks u = some r) ∧
  (∀ u, (u ∈ s2.visited ∧ rlookup s2.ranks u = none) ↔
        (u ∈ s.visited ∧ rlookup s.ranks u = none))

theorem DfsPost_refl (g : DGraph) (s : LPSt) (h : SInv g s) : DfsPost g s s :=
  ⟨h, fun _ hu => hu, le_refl _, fun _ _ h => h, fun _ => Iff.rfl⟩

theorem DfsPost_trans (g : DGraph) (s1 s2 s3 : LPSt)
    (h12 : DfsPost g s1 s2) (h23 : DfsPost g s2 s3) : DfsPost g s1 s3 := by
  obtain ⟨i2, v12, l12, r12, p12⟩ := h12
  obtain ⟨i3, v23, l23, r23, p23⟩ := h23
  exact ⟨i3, fun u hu => v23 u (v12 u hu), le_trans l12 l23,
    fun u r h => r23 u r (r12 u r h), fun u => (p23 u).trans (p12 u)⟩

/-- Specification of one recursive DFS call at a given fuel. -/
def RecSpec (g : DGraph) (f : Nat → Nat) (fuel : Nat) : Prop :=
  ∀ v s, SInv g s →
    (∀ u ∈ s.visited, rlookup s.ranks u = none → f u < f v) →
    g.nodes.length + 1 ≤ fuel + s.visited.length →
    (getNodeL g v).isSome →
    DfsPost g s (dfsLP g fuel v s).1 ∧
    ∃ r, rlookup (dfsLP g fuel v s).1.ranks v = some r ∧ (dfsLP g fuel v s).2 = some r

/-- Postcondition of the edge fold of the DFS. -/
def LpFoldPost (g : DGraph) (f : Nat → Nat) (fuel : Nat) (v : Nat)
    (work : List GEdge) (s : LPSt) (res : LPSt × Option Int) : Prop :=
  DfsPost g s res.1 ∧
  (∀ u ∈ res.1.visited, rlookup res.1.ranks u = none → f u ≤ f v) ∧
  g.nodes.length + 1 ≤ fuel + res.1.visited.length ∧
  (∀ e ∈ work, ∃ rt, rlookup res.1.ranks e.target = some rt ∧
    ∀ a, res.2 = some a → a ≤ rt - e.minlen) ∧
  (res.2 = none → work = []) ∧
  (∀ a, res.2 = some a → a ≤ -1)

theorem lpFold_spec (g : DGraph) (f : Nat → Nat) (hWF : WFg g) (hml : MinlenOK g)
    (ht : Topo g f) (fuel : Nat) (hrec : RecSpec g f fuel) (v : Nat) :
    ∀ (es done : List GEdge) (s : LPSt) (acc : Option Int),
      (∀ e ∈ es, e ∈ g.edges ∧ e.source = v) →
      SInv g s →
      (∀ u ∈ s.visited, rlookup s.ranks u = none → f u ≤ f v) →
      g.nodes.length + 1 ≤ fuel + s.visited.length →
      (∀ e ∈ done, ∃ rt, rlookup s.ranks e.target = some rt ∧
        ∀ a, acc = some a → a ≤ rt - e.minlen) →
      (acc = none → done = []) →
      (∀ a, acc = some a → a ≤ -1) →
      LpFoldPost g f fuel v (done ++ es) s (lpFold (dfsLP g fuel) es s acc) := by
  intro es
  induction es with
  | nil =>
    intro done s acc _ hs hprog hfuel hdone hnone hbnd
    refine ⟨DfsPost_refl g s hs, hprog, hfuel, ?_, ?_, hbnd⟩
    · simpa using hdone
    · intro h; simpa using hnone h
  | cons e es ihes =>
    intro done s acc hes hs hprog hfuel hdone hnone hbnd
    have heg : e ∈ g.edges := (hes e (List.mem_cons_self e es)).1
    have hesrc : e.source = v := (hes e (List.mem_cons_self e es)).2
    have hrecres := hrec e.target s hs
      (fun u hu hnr => lt_of_le_of_lt (hprog u hu hnr) (hesrc ▸ ht e heg))
      hfuel ((hWF.1 e heg).2)
    obtain ⟨hpost, r, hrlk, hrret⟩ := hrecres
    have hr0 : r ≤ 0 := (hpost.1.2.2.2 e.target r hrlk).1
    have hml1 : 1 ≤ e.minlen := hml e heg
    have key : ∀ (acc2 : Option Int) (a2 : Int), acc2 = some a2 →
        a2 ≤ r - e.minlen → (∀ a0, acc = some a0 → a2 ≤ a0) →
        LpFoldPost g f fuel v (done ++ e :: es) s
          (lpFold (dfsLP g fuel) es (dfsLP g fuel e.target s).1 acc2) := by
      intro acc2 a2 ha2 ha2le ha2acc
      have hih := ihes (done ++ [e]) (dfsLP g fuel e.target s).1 acc2
        (fun e2 he2 => hes e2 (List.mem_cons_of_mem e he2))
        hpost.1
        (fun u hu hnr => hprog u ((hpost.2.2.2.2 u).mp ⟨hu, hnr⟩).1
          ((hpost.2.2.2.2 u).mp ⟨hu, hnr⟩).2)
        (le_trans hfuel (by have := hpost.2.2.1; omega))
        (by
          intro e2 he2
          rcases List.mem_append.mp he2 with h2 | h2
          · obtain ⟨rt, hrt, hbd⟩ := hdone e2 h2
            refine ⟨rt, hpost.2.2.2.1 e2.target rt hrt, ?_⟩
            intro a ha; rw [ha2] at ha; cases ha
            rcases hac2 : acc with _ | a0
            · rw [hac2] at hnone; rw [hnone rfl] at h2; cases h2
            · exact le_trans (ha2acc a0 hac2) (hbd a0 hac2)
          · rw [List.mem_singleton] at h2; subst h2
            refine ⟨r, hrlk, ?_⟩
            intro a ha; rw [ha2] at ha; cases ha; exact ha2le)
        (by intro h; rw [ha2] at h; cases h)
        (by intro a ha; rw [ha2] at ha; cases ha; omega)
      have hrw : (done ++ [e]) ++ es = done ++ e :: es := by simp
      rw [hrw] at hih
      obtain ⟨hpp, hprg, hfl, hwork, hnn, hbb⟩ := hih
      exact ⟨DfsPost_trans g s _ _ hpost hpp, hprg, hfl, hwork, hnn, hbb⟩
    have hne0 : ¬ (r - e.minlen = 0) := by omega
    cases acc with
    | none =>
      have hstep : lpFold (dfsLP g fuel) (e :: es) s none =
          lpFold (dfsLP g fuel) es (dfsLP g fuel e.target s).1 (some (r - e.minlen)) := by
        rw [lpFold, hrret]
        simp only [hne0, if_false]
      rw [hstep]
      refine key _ _ rfl (le_refl _) ?_
      intro ax hx; cases hx
    | some a0 =>
      by_cases hlt : r - e.minlen < a0
      · have hstep : lpFold (dfsLP g fuel) (e :: es) s (some a0) =
            lpFold (dfsLP g fuel) es (dfsLP g fuel e.target s).1 (some (r - e.minlen)) := by
          rw [lpFold, hrret]
          simp only [hne0, if_false, hlt, if_true]
        rw [hstep]
        refine key _ _ rfl (le_refl _) ?_
        intro ax hx
        have hax : a0 = ax := by injection hx
        omega
      · have hstep : lpFold (dfsLP g fuel) (e :: es) s (some a0) =
            lpFold (dfsLP g fuel) es (dfsLP g fuel e.target s).1 (some a0) := by
          rw [lpFold, hrret]
          simp only [hne0, if_false, hlt]
        rw [hstep]
        refine key _ _ rfl (by omega) ?_
        intro ax hx
        have hax : a0 = ax := by injection hx
        omega

theorem dfsLP_memo (g : DGraph) (fuel v : Nat) (s : LPSt)
    (h1 : ¬ (getNodeL g v).isNone = true) (h2 : v ∈ s.visited) :
    dfsLP g (fuel+1) v s = (s, rlookup s.ranks v) := by
  rw [dfsLP, if_neg h1, if_pos h2]

theorem dfsLP_fresh (g : DGraph) (fuel v : Nat) (s : LPSt)
    (h1 : ¬ (getNodeL g v).isNone = true) (h2 : v ∉ s.visited) :
    dfsLP g (fuel+1) v s =
      (⟨(lpFold (dfsLP g fuel) (outEdges g v) ⟨v :: s.visited, s.ranks⟩ none).1.visited,
        (v, lpRank (lpFold (dfsLP g fuel) (outEdges g v) ⟨v :: s.visited, s.ranks⟩ none).2) ::
        (lpFold (dfsLP g fuel) (outEdges g v) ⟨v :: s.visited, s.ranks⟩ none).1.ranks⟩,
       some (lpRank (lpFold (dfsLP g fuel) (outEdges g v) ⟨v :: s.visited, s.ranks⟩ none).2)) := by
  rw [dfsLP, if_neg h1, if_neg h2]

theorem dfsLP_spec (g : DGraph) (f : Nat → Nat) (hWF : WFg g) (hml : MinlenOK g)
    (ht : Topo g f) : ∀ fuel, RecSpec g f fuel := by
  intro fuel
  induction fuel with
  | zero =>
    intro v s hs hprog hfuel hv
    exfalso
    have := visited_length_le g hWF.2 s.visited hs.1 hs.2.1
    omega
  | succ fuel ihf =>
    intro v s hs hprog hfuel hv
    have hnn : ¬ (getNodeL g v).isNone = true := by
      cases h : getNodeL g v with
      | none => rw [h] at hv; cases hv
      | some _ => simp
    by_cases hvv : v ∈ s.visited
    · obtain ⟨r, hr⟩ : ∃ r, rlookup s.ranks v = some r := by
        cases h : rlookup s.ranks v with
        | none => exact absurd (hprog v hvv h) (lt_irrefl _)
        | some r => exact ⟨r, rfl⟩
      rw [dfsLP_memo g fuel v s hnn hvv]
      exact ⟨DfsPost_refl g s hs, r, hr, hr⟩
    · have hvnone : rlookup s.ranks v = none := by
        cases h : rlookup s.ranks v with
        | none => rfl
        | some r => exact absurd (hs.2.2.1 v r h) hvv
      have hs1inv : SInv g (⟨v :: s.visited, s.ranks⟩ : LPSt) := by
        refine ⟨List.nodup_cons.mpr ⟨hvv, hs.1⟩, ?_, ?_, hs.2.2.2⟩
        · intro u hu
          rcases List.mem_cons.mp hu with h | h
          · exact h ▸ hv
          · exact hs.2.1 u h
        · intro u r h
          exact List.mem_cons_of_mem _ (hs.2.2.1 u r h)
      have hfold := lpFold_spec g f hWF hml ht fuel ihf v (outEdges g v) []
        ⟨v :: s.visited, s.ranks⟩ none
        (fun e he => (mem_outEdges g v e).mp he)
        hs1inv
        (by
          intro u hu hnr
          rcases List.mem_cons.mp hu with h | h
          · exact h ▸ le_refl _
          · exact le_of_lt (hprog u h hnr))
        (by simp only [List.length_cons]; omega)
        (by intro e he; cases he)
        (fun _ => rfl)
        (by intro a h; cases h)
      rw [List.nil_append] at hfold
      rw [dfsLP_fresh g fuel v s hnn hvv]
      obtain ⟨hpost1, hprog1, hfuel1, hwork, hnone1, hbnd1⟩ := hfold
      have hvP := (hpost1.2.2.2.2 v).mpr ⟨List.mem_cons_self v _, hvnone⟩
      set P := lpFold (dfsLP g fuel) (outEdges g v) ⟨v :: s.visited, s.ranks⟩ none with hPd
      have hrank0 : lpRank P.2 ≤ 0 := by
        cases hp2 : P.2 with
        | none => simp [lpRank]
        | some a =>
          have := hbnd1 a hp2
          simp only [lpRank]
          split
          · exact le_refl 0
          · omega
      have hgoodv : lpRank P.2 ≤ 0 ∧ ∀ e ∈ g.edges, e.source = v →
          ∃ rt, rlookup ((v, lpRank P.2) :: P.1.ranks) e.target = some rt ∧
            lpRank P.2 ≤ rt - e.minlen := by
        refine ⟨hrank0, ?_⟩
        intro e heg hesrc
        have hemem : e ∈ outEdges g v := (mem_outEdges g v e).mpr ⟨heg, hesrc⟩
        obtain ⟨rt, hrt, hbd⟩ := hwork e hemem
        have htne : e.target ≠ v := by
          intro hq
          rw [hq, hvP.2] at hrt
          cases hrt
        refine ⟨rt, by rw [rlookup_cons_ne _ _ _ _ htne]; exact hrt, ?_⟩
        cases hp2 : P.2 with
        | none =>
          rw [hnone1 hp2] at hemem
          cases hemem
        | some a =>
          have hba := hbd a hp2
          have hbnd := hbnd1 a hp2
          have hlpr : lpRank (some a) = a := by
            simp only [lpRank]
            split
            · omega
            · rfl
          rw [hlpr]
          exact hba
      have hinv3 : SInv g (⟨P.1.visited, (v, lpRank P.2) :: P.1.ranks⟩ : LPSt) := by
        refine ⟨hpost1.1.1, hpost1.1.2.1, ?_, ?_⟩
        · intro u r h
          by_cases huv : u = v
          · exact huv ▸ hvP.1
          · rw [rlookup_cons_ne _ _ _ _ huv] at h
            exact hpost1.1.2.2.1 u r h
        · intro u r h
          by_cases huv : u = v
          · rw [huv, rlookup_cons_self] at h
            cases h
            rw [huv]
            exact hgoodv
          · rw [rlookup_cons_ne _ _ _ _ huv] at h
            obtain ⟨hr0, hout⟩ := hpost1.1.2.2.2 u r h
            refine ⟨hr0, ?_⟩
            intro e heg hesrc
            obtain ⟨rt, hrt, hbd⟩ := hout e heg hesrc
            have htne : e.target ≠ v := by
              intro hq
              rw [hq, hvP.2] at hrt
              cases hrt
            exact ⟨rt, by rw [rlookup_cons_ne _ _ _ _ htne]; exact hrt, hbd⟩
      refine ⟨⟨hinv3, ?_, ?_, ?_, ?_⟩, lpRank P.2, rlookup_cons_self _ _ _, rfl⟩
      · intro u hu
        exact hpost1.2.1 u (List.mem_cons_of_mem v hu)
      · have h1 := hpost1.2.2.1
        simp only [List.length_cons] at h1
        show s.visited.length ≤ P.1.visited.length
        omega
      · intro u r h
        have huv : u ≠ v := by
          intro hq
          rw [hq, hvnone] at h
          cases h
        rw [rlookup_cons_ne _ _ _ _ huv]
        exact hpost1.2.2.2.1 u r h
      · intro u
        by_cases huv : u = v
        · constructor
          · intro ⟨_, h2⟩
            rw [huv, rlookup_cons_self] at h2
            cases h2
          · intro ⟨h1, _⟩
            exact absurd (huv ▸ h1) hvv
        · have h1 : rlookup ((v, lpRank P.2) :: P.1.ranks) u = rlookup P.1.ranks u :=
            rlookup_cons_ne _ _ _ _ huv
          have h2 := hpost1.2.2.2.2 u
          constructor
          · intro ⟨ha, hb⟩
            rw [h1] at hb
            have := h2.mp ⟨ha, hb⟩
            exact ⟨List.mem_of_ne_of_mem huv this.1, this.2⟩
          · intro ⟨ha, hb⟩
            have := h2.mpr ⟨List.mem_cons_of_mem v ha, hb⟩
            exact ⟨this.1, by rw [h1]; exact this.2⟩

theorem lpTop_fold_spec (g : DGraph) (f : Nat → Nat) (hWF : WFg g) (hml : MinlenOK g)
    (ht : Topo g f) :
    ∀ (ns : List GNode) (s : LPSt),
      (∀ n ∈ ns, (getNodeL g n.id).isSome) →
      SInv g s →
      (∀ u ∈ s.visited, (rlookup s.ranks u).isSome) →
      SInv g (ns.foldl (fun s n => (dfsLP g (g.nodes.length + 1) n.id s).1) s) ∧
      (∀ u ∈ (ns.foldl (fun s n => (dfsLP g (g.nodes.length + 1) n.id s).1) s).visited,
        (rlookup (ns.foldl (fun s n => (dfsLP g (g.nodes.length + 1) n.id s).1) s).ranks u).isSome) ∧
      (∀ u r, rlookup s.ranks u = some r →
        rlookup (ns.foldl (fun s n => (dfsLP g (g.nodes.length + 1) n.id s).1) s).ranks u = some r) ∧
      (∀ n ∈ ns, ∃ r,
        rlookup (ns.foldl (fun s n => (dfsLP g (g.nodes.length + 1) n.id s).1) s).ranks n.id = some r) := by
  intro ns
  induction ns with
  | nil =>
    intro s _ hs hnp
    refine ⟨hs, hnp, fun u r h => h, ?_⟩
    intro n hn; cases hn
  | cons n ns ihn =>
    intro s hns hs hnp
    have hspec := dfsLP_spec g f hWF hml ht (g.nodes.length + 1) n.id s hs
      (by
        intro u hu hnone
        have := hnp u hu
        rw [hnone] at this
        cases this)
      (by omega)
      (hns n (List.mem_cons_self n ns))
    obtain ⟨hpost, r, hrlk, _⟩ := hspec
    have hnp2 : ∀ u ∈ (dfsLP g (g.nodes.length + 1) n.id s).1.visited,
        (rlookup (dfsLP g (g.nodes.length + 1) n.id s).1.ranks u).isSome := by
      intro u hu
      cases hq : rlookup (dfsLP g (g.nodes.length + 1) n.id s).1.ranks u with
      | some _ => simp
      | none =>
        have := (hpost.2.2.2.2 u).mp ⟨hu, hq⟩
        have h2 := hnp u this.1
        rw [this.2] at h2
        cases h2
    have hih := ihn (dfsLP g (g.nodes.length + 1) n.id s).1
      (fun n2 hn2 => hns n2 (List.mem_cons_of_mem n hn2))
      hpost.1 hnp2
    rw [List.foldl_cons]
    refine ⟨hih.1, hih.2.1, ?_, ?_⟩
    · intro u r2 h
      exact hih.2.2.1 u r2 (hpost.2.2.2.1 u r2 h)
    · intro n2 hn2
      rcases List.mem_cons.mp hn2 with h2 | h2
      · rw [h2]
        exact ⟨r, hih.2.2.1 n.id r hrlk⟩
      · exact hih.2.2.2 n2 h2

/-- The final state of `longestPath`'s top-level fold. -/
def lpFinal (g : DGraph) : LPSt :=
  (g.nodes.filter (fun n => (inEdges g n.id).length == 0)).foldl
    (fun s n => (dfsLP g (g.nodes.length + 1) n.id s).1)
    ⟨[], []⟩

theorem longestPath_eq_lpFinal (g : DGraph) : longestPath g = (lpFinal g).ranks := rfl

theorem SInv_nil (g : DGraph) : SInv g ⟨[], []⟩ := by
  refine ⟨List.nodup_nil, ?_, ?_, ?_⟩
  · intro v hv; cases hv
  · intro v r h; cases h
  · intro v r h; cases h

theorem lpFinal_spec (g : DGraph) (f : Nat → Nat) (hWF : WFg g) (hml : MinlenOK g)
    (ht : Topo g f) :
    SInv g (lpFinal g) ∧
    (∀ n ∈ g.nodes.filter (fun n => (inEdges g n.id).length == 0),
      ∃ r, rlookup (lpFinal g).ranks n.id = some r) := by
  have h := lpTop_fold_spec g f hWF hml ht
    (g.nodes.filter (fun n => (inEdges g n.id).length == 0)) ⟨[], []⟩
    (by
      intro n hn
      have hn2 := List.mem_of_mem_filter hn
      rw [getNodeL, List.find?_isSome]
      exact ⟨n, hn2, by simp⟩)
    (SInv_nil g)
    (by intro u hu; cases hu)
  exact ⟨h.1, h.2.2.2⟩

theorem longestPath_all_ranked (g : DGraph) (f : Nat → Nat) (hWF : WFg g)
    (hml : MinlenOK g) (ht : Topo g f) :
    ∀ v ∈ nodeIds g, ∃ r, rlookup (longestPath g) v = some r := by
  obtain ⟨hinv, hsrc⟩ := lpFinal_spec g f hWF hml ht
  have main : ∀ k v, f v < k → v ∈ nodeIds g → ∃ r, rlookup (lpFinal g).ranks v = some r := by
    intro k
    induction k with
    | zero => intro v h; omega
    | succ k ihk =>
      intro v hfv hv
      by_cases hin : inEdges g v = []
      · obtain ⟨n, hn, hnid⟩ := List.mem_map.mp hv
        have hmem : n ∈ g.nodes.filter (fun n => (inEdges g n.id).length == 0) := by
          rw [List.mem_filter]
          refine ⟨hn, ?_⟩
          rw [hnid, hin]
          rfl
        have := hsrc n hmem
        rw [hnid] at this
        exact this
      · obtain ⟨e, he⟩ := List.exists_mem_of_ne_nil _ hin
        obtain ⟨heg, hetv⟩ := (mem_inEdges g v e).mp he
        have hsm : e.source ∈ nodeIds g :=
          (getNodeL_isSome_iff g e.source).mp (hWF.1 e heg).1
        have hflt : f e.source < k := by
          have := ht e heg
          rw [hetv] at this
          omega
        obtain ⟨rs, hrs⟩ := ihk e.source hflt hsm
        obtain ⟨_, hout⟩ := hinv.2.2.2 e.source rs hrs
        obtain ⟨rt, hrt, _⟩ := hout e heg rfl
        exact ⟨rt, hetv ▸ hrt⟩
  intro v hv
  rw [longestPath_eq_lpFinal]
  exact main (f v + 1) v (by omega) hv

theorem longestPath_post (g : DGraph) (f : Nat → Nat) (hWF : WFg g) (hml : MinlenOK g)
    (ht : Topo g f) :
    AllRanked g (longestPath g) ∧ Feas g (longestPath g) := by
  have hall := longestPath_all_ranked g f hWF hml ht
  obtain ⟨hinv, _⟩ := lpFinal_spec g f hWF hml ht
  constructor
  · intro v hv
    obtain ⟨r, hr⟩ := hall v hv
    rw [hr]
    simp
  · intro e heg
    have hsm : e.source ∈ nodeIds g :=
      (getNodeL_isSome_iff g e.source).mp (hWF.1 e heg).1
    obtain ⟨rs, hrs⟩ := hall e.source hsm
    rw [longestPath_eq_lpFinal] at hrs
    obtain ⟨_, hout⟩ := hinv.2.2.2 e.source rs hrs
    obtain ⟨rt, hrt, hle⟩ := hout e heg rfl
    rw [slackD, longestPath_eq_lpFinal, hrs, hrt]
    simp only [Option.getD_some]
    omega

/-! ### Invariants of `tightTree` / `feasibleTree` -/

/-- Containment of tight trees. -/
def TSub (t t2 : TGraph) : Prop :=
  (∀ x ∈ t.tnodes, x ∈ t2.tnodes) ∧ (∀ e ∈ t.tedges, e ∈ t2.tedges)

theorem TSub_refl (t : TGraph) : TSub t t := ⟨fun _ h => h, fun _ h => h⟩

theorem TSub_trans {t1 t2 t3 : TGraph} (h12 : TSub t1 t2) (h23 : TSub t2 t3) :
    TSub t1 t3 :=
  ⟨fun x hx => h23.1 x (h12.1 x hx), fun e he => h23.2 e (h12.2 e he)⟩

/-- Tree invariant: distinct tree nodes drawn from `g`, and every tree edge is
a copy of a `g`-edge (possibly flipped) whose two endpoints are tree nodes
and whose slack under the current ranks is 0. -/
def TInv (g : DGraph) (m : RankMap) (t : TGraph) : Prop :=
  t.tnodes.Nodup ∧ (∀ x ∈ t.tnodes, x ∈ nodeIds g) ∧
  (∀ te ∈ t.tedges, ∃ ge ∈ g.edges, ge.eid = te.eid ∧
    ((te.source = ge.source ∧ te.target = ge.target) ∨
     (te.source = ge.target ∧ te.target = ge.source)) ∧
    te.source ∈ t.tnodes ∧ te.target ∈ t.tnodes ∧ slackD m ge = 0)

theorem nodup_subset_length (l l2 : List Nat) (h1 : l.Nodup) (h2 : ∀ x ∈ l, x ∈ l2)
    (h3 : l2.Nodup) : l.length ≤ l2.length := by
  have hsub : l.toFinset ⊆ l2.toFinset := by
    intro x hx
    rw [List.mem_toFinset] at hx ⊢
    exact h2 x hx
  calc l.length = l.toFinset.card := (List.toFinset_card_of_nodup h1).symm
    _ ≤ l2.toFinset.card := Finset.card_le_card hsub
    _ = l2.length := List.toFinset_card_of_nodup h3

theorem grow_length (l l2 : List Nat) (w : Nat) (h1 : l.Nodup) (h2 : ∀ x ∈ l, x ∈ l2)
    (h3 : l2.Nodup) (hw : w ∈ l2) (hwl : w ∉ l) : l.length + 1 ≤ l2.length := by
  have hsub : insert w l.toFinset ⊆ l2.toFinset := by
    intro x hx
    rw [Finset.mem_insert] at hx
    rw [List.mem_toFinset]
    rcases hx with h | h
    · exact h ▸ hw
    · exact h2 x (List.mem_toFinset.mp h)
  have hcard : (insert w l.toFinset).card = l.toFinset.card + 1 :=
    Finset.card_insert_of_not_mem (by rw [List.mem_toFinset]; exact hwl)
  calc l.length + 1 = l.toFinset.card + 1 := by rw [List.toFinset_card_of_nodup h1]
    _ = (insert w l.toFinset).card := hcard.symm
    _ ≤ l2.toFinset.card := Finset.card_le_card hsub
    _ = l2.length := List.toFinset_card_of_nodup h3

/-- One admission step preserves the tree invariant. -/
theorem admit_step_inv (g : DGraph) (m : RankMap) (hWF : WFg g) (t : TGraph)
    (v : Nat) (e : GEdge) (heg : e ∈ g.edges) (hinc : e.source = v ∨ e.target = v)
    (hv : v ∈ t.tnodes) (hinv : TInv g m t)
    (w : Nat) (hw : w = (if v = e.source then e.target else e.source))
    (hwn : w ∉ t.tnodes) (hsl : slackD m e = 0) :
    TInv g m ⟨t.tnodes ++ [w], t.tedges ++ [⟨e.eid, v, w⟩]⟩ ∧
    TSub t ⟨t.tnodes ++ [w], t.tedges ++ [⟨e.eid, v, w⟩]⟩ ∧
    w ∈ (⟨t.tnodes ++ [w], t.tedges ++ [⟨e.eid, v, w⟩]⟩ : TGraph).tnodes := by
  have hwid : w ∈ nodeIds g := by
    by_cases hve : v = e.source
    · rw [hw, if_pos hve]
      exact (getNodeL_isSome_iff g e.target).mp (hWF.1 e heg).2
    · rw [hw, if_neg hve]
      exact (getNodeL_isSome_iff g e.source).mp (hWF.1 e heg).1
  have hmemw : w ∈ t.tnodes ++ [w] := List.mem_append_right _ (List.mem_singleton_self w)
  have hmemv : v ∈ t.tnodes ++ [w] := List.mem_append_left _ hv
  refine ⟨⟨?_, ?_, ?_⟩, ⟨fun x hx => List.mem_append_left _ hx,
    fun e2 he2 => List.mem_append_left _ he2⟩, hmemw⟩
  · rw [List.nodup_append]
    exact ⟨hinv.1, List.nodup_singleton w, by
      intro a ha hb
      rw [List.mem_singleton] at hb
      exact hwn (hb ▸ ha)⟩
  · intro x hx
    rcases List.mem_append.mp hx with h | h
    · exact hinv.2.1 x h
    · rw [List.mem_singleton] at h
      exact h ▸ hwid
  · intro te hte
    rcases List.mem_append.mp hte with h | h
    · obtain ⟨ge, hge, hid, hor, hs, ht2, hsl2⟩ := hinv.2.2 te h
      exact ⟨ge, hge, hid, hor, List.mem_append_left _ hs, List.mem_append_left _ ht2, hsl2⟩
    · rw [List.mem_singleton] at h
      subst h
      refine ⟨e, heg, rfl, ?_, hmemv, hmemw, hsl⟩
      by_cases hve : v = e.source
      · left
        exact ⟨hve.symm ▸ rfl, by rw [hw, if_pos hve]⟩
      · right
        have hvt : v = e.target := by
          rcases hinc with h | h
          · exact absurd h.symm hve
          · exact h.symm
        exact ⟨hvt, by rw [hw, if_neg hve]⟩

/-- `tdFold` with the tight-admission test preserves the invariant and only
grows the tree. -/
theorem tdFold_inv (g : DGraph) (m : RankMap) (hWF : WFg g) (fuel : Nat)
    (IH : ∀ w t2, w ∈ t2.tnodes → TInv g m t2 →
      TSub t2 (tightDfs g m fuel w t2) ∧ TInv g m (tightDfs g m fuel w t2)) (v : Nat) :
    ∀ (es : List GEdge) (t : TGraph),
      (∀ e ∈ es, e ∈ g.edges ∧ (e.source = v ∨ e.target = v)) →
      v ∈ t.tnodes → TInv g m t →
      TSub t (tdFold m (tightDfs g m fuel) (tightAdmit m) g v es t) ∧
      TInv g m (tdFold m (tightDfs g m fuel) (tightAdmit m) g v es t) := by
  intro es
  induction es with
  | nil => intro t _ _ hinv; exact ⟨TSub_refl t, hinv⟩
  | cons e es ihes =>
    intro t hes hv hinv
    rw [tdFold]
    by_cases hc : (if v = e.source then e.target else e.source) ∉ t.tnodes ∧
        tightAdmit m g (if v = e.source then e.target else e.source) e
    · rw [if_pos hc]
      have hstep := admit_step_inv g m hWF t v e (hes e (List.mem_cons_self e es)).1
        (hes e (List.mem_cons_self e es)).2 hv hinv _ rfl hc.1 hc.2
      have hrec := IH _ _ hstep.2.2 hstep.1
      have hnext := ihes _ (fun e2 he2 => hes e2 (List.mem_cons_of_mem e he2))
        (hrec.1.1 v (hstep.2.1.1 v hv)) hrec.2
      exact ⟨TSub_trans (TSub_trans hstep.2.1 hrec.1) hnext.1, hnext.2⟩
    · rw [if_neg hc]
      exact ihes t (fun e2 he2 => hes e2 (List.mem_cons_of_mem e he2)) hv hinv

theorem tightDfs_inv (g : DGraph) (m : RankMap) (hWF : WFg g) :
    ∀ fuel (w : Nat) (t : TGraph), w ∈ t.tnodes → TInv g m t →
      TSub t (tightDfs g m fuel w t) ∧ TInv g m (tightDfs g m fuel w t) := by
  intro fuel
  induction fuel with
  | zero => intro w t _ hinv; exact ⟨TSub_refl t, hinv⟩
  | succ fuel ihf =>
    intro w t hw hinv
    rw [tightDfs]
    exact tdFold_inv g m hWF fuel ihf w (bothEdges g w) t
      (fun e he => (mem_bothEdges g w e).mp he) hw hinv

/-- After `tdFold` from `v`, the far endpoint of every tight incident edge in
the processed list is in the tree. -/
theorem tdFold_partner (g : DGraph) (m : RankMap) (hWF : WFg g) (fuel : Nat)
    (IH : ∀ w t2, w ∈ t2.tnodes → TInv g m t2 →
      TSub t2 (tightDfs g m fuel w t2) ∧ TInv g m (tightDfs g m fuel w t2)) (v : Nat) :
    ∀ (es : List GEdge) (t : TGraph),
      (∀ e ∈ es, e ∈ g.edges ∧ (e.source = v ∨ e.target = v)) →
      v ∈ t.tnodes → TInv g m t →
      ∀ e0 ∈ es, slackD m e0 = 0 →
        (if v = e0.source then e0.target else e0.source) ∈
          (tdFold m (tightDfs g m fuel) (tightAdmit m) g v es t).tnodes := by
  intro es
  induction es with
  | nil => intro t _ _ _ e0 he0; cases he0
  | cons e es ihes =>
    intro t hes hv hinv e0 he0 hsl0
    rw [tdFold]
    have hmono : ∀ t2, v ∈ t2.tnodes → TInv g m t2 →
        TSub t2 (tdFold m (tightDfs g m fuel) (tightAdmit m) g v es t2) ∧
        TInv g m (tdFold m (tightDfs g m fuel) (tightAdmit m) g v es t2) :=
      fun t2 hv2 hinv2 =>
        tdFold_inv g m hWF fuel IH v es t2
          (fun e2 he2 => hes e2 (List.mem_cons_of_mem e he2)) hv2 hinv2
    by_cases hc : (if v = e.source then e.target else e.source) ∉ t.tnodes ∧
        tightAdmit m g (if v = e.source then e.target else e.source) e
    · rw [if_pos hc]
      have hstep := admit_step_inv g m hWF t v e (hes e (List.mem_cons_self e es)).1
        (hes e (List.mem_cons_self e es)).2 hv hinv _ rfl hc.1 hc.2
      have hrec := IH _ _ hstep.2.2 hstep.1
      have hvrec := hrec.1.1 v (hstep.2.1.1 v hv)
      rcases List.mem_cons.mp he0 with h0 | h0
      · subst h0
        have hw2 := hrec.1.1 _ hstep.2.2
        exact (hmono _ hvrec hrec.2).1.1 _ hw2
      · exact ihes _ (fun e2 he2 => hes e2 (List.mem_cons_of_mem e he2)) hvrec hrec.2 e0 h0 hsl0
    · rw [if_neg hc]
      rcases List.mem_cons.mp he0 with h0 | h0
      · subst h0
        have hwin : (if v = e0.source then e0.target else e0.source) ∈ t.tnodes := by
          by_contra hnin
          exact hc ⟨hnin, hsl0⟩
        exact (hmono t hv hinv).1.1 _ hwin
      · exact ihes t (fun e2 he2 => hes e2 (List.mem_cons_of_mem e he2)) hv hinv e0 h0 hsl0

/-- The outer fold of `tightTree` over a snapshot of tree nodes. -/
theorem ttFold_inv (g : DGraph) (m : RankMap) (hWF : WFg g) :
    ∀ (ns : List Nat) (t : TGraph), (∀ x ∈ ns, x ∈ t.tnodes) → TInv g m t →
      TSub t (ns.foldl (fun t v => tightDfs g m (g.nodes.length + 1) v t) t) ∧
      TInv g m (ns.foldl (fun t v => tightDfs g m (g.nodes.length + 1) v t) t) := by
  intro ns
  induction ns with
  | nil => intro t _ hinv; exact ⟨TSub_refl t, hinv⟩
  | cons v ns ihn =>
    intro t hns hinv
    rw [List.foldl_cons]
    have hstep := tightDfs_inv g m hWF (g.nodes.length + 1) v t
      (hns v (List.mem_cons_self v ns)) hinv
    have hnext := ihn (tightDfs g m (g.nodes.length + 1) v t)
      (fun x hx => hstep.1.1 x (hns x (List.mem_cons_of_mem v hx))) hstep.2
    exact ⟨TSub_trans hstep.1 hnext.1, hnext.2⟩

theorem tightTree_inv (g : DGraph) (m : RankMap) (hWF : WFg g) (t : TGraph)
    (hinv : TInv g m t) :
    TSub t (tightTree g m t) ∧ TInv g m (tightTree g m t) :=
  ttFold_inv g m hWF t.tnodes t (fun _ hx => hx) hinv

/-- If a tree node has an incident zero-slack edge, `tightTree` puts the far
endpoint into the tree. -/
theorem tightTree_partner (g : DGraph) (m : RankMap) (hWF : WFg g) (t : TGraph)
    (hinv : TInv g m t) (v : Nat) (hv : v ∈ t.tnodes) (e0 : GEdge)
    (he0 : e0 ∈ g.edges) (hinc : e0.source = v ∨ e0.target = v) (hsl : slackD m e0 = 0) :
    (if v = e0.source then e0.target else e0.source) ∈ (tightTree g m t).tnodes := by
  rw [tightTree]
  have main : ∀ (ns : List Nat) (t2 : TGraph), TInv g m t2 → (∀ x ∈ ns, x ∈ t2.tnodes) →
      v ∈ ns →
      (if v = e0.source then e0.target else e0.source) ∈
        (ns.foldl (fun t v => tightDfs g m (g.nodes.length + 1) v t) t2).tnodes := by
    intro ns
    induction ns with
    | nil => intro t2 _ _ hv2; cases hv2
    | cons x ns ihn =>
      intro t2 hinv2 hns hv2
      rw [List.foldl_cons]
      have hstep := tightDfs_inv g m hWF (g.nodes.length + 1) x t2
        (hns x (List.mem_cons_self x ns)) hinv2
      rcases List.mem_cons.mp hv2 with h | h
      · subst h
        have hpart : (if v = e0.source then e0.target else e0.source) ∈
            (tightDfs g m (g.nodes.length + 1) v t2).tnodes := by
          rw [tightDfs]
          exact tdFold_partner g m hWF g.nodes.length
            (tightDfs_inv g m hWF g.nodes.length) v (bothEdges g v) t2
            (fun e he => (mem_bothEdges g v e).mp he)
            (hns v (List.mem_cons_self v ns)) hinv2 e0
            ((mem_bothEdges g v e0).mpr ⟨he0, hinc⟩) hsl
        have hrest := ttFold_inv g m hWF ns (tightDfs g m (g.nodes.length + 1) v t2)
          (fun y hy => hstep.1.1 y (hns y (List.mem_cons_of_mem v hy))) hstep.2
        exact hrest.1.1 _ hpart
      · exact ihn (tightDfs g m (g.nodes.length + 1) x t2) hstep.2
          (fun y hy => hstep.1.1 y (hns y (List.mem_cons_of_mem x hy))) h
  exact main t.tnodes t hinv (fun _ hx => hx) hv

/-! ### `shiftRanks`, `minBy`, `findMinSlackEdge` lemmas -/

theorem shiftFold_lookup (delta : Int) :
    ∀ (ns : List Nat) (m : RankMap) (v : Nat), ns.Nodup →
      (v ∈ ns →
        rlookup (ns.foldl (fun m x => (x, (rlookup m x).getD 0 + delta) :: m) m) v =
          some ((rlookup m v).getD 0 + delta)) ∧
      (v ∉ ns →
        rlookup (ns.foldl (fun m x => (x, (rlookup m x).getD 0 + delta) :: m) m) v =
          rlookup m v) := by
  intro ns
  induction ns with
  | nil =>
    intro m v _
    exact ⟨fun h => absurd h (List.not_mem_nil v), fun _ => rfl⟩
  | cons x ns ihn =>
    intro m v hnd
    rw [List.nodup_cons] at hnd
    constructor
    · intro hv
      rw [List.foldl_cons]
      rcases List.mem_cons.mp hv with h | h
      · subst h
        have := (ihn ((v, (rlookup m v).getD 0 + delta) :: m) v hnd.2).2 hnd.1
        rw [this, rlookup_cons_self]
      · have hne : v ≠ x := fun hq => hnd.1 (hq ▸ h)
        have := (ihn ((x, (rlookup m x).getD 0 + delta) :: m) v hnd.2).1 h
        rw [this, rlookup_cons_ne _ _ _ _ hne]
    · intro hv
      rw [List.foldl_cons]
      have hne : v ≠ x := fun hq => hv (hq ▸ List.mem_cons_self x ns)
      have hnv : v ∉ ns := fun hq => hv (List.mem_cons_of_mem x hq)
      have := (ihn ((x, (rlookup m x).getD 0 + delta) :: m) v hnd.2).2 hnv
      rw [this, rlookup_cons_ne _ _ _ _ hne]

theorem shiftRanks_lookup_mem (t : TGraph) (m : RankMap) (delta : Int) (v : Nat)
    (hnd : t.tnodes.Nodup) (hv : v ∈ t.tnodes) :
    rlookup (shiftRanks t m delta) v = some ((rlookup m v).getD 0 + delta) :=
  (shiftFold_lookup delta t.tnodes m v hnd).1 hv

theorem shiftRanks_lookup_not_mem (t : TGraph) (m : RankMap) (delta : Int) (v : Nat)
    (hnd : t.tnodes.Nodup) (hv : v ∉ t.tnodes) :
    rlookup (shiftRanks t m delta) v = rlookup m v :=
  (shiftFold_lookup delta t.tnodes m v hnd).2 hv

theorem shiftRanks_getD (t : TGraph) (m : RankMap) (delta : Int) (v : Nat)
    (hnd : t.tnodes.Nodup) :
    (rlookup (shiftRanks t m delta) v).getD 0 =
      if v ∈ t.tnodes then (rlookup m v).getD 0 + delta else (rlookup m v).getD 0 := by
  by_cases hv : v ∈ t.tnodes
  · rw [if_pos hv, shiftRanks_lookup_mem t m delta v hnd hv, Option.getD_some]
  · rw [if_neg hv, shiftRanks_lookup_not_mem t m delta v hnd hv]

theorem slackD_shift (t : TGraph) (m : RankMap) (delta : Int) (e : GEdge)
    (hnd : t.tnodes.Nodup) :
    slackD (shiftRanks t m delta) e =
      slackD m e + (if e.target ∈ t.tnodes then delta else 0)
        - (if e.source ∈ t.tnodes then delta else 0) := by
  rw [slackD, slackD, shiftRanks_getD t m delta e.target hnd,
    shiftRanks_getD t m delta e.source hnd]
  by_cases h1 : e.target ∈ t.tnodes <;> by_cases h2 : e.source ∈ t.tnodes <;>
    simp [h1, h2] <;> omega

theorem shiftRanks_allRanked (g : DGraph) (t : TGraph) (m : RankMap) (delta : Int)
    (hnd : t.tnodes.Nodup) (h : AllRanked g m) : AllRanked g (shiftRanks t m delta) := by
  intro v hv
  by_cases hm : v ∈ t.tnodes
  · rw [shiftRanks_lookup_mem t m delta v hnd hm]
    simp
  · rw [shiftRanks_lookup_not_mem t m delta v hnd hm]
    exact h v hv

theorem minBy_go {α : Type} (f : α → WithTop Int) :
    ∀ (l : List α) (b : α),
      ∃ c, (l.foldl (fun best e =>
        match best with
        | none => some e
        | some b => if f e < f b then some e else some b) (some b)) = some c ∧
        c ∈ b :: l ∧ ∀ y ∈ b :: l, f c ≤ f y := by
  intro l
  induction l with
  | nil =>
    intro b
    refine ⟨b, rfl, List.mem_cons_self b [], ?_⟩
    intro y hy
    rcases List.mem_cons.mp hy with h | h
    · exact h ▸ le_refl _
    · cases h
  | cons e es ihl =>
    intro b
    rw [List.foldl_cons]
    by_cases hlt : f e < f b
    · simp only [hlt, if_true]
      obtain ⟨c, hc, hcm, hcmin⟩ := ihl e
      refine ⟨c, hc, ?_, ?_⟩
      · rcases List.mem_cons.mp hcm with h | h
        · rw [h]
          exact List.mem_cons_of_mem b (List.mem_cons_self e es)
        · exact List.mem_cons_of_mem b (List.mem_cons_of_mem e h)
      · intro y hy
        rcases List.mem_cons.mp hy with h | h
        · exact le_trans (le_trans (hcmin e (List.mem_cons_self e es)) (le_of_lt hlt)) (h ▸ le_refl _)
        · exact hcmin y h
    · simp only [hlt, if_false]
      obtain ⟨c, hc, hcm, hcmin⟩ := ihl b
      refine ⟨c, hc, ?_, ?_⟩
      · rcases List.mem_cons.mp hcm with h | h
        · exact h ▸ List.mem_cons_self b _
        · exact List.mem_cons_of_mem b (List.mem_cons_of_mem e h)
      · intro y hy
        rcases List.mem_cons.mp hy with h | h
        · exact hcmin y (h ▸ List.mem_cons_self b es)
        · rcases List.mem_cons.mp h with h2 | h2
          · rw [h2]
            exact le_trans (hcmin b (List.mem_cons_self b es)) (le_of_not_lt hlt)
          · exact hcmin y (List.mem_cons_of_mem b h2)

theorem minBy_spec {α : Type} (f : α → WithTop Int) (l : List α) (hl : l ≠ []) :
    ∃ c, minBy l f = some c ∧ c ∈ l ∧ ∀ y ∈ l, f c ≤ f y := by
  cases l with
  | nil => exact absurd rfl hl
  | cons b bs =>
    rw [minBy, List.foldl_cons]
    exact minBy_go f bs b

theorem ftScore_crossing (t : TGraph) (m : RankMap) (e : GEdge)
    (h : (e.source ∈ t.tnodes) ≠ (e.target ∈ t.tnodes)) :
    ftScore t m e = ((slackD m e : Int) : WithTop Int) := by
  rw [ftScore, if_pos h]

theorem ftScore_not_crossing (t : TGraph) (m : RankMap) (e : GEdge)
    (h : ¬ ((e.source ∈ t.tnodes) ≠ (e.target ∈ t.tnodes))) :
    ftScore t m e = ⊤ := by
  rw [ftScore, if_neg h]

/-! ### The `feasibleTree` loop -/

theorem ftLoop_exit_eq (g : DGraph) (fuel : Nat) (t : TGraph) (m : RankMap)
    (h : ¬ (tightTree g m t).tnodes.length < g.nodes.length) :
    ftLoop g fuel t m = (tightTree g m t, m) := by
  rw [ftLoop.eq_def]
  show (if (tightTree g m t).tnodes.length < g.nodes.length then _ else _) = _
  rw [if_neg h]

theorem ftLoop_succ_eq (g : DGraph) (fuel : Nat) (t : TGraph) (m : RankMap) :
    ftLoop g (fuel+1) t m =
      if (tightTree g m t).tnodes.length < g.nodes.length then
        (match findMinSlackEdge (tightTree g m t) g m with
         | none => (tightTree g m t, m)
         | some e =>
           ftLoop g fuel (tightTree g m t)
             (shiftRanks (tightTree g m t) m
               (if e.source ∈ (tightTree g m t).tnodes then slackD m e
                else - slackD m e)))
      else (tightTree g m t, m) := by
  rw [ftLoop.eq_def]

theorem ftLoop_spec (g : DGraph) (hWF : WFg g) (hconn : Conn g) :
    ∀ (fuel : Nat) (t : TGraph) (m : RankMap),
      TInv g m t → t.tnodes ≠ [] → AllRanked g m → Feas g m →
      g.nodes.length ≤ fuel + (tightTree g m t).tnodes.length →
      (ftLoop g fuel t m).1.tnodes.length = g.nodes.length ∧
      TInv g (ftLoop g fuel t m).2 (ftLoop g fuel t m).1 ∧
      AllRanked g (ftLoop g fuel t m).2 ∧ Feas g (ftLoop g fuel t m).2 := by
  have exitc : ∀ (fuel : Nat) (t : TGraph) (m : RankMap), TInv g m t →
      ¬ (tightTree g m t).tnodes.length < g.nodes.length →
      (ftLoop g fuel t m).1.tnodes.length = g.nodes.length ∧
      TInv g (ftLoop g fuel t m).2 (ftLoop g fuel t m).1 ∧
      (ftLoop g fuel t m).2 = m := by
    intro fuel t m hinv hge
    have htt := tightTree_inv g m hWF t hinv
    have hle : (tightTree g m t).tnodes.length ≤ g.nodes.length := by
      have := nodup_subset_length (tightTree g m t).tnodes (nodeIds g)
        htt.2.1 htt.2.2.1 hWF.2
      rw [nodeIds, List.length_map] at this
      exact this
    rw [ftLoop_exit_eq g fuel t m hge]
    refine ⟨?_, htt.2, rfl⟩
    show (tightTree g m t).tnodes.length = g.nodes.length
    omega
  intro fuel
  induction fuel with
  | zero =>
    intro t m hinv hne har hfeas hbound
    have hge : ¬ (tightTree g m t).tnodes.length < g.nodes.length := by omega
    obtain ⟨h1, h2, h3⟩ := exitc 0 t m hinv hge
    rw [h3] at h2 ⊢
    exact ⟨h1, h2, har, hfeas⟩
  | succ fuel ihf =>
    intro t m hinv hne har hfeas hbound
    have htt := tightTree_inv g m hWF t hinv
    by_cases hlt : (tightTree g m t).tnodes.length < g.nodes.length
    · rw [ftLoop_succ_eq, if_pos hlt]
      set t2 := tightTree g m t with ht2d
      have hinv2 : TInv g m t2 := htt.2
      have ht2ne : t2.tnodes ≠ [] := by
        cases hc : t.tnodes with
        | nil => exact absurd hc hne
        | cons x xs =>
          have : x ∈ t2.tnodes := htt.1.1 x (by rw [hc]; exact List.mem_cons_self x xs)
          intro hq
          rw [hq] at this
          cases this
      -- a crossing edge exists by connectivity
      obtain ⟨x0, hx0⟩ := List.exists_mem_of_ne_nil t2.tnodes ht2ne
      have hS : t2.tnodes.toFinset ∈ (nodeIds g).toFinset.powerset := by
        rw [Finset.mem_powerset]
        intro x hx
        rw [List.mem_toFinset] at hx ⊢
        exact hinv2.2.1 x hx
      have hSne : t2.tnodes.toFinset.Nonempty := ⟨x0, List.mem_toFinset.mpr hx0⟩
      have hSproper : t2.tnodes.toFinset ≠ (nodeIds g).toFinset := by
        intro hq
        have hc1 : t2.tnodes.toFinset.card = t2.tnodes.length :=
          List.toFinset_card_of_nodup hinv2.1
        have hc2 : (nodeIds g).toFinset.card = (nodeIds g).length :=
          List.toFinset_card_of_nodup hWF.2
        rw [hq, hc2, nodeIds, List.length_map] at hc1
        omega
      obtain ⟨e0, he0g, he0cr⟩ := hconn t2.tnodes.toFinset hS hSne hSproper
      have he0cr2 : (e0.source ∈ t2.tnodes) ≠ (e0.target ∈ t2.tnodes) := by
        rcases he0cr with ⟨h1, h2⟩ | ⟨h1, h2⟩
        · rw [List.mem_toFinset] at h1 h2
          simp [h1, h2]
        · rw [List.mem_toFinset] at h1 h2
          simp [h1, h2]
      have hedne : g.edges ≠ [] := by
        intro hq
        rw [hq] at he0g
        cases he0g
      obtain ⟨e, hminby, hemem, hmin⟩ := minBy_spec (ftScore t2 m) g.edges hedne
      have hfmse : findMinSlackEdge t2 g m = some e := hminby
      have hecr : (e.source ∈ t2.tnodes) ≠ (e.target ∈ t2.tnodes) := by
        by_contra hq
        have h1 := hmin e0 he0g
        rw [ftScore_not_crossing t2 m e (fun hne2 => hne2 hq),
          ftScore_crossing t2 m e0 he0cr2, top_le_iff] at h1
        exact (WithTop.coe_ne_top h1)
      have hminS : ∀ f ∈ g.edges, (f.source ∈ t2.tnodes) ≠ (f.target ∈ t2.tnodes) →
          slackD m e ≤ slackD m f := by
        intro f hf hcr
        have h1 := hmin f hf
        rw [ftScore_crossing t2 m e hecr, ftScore_crossing t2 m f hcr] at h1
        exact WithTop.coe_le_coe.mp h1
      rw [hfmse]
      set delta := (if e.source ∈ t2.tnodes then slackD m e else - slackD m e) with hdel
      set m2 := shiftRanks t2 m delta with hm2
      have hnd2 := hinv2.1
      have hfeas2 : Feas g m2 := by
        intro f hf
        rw [hm2, slackD_shift t2 m delta f hnd2]
        by_cases h1 : f.source ∈ t2.tnodes <;> by_cases h2 : f.target ∈ t2.tnodes
        · simp only [h1, h2, if_true]
          have := hfeas f hf
          omega
        · simp only [h1, h2, if_true, if_false]
          have hcr : (f.source ∈ t2.tnodes) ≠ (f.target ∈ t2.tnodes) := by simp [h1, h2]
          have hm := hminS f hf hcr
          rw [hdel]
          by_cases h3 : e.source ∈ t2.tnodes
          · simp only [h3, if_true]
            omega
          · simp only [h3, if_false]
            have := hfeas f hf
            have := hfeas e hemem
            omega
        · simp only [h1, h2, if_true, if_false]
          have hcr : (f.source ∈ t2.tnodes) ≠ (f.target ∈ t2.tnodes) := by simp [h1, h2]
          have hm := hminS f hf hcr
          rw [hdel]
          by_cases h3 : e.source ∈ t2.tnodes
          · simp only [h3, if_true]
            have := hfeas f hf
            have := hfeas e hemem
            omega
          · simp only [h3, if_false]
            omega
        · simp only [h1, h2, if_false]
          have := hfeas f hf
          omega
      have har2 : AllRanked g m2 := shiftRanks_allRanked g t2 m delta hnd2 har
      have hinv22 : TInv g m2 t2 := by
        refine ⟨hinv2.1, hinv2.2.1, ?_⟩
        intro te hte
        obtain ⟨ge, hge, hid, hor, hs, ht3, hsl⟩ := hinv2.2.2 te hte
        refine ⟨ge, hge, hid, hor, hs, ht3, ?_⟩
        rw [hm2, slackD_shift t2 m delta ge hnd2]
        have hgs : ge.source ∈ t2.tnodes := by
          rcases hor with ⟨ha, hb⟩ | ⟨ha, hb⟩
          · exact ha ▸ hs
          · exact hb ▸ ht3
        have hgt : ge.target ∈ t2.tnodes := by
          rcases hor with ⟨ha, hb⟩ | ⟨ha, hb⟩
          · exact hb ▸ ht3
          · exact ha ▸ hs
        simp only [hgs, hgt, if_true]
        omega
      -- the chosen edge is tight after the shift and its far endpoint joins the tree
      have hv_and_far : ∃ vin, vin ∈ t2.tnodes ∧ (e.source = vin ∨ e.target = vin) ∧
          (if vin = e.source then e.target else e.source) ∉ t2.tnodes ∧
          slackD m2 e = 0 := by
        by_cases h3 : e.source ∈ t2.tnodes
        · have h4 : e.target ∉ t2.tnodes := by
            intro hq
            exact hecr (by simp [h3, hq])
          refine ⟨e.source, h3, Or.inl rfl, ?_, ?_⟩
          · rw [if_pos rfl]
            exact h4
          · rw [hm2, slackD_shift t2 m delta e hnd2, hdel]
            simp only [h3, h4, if_true, if_false]
            omega
        · have h4 : e.target ∈ t2.tnodes := by
            by_contra hq
            exact hecr (by simp [h3, hq])
          refine ⟨e.target, h4, Or.inr rfl, ?_, ?_⟩
          · have hne2 : e.target ≠ e.source := by
              intro hq
              rw [hq] at h4
              exact h3 h4
            rw [if_neg hne2]
            exact h3
          · rw [hm2, slackD_shift t2 m delta e hnd2, hdel]
            simp only [h3, h4, if_true, if_false]
            omega
      obtain ⟨vin, hvin, hvinc, hfarout, hsl2⟩ := hv_and_far
      have hfarin := tightTree_partner g m2 hWF t2 hinv22 vin hvin e hemem
        (by rcases hvinc with h | h; exact Or.inl h; exact Or.inr h) hsl2
      have htt2 := tightTree_inv g m2 hWF t2 hinv22
      have hgrow : t2.tnodes.length + 1 ≤ (tightTree g m2 t2).tnodes.length :=
        grow_length t2.tnodes (tightTree g m2 t2).tnodes _
          hinv2.1 htt2.1.1 htt2.2.1 hfarin hfarout
      exact ihf t2 m2 hinv22 ht2ne har2 hfeas2 (by omega)
    · obtain ⟨h1, h2, h3⟩ := exitc (fuel+1) t m hinv hlt
      rw [h3] at h2 ⊢
      exact ⟨h1, h2, har, hfeas⟩

/-- Correctness of `feasibleTree`: on a well-formed, connected, nonempty
graph whose ranks are all assigned and feasible, the loop terminates with a
spanning tree of tight edges and the adjusted ranks stay feasible. -/
theorem feasibleTree_spec (g : DGraph) (m : RankMap) (hWF : WFg g) (hconn : Conn g)
    (hne : g.nodes ≠ []) (har : AllRanked g m) (hfeas : Feas g m) :
    (feasibleTree g m).1.tnodes.length = g.nodes.length ∧
    TInv g (feasibleTree g m).2 (feasibleTree g m).1 ∧
    AllRanked g (feasibleTree g m).2 ∧ Feas g (feasibleTree g m).2 := by
  obtain ⟨n, rest, hng⟩ : ∃ n rest, g.nodes = n :: rest := by
    cases hc : g.nodes with
    | nil => exact absurd hc hne
    | cons a b => exact ⟨a, b, rfl⟩
  · have hfe : feasibleTree g m = ftLoop g g.nodes.length ⟨[n.id], []⟩ m := by
      rw [feasibleTree]
      split
      · rename_i heq
        rw [hng] at heq
        cases heq
      · rename_i n2 rest2 heq
        rw [hng] at heq
        cases heq
        rfl
    rw [hfe]
    have hinv0 : TInv g m ⟨[n.id], []⟩ := by
      refine ⟨List.nodup_singleton _, ?_, ?_⟩
      · intro x hx
        rw [List.mem_singleton] at hx
        rw [hx, nodeIds, hng]
        exact List.mem_map_of_mem _ (List.mem_cons_self n rest)
      · intro te hte
        cases hte
    have htt0 := tightTree_inv g m hWF ⟨[n.id], []⟩ hinv0
    have h1le : 1 ≤ (tightTree g m ⟨[n.id], []⟩).tnodes.length := by
      have : n.id ∈ (tightTree g m ⟨[n.id], []⟩).tnodes :=
        htt0.1.1 n.id (List.mem_singleton_self _)
      cases hc : (tightTree g m ⟨[n.id], []⟩).tnodes with
      | nil =>
        rw [hc] at this
        cases this
      | cons a b => simp
    exact ftLoop_spec g hWF hconn g.nodes.length ⟨[n.id], []⟩ m hinv0
      (by intro hq; cases hq) har hfeas (by omega)

/-! ### Claim theorems C1 and C2 -/

/-- C1 — Rank feasibility: after `longestPath(g)` on a DAG (witnessed by a
topological numbering `f`) whose edges all carry `minlen >= 1` and whose
edge endpoints are nodes, every edge satisfies
`target.rank - source.rank >= minlen` (both ranks are assigned), and after
additionally running `feasibleTree(g)` on a connected nonempty such graph
every edge still has `slack >= 0`. -/
theorem claim_C1_rank_feasibility (g : DGraph) (f : Nat → Nat)
    (hWF : WFg g) (hml : MinlenOK g) (ht : Topo g f) :
    (∀ e ∈ g.edges, ∃ rs rt, rlookup (longestPath g) e.source = some rs ∧
      rlookup (longestPath g) e.target = some rt ∧ e.minlen ≤ rt - rs) ∧
    (g.nodes ≠ [] → Conn g →
      ∀ e ∈ g.edges, 0 ≤ slackD (feasibleTree g (longestPath g)).2 e) := by
  have hpost := longestPath_post g f hWF hml ht
  constructor
  · intro e heg
    have hsm : e.source ∈ nodeIds g :=
      (getNodeL_isSome_iff g e.source).mp (hWF.1 e heg).1
    have htm : e.target ∈ nodeIds g :=
      (getNodeL_isSome_iff g e.target).mp (hWF.1 e heg).2
    obtain ⟨rs, hrs⟩ := Option.isSome_iff_exists.mp (hpost.1 e.source hsm)
    obtain ⟨rt, hrt⟩ := Option.isSome_iff_exists.mp (hpost.1 e.target htm)
    refine ⟨rs, rt, hrs, hrt, ?_⟩
    have := hpost.2 e heg
    rw [slackD, hrs, hrt] at this
    simp only [Option.getD_some] at this
    omega
  · intro hne hconn
    exact (feasibleTree_spec g (longestPath g) hWF hconn hne hpost.1 hpost.2).2.2.2

/-- Concrete witness graph: the two-edge chain `0 -> 1 -> 2`, `minlen = 1`. -/
def chainG : DGraph :=
  { nodes := [⟨0, none⟩, ⟨1, none⟩, ⟨2, none⟩],
    edges := [⟨0, 0, 1, 1⟩, ⟨1, 1, 2, 1⟩] }

theorem claim_C1_rank_feasibility_witness :
    WFg chainG ∧ MinlenOK chainG ∧ Topo chainG (fun v => v) ∧
    ((∀ e ∈ chainG.edges, ∃ rs rt, rlookup (longestPath chainG) e.source = some rs ∧
      rlookup (longestPath chainG) e.target = some rt ∧ e.minlen ≤ rt - rs) ∧
    (chainG.nodes ≠ [] → Conn chainG →
      ∀ e ∈ chainG.edges, 0 ≤ slackD (feasibleTree chainG (longestPath chainG)).2 e)) :=
  ⟨by decide, by decide, by decide,
    claim_C1_rank_feasibility chainG (fun v => v) (by decide) (by decide) (by decide)⟩

/-- C2 — Tight-tree completeness: for a well-formed connected nonempty graph
whose nodes already carry feasible ranks, `feasibleTree(g)` terminates and
returns a tree with exactly as many nodes as `g`, and every tree edge is a
copy of a `g`-edge whose slack under the final ranks is 0 (slack-0 tree
edges are preserved by `shiftRanks`, which moves all tree nodes by the same
delta). -/
theorem claim_C2_tight_tree_completeness (g : DGraph) (m : RankMap) (hWF : WFg g)
    (hconn : Conn g) (hne : g.nodes ≠ []) (har : AllRanked g m) (hfeas : Feas g m) :
    (feasibleTree g m).1.tnodes.length = g.nodes.length ∧
    (∀ te ∈ (feasibleTree g m).1.tedges, ∃ ge ∈ g.edges, ge.eid = te.eid ∧
      ((te.source = ge.source ∧ te.target = ge.target) ∨
       (te.source = ge.target ∧ te.target = ge.source)) ∧
      slackD (feasibleTree g m).2 ge = 0) := by
  obtain ⟨hlen, hinv, _, _⟩ := feasibleTree_spec g m hWF hconn hne har hfeas
  refine ⟨hlen, ?_⟩
  intro te hte
  obtain ⟨ge, hge, hid, hor, _, _, hsl⟩ := hinv.2.2 te hte
  exact ⟨ge, hge, hid, hor, hsl⟩

theorem claim_C2_tight_tree_completeness_witness :
    WFg chainG ∧ Conn chainG ∧ chainG.nodes ≠ [] ∧
    AllRanked chainG [(0, 0), (1, 1), (2, 3)] ∧ Feas chainG [(0, 0), (1, 1), (2, 3)] ∧
    ((feasibleTree chainG [(0, 0), (1, 1), (2, 3)]).1.tnodes.length = chainG.nodes.length ∧
    (∀ te ∈ (feasibleTree chainG [(0, 0), (1, 1), (2, 3)]).1.tedges,
      ∃ ge ∈ chainG.edges, ge.eid = te.eid ∧
      ((te.source = ge.source ∧ te.target = ge.target) ∨
       (te.source = ge.target ∧ te.target = ge.source)) ∧
      slackD (feasibleTree chainG [(0, 0), (1, 1), (2, 3)]).2 ge = 0)) :=
  ⟨by decide, by decide, by decide, by decide, by decide,
    claim_C2_tight_tree_completeness chainG [(0, 0), (1, 1), (2, 3)]
      (by decide) (by decide) (by decide) (by decide) (by decide)⟩

/-! ### Claim C3: layer pins and the tight-tree rank shifts -/

/-- Failing input for C3: node 0 pinned at `layer = 5`, with edges
`0 -> 1` (minlen 1) and `1 -> 2` (minlen 3). -/
def pinG : DGraph :=
  { nodes := [⟨0, some 5⟩, ⟨1, none⟩, ⟨2, none⟩],
    edges := [⟨0, 0, 1, 1⟩, ⟨1, 1, 2, 3⟩] }

/-- C3 — Layer pin authority fails in the code: on `pinG`,
`longestPathWithLayer` does set the pinned node's rank to its layer value 5,
but the subsequent `feasibleTreeWithLayer` calls `shiftRanks`, which moves
every node currently in the tight tree — the pinned node included — so the
final rank is 9, not the pinned 5.  (The source's own comment at
`tightTreeWithLayer`, "直接加入tight-tree，不参与调整", says pinned nodes do
not take part in the adjustment, so the claim matches the documented intent
and the code contradicts it.) -/
theorem claim_C3_layer_pin_moved_by_shift :
    (getNodeL pinG 0).bind (·.layer) = some 5 ∧
    rlookup (longestPathWithLayer pinG) 0 = some 5 ∧
    rlookup (feasibleTreeWithLayer pinG (longestPathWithLayer pinG)).2 0 = some 9 := by
  refine ⟨rfl, rfl, ?_⟩
  decide

/-! ### Claim C7: no precondition detection -/

/-- A two-node cycle: not a DAG. -/
def cycG : DGraph :=
  { nodes := [⟨0, none⟩, ⟨1, none⟩], edges := [⟨0, 0, 1, 1⟩, ⟨1, 1, 0, 1⟩] }

/-- C7 counterexample — on the non-DAG input `cycG`, `longestPath` (a total
function, mirroring the source, which has no error path whatsoever) runs to
completion and writes no rank at all: every node of the cycle is silently
left unranked, so the precondition violation is neither detected nor
reported and the graph is left partially (here: not at all) ranked. -/
theorem claim_C7_counterexample :
    longestPath cycG = [] ∧ rlookup (longestPath cycG) 0 = none ∧
      rlookup (longestPath cycG) 1 = none := by
  decide

/-- C7 (amended) — precondition violations are not detected: `longestPath`
performs no validation; on any graph in which every node has an incoming
edge (for instance a graph that is one cycle), the DFS is started from no
node at all and the function silently returns without assigning a single
rank. -/
theorem claim_C7_no_detection (g : DGraph)
    (h : ∀ n ∈ g.nodes, inEdges g n.id ≠ []) :
    longestPath g = [] := by
  rw [longestPath]
  have hfe : g.nodes.filter (fun n => (inEdges g n.id).length == 0) = [] := by
    rw [List.filter_eq_nil_iff]
    intro n hn
    have := h n hn
    simp only [beq_iff_eq, List.length_eq_zero]
    intro hq
    exact this hq
  rw [hfe]
  rfl

theorem claim_C7_no_detection_witness :
    (∀ n ∈ cycG.nodes, inEdges cycG n.id ≠ []) ∧ longestPath cycG = [] :=
  ⟨by decide, claim_C7_no_detection cycG (by decide)⟩

end AntvDagre

/-!
## `resolveConflicts` (src/unnamed/part_000)

Entries are indexed by their position in the input list; the JS
`mappedEntries` object keyed by node id is modelled by that index store plus
an id-to-index lookup (`entryIdx`, last-write-wins like a JS object).  The
worklist (`sourceSet`) pushes and pops at the same end of a JS array; here it
is a cons-list whose head is the top of the stack, so the initial set is the
reversed filter of zero-indegree entries.  (For numeric JS keys
`Object.values` can reorder the initial set; the theorems below do not
depend on that order, and the concrete counterexamples use a singleton
initial set.)  Duplicate input ids, which the object keying would collapse,
carry a `Nodup` hypothesis in every general theorem.  Barycenters and
weights are rationals; the source's unguarded `sum / weight` is the total
rational division, so JS `NaN` from `0 / 0` is the value `0 / 0 : Rat`.
-/

namespace AntvOrder

/-- An input entry of `resolveConflicts`: `{v, barycenter?, weight?}`. -/
structure InEntry where
  v : Nat
  barycenter : Option Rat := none
  weight : Option Rat := none
deriving Repr, DecidableEq

/-- The mutable `ConflictEntry` record (part_000 lines 30-41), with entry
references replaced by store indices. -/
structure CEntry where
  i : Nat
  indegree : Int
  inl : List Nat
  out : List Nat
  vs : List Nat
  barycenter : Option Rat
  weight : Option Rat
  merged : Bool
deriving Repr, DecidableEq

/-- An output entry `{vs, i, barycenter?, weight?}`; an undefined optional
field is `none` (the source's key-picking skips undefined values). -/
structure OutEntry where
  vs : List Nat
  i : Nat
  barycenter : Option Rat
  weight : Option Rat
deriving Repr, DecidableEq

/-- The constraint graph: a list of (source, target) node-id pairs. -/
def CGraph : Type := List (Nat × Nat)

/-- `mappedEntries[v]` as an index: the last input entry with id `v`
(later assignments to the same JS object key overwrite earlier ones). -/
def entryIdx (entries : List InEntry) (v : Nat) : Option Nat :=
  match entries with
  | [] => none
  | en :: rest =>
    match entryIdx rest v with
    | some j => some (j + 1)
    | none => if en.v = v then some 0 else none

/-- Initialisation of one `mappedEntries` record (part_000 lines 53-67):
`{i, indegree: 0, in: [], out: [], vs: [v]}`, with barycenter and weight
copied only when the barycenter is defined. -/
def initEntry (i : Nat) (en : InEntry) : CEntry :=
  { i := i, indegree := 0, inl := [], out := [], vs := [en.v],
    barycenter := en.barycenter,
    weight := match en.barycenter with | some _ => en.weight | none => none,
    merged := false }

/-- Registration of one constraint edge (part_000 lines 69-76): when both
endpoints are entries, increment the target's indegree and append the target
to the source's out-list. -/
def addCEdge (entries : List InEntry) (store : List CEntry) (e : Nat × Nat) :
    List CEntry :=
  match entryIdx entries e.1, entryIdx entries e.2 with
  | some iv, some iw =>
    let store2 :=
      match store.get? iw with
      | some cw => store.set iw { cw with indegree := cw.indegree + 1 }
      | none => store
    match store2.get? iv with
    | some cv => store2.set iv { cv with out := cv.out ++ [iw] }
    | none => store2
  | _, _ => store

/-- The initial `sourceSet`: entries with zero indegree, as a stack whose
head is the next pop. -/
def initSourceSet (store : List CEntry) : List Nat :=
  ((List.range store.length).filter
    (fun i => (store.get? i).any (fun c => c.indegree == 0))).reverse

/-! `mergeEntries(target, source)` (part_000 lines 136-155): weight-weighted
barycenter combination (a missing or zero weight contributes nothing, per
the truthiness tests `if (target.weight)` / `if (source.weight)`), the
source's `vs` prepended to the target's, summed weight, minimum `i`, and the
source marked merged.  The division `sum / weight` is unguarded. -/
/-- The `sum` accumulated by `mergeEntries` (`if (x.weight)` skips an
undefined or zero weight). -/
def mSum (t s : CEntry) : Rat :=
  (if t.weight.getD 0 ≠ 0 then t.barycenter.getD 0 * t.weight.getD 0 else 0) +
  (if s.weight.getD 0 ≠ 0 then s.barycenter.getD 0 * s.weight.getD 0 else 0)

/-- The `weight` accumulated by `mergeEntries`. -/
def mW (t s : CEntry) : Rat :=
  (if t.weight.getD 0 ≠ 0 then t.weight.getD 0 else 0) +
  (if s.weight.getD 0 ≠ 0 then s.weight.getD 0 else 0)

/-- The target entry after `mergeEntries`: the source's `vs` prepended, the
unguarded division `sum / weight`, the summed weight and the minimum `i`. -/
def mergedTarget (t s : CEntry) : CEntry :=
  { t with vs := s.vs ++ t.vs, barycenter := some (mSum t s / mW t s),
           weight := some (mW t s), i := min s.i t.i }

def mergeEntries (store : List CEntry) (tIdx sIdx : Nat) : List CEntry :=
  match store.get? tIdx, store.get? sIdx with
  | some t, some s =>
    (store.set tIdx (mergedTarget t s)).set sIdx { s with merged := true }
  | _, _ => store

/-- `handleIn` applied to each recorded predecessor (part_000 lines 89-100),
in the order of the (reversed) in-list: an unmerged predecessor is merged
into the popped entry when either barycenter is undefined or the
predecessor's barycenter is not smaller.  The popped entry's fields are
re-read from the store after each merge. -/
def handleInFold (vIdx : Nat) : List Nat → List CEntry → List CEntry
  | [], store => store
  | u :: us, store =>
    let store2 :=
      match store.get? u, store.get? vIdx with
      | some ue, some ve =>
        if ue.merged then store
        else if ue.barycenter = none ∨ ve.barycenter = none ∨
            ve.barycenter.getD 0 ≤ ue.barycenter.getD 0 then
          mergeEntries store vIdx u
        else store
      | _, _ => store
    handleInFold vIdx us store2

/-- `handleOut` applied to each successor (part_000 lines 102-109): record
the popped entry on the successor's in-list, decrement its indegree, and
push it when the indegree reaches zero. -/
def handleOutFold (vIdx : Nat) :
    List Nat → List CEntry × List Nat → List CEntry × List Nat
  | [], p => p
  | w :: ws, (store, stack) =>
    let p2 :=
      match store.get? w with
      | some we =>
        ((store.set w { we with inl := we.inl ++ [vIdx],
                                indegree := we.indegree - 1 }),
         if we.indegree - 1 = 0 then w :: stack else stack)
      | none => (store, stack)
    handleOutFold vIdx ws p2

/-- The worklist loop of `doResolveConflicts` (part_000 lines 112-117), with
fuel (the caller passes the entry count; each entry is popped at most once,
so the fuel is never exhausted before the stack empties — proved below). -/
def drcLoop : Nat → List CEntry → List Nat → List Nat → List CEntry × List Nat
  | _, store, [], popped => (store, popped)
  | 0, store, _, popped => (store, popped)
  | fuel+1, store, idx :: stack, popped =>
    let store2 :=
      match store.get? idx with
      | some ve => handleInFold idx ve.inl.reverse store
      | none => store
    match store2.get? idx with
    | some ve2 =>
      let q := handleOutFold idx ve2.out (store2, stack)
      drcLoop fuel q.1 q.2 (popped ++ [idx])
    | none => drcLoop fuel store2 stack (popped ++ [idx])

/-- The `entries.forEach((entry, i) => ...)` initialisation: one record per
input entry, indexed from `i0`. -/
def initStore (i0 : Nat) : List InEntry → List CEntry
  | [] => []
  | en :: rest => initEntry i0 en :: initStore (i0+1) rest

/-- The final store and pop order of `resolveConflicts`. -/
def rcRun (entries : List InEntry) (cg : CGraph) : List CEntry × List Nat :=
  let store0 := initStore 0 entries
  let store1 := cg.foldl (addCEdge entries) store0
  drcLoop entries.length store1 (initSourceSet store1)  []

/-- `resolveConflicts(entries, cg)` (part_000 lines 43-134): the processed
entries in pop order, merged ones dropped, projected to
`{vs, i, barycenter?, weight?}`. -/
def resolveConflicts (entries : List InEntry) (cg : CGraph) : List OutEntry :=
  let r := rcRun entries cg
  (r.2.filter (fun i => (r.1.get? i).any (fun e => !e.merged))).filterMap
    (fun i => (r.1.get? i).map (fun e => ⟨e.vs, e.i, e.barycenter, e.weight⟩))

/-! ### Basic list and lookup lemmas for the conflict-resolution proofs -/

theorem get?_set_same {α : Type} (l : List α) (i : Nat) (a : α) (h : i < l.length) :
    (l.set i a).get? i = some a := by
  induction l generalizing i with
  | nil => cases h
  | cons x xs ihx =>
    cases i with
    | zero => rfl
    | succ i =>
      simp only [List.set, List.get?]
      exact ihx i (by simpa using h)

theorem get?_set_other {α : Type} (l : List α) (i j : Nat) (a : α) (h : j ≠ i) :
    (l.set i a).get? j = l.get? j := by
  induction l generalizing i j with
  | nil => rfl
  | cons x xs ihx =>
    cases i with
    | zero =>
      cases j with
      | zero => exact absurd rfl h
      | succ j => rfl
    | succ i =>
      cases j with
      | zero => rfl
      | succ j =>
        simp only [List.set, List.get?]
        exact ihx i j (by omega)

theorem get?_mem_exists {α : Type} (l : List α) (x : α) (h : x ∈ l) :
    ∃ k, l.get? k = some x := by
  induction l with
  | nil => cases h
  | cons y ys ihy =>
    rcases List.mem_cons.mp h with h2 | h2
    · exact ⟨0, by rw [h2]; rfl⟩
    · obtain ⟨k, hk⟩ := ihy h2
      exact ⟨k + 1, hk⟩

theorem get?_lt_length {α : Type} (l : List α) (k : Nat) (x : α) (h : l.get? k = some x) :
    k < l.length := by
  induction l generalizing k with
  | nil => cases h
  | cons y ys ihy =>
    cases k with
    | zero => simp
    | succ k =>
      have := ihy k h
      simp only [List.length_cons]
      omega

theorem get?_mem {α : Type} (l : List α) (k : Nat) (x : α) (h : l.get? k = some x) :
    x ∈ l := by
  induction l generalizing k with
  | nil => cases h
  | cons y ys ihy =>
    cases k with
    | zero =>
      injection h with h2
      rw [← h2]
      exact List.mem_cons_self _ _
    | succ k => exact List.mem_cons_of_mem y (ihy k h)

/-- Folding `min` distributes over the seed. -/
theorem foldl_min_assoc (l : List Nat) (a b : Nat) :
    l.foldl min (min a b) = min a (l.foldl min b) := by
  induction l generalizing b with
  | nil => rfl
  | cons c cs ih =>
    simp only [List.foldl_cons]
    rw [min_assoc, ih]

/-! ### `entryIdx` lemmas -/

theorem entryIdx_spec (entries : List InEntry) (v : Nat) (i : Nat)
    (h : AntvOrder.entryIdx entries v = some i) :
    ∃ en, entries.get? i = some en ∧ en.v = v := by
  induction entries generalizing i with
  | nil => cases h
  | cons en rest ihr =>
    rw [entryIdx] at h
    cases hr : entryIdx rest v with
    | some j =>
      rw [hr] at h
      cases h
      obtain ⟨en2, hen2, hv2⟩ := ihr j hr
      exact ⟨en2, hen2, hv2⟩
    | none =>
      rw [hr] at h
      by_cases hev : en.v = v
      · rw [if_pos hev] at h
        cases h
        exact ⟨en, rfl, hev⟩
      · rw [if_neg hev] at h
        cases h

theorem entryIdx_isSome_of_get (entries : List InEntry) (j : Nat) (en : InEntry)
    (h : entries.get? j = some en) : (entryIdx entries en.v).isSome := by
  induction entries generalizing j with
  | nil => cases h
  | cons en2 rest ihr =>
    rw [entryIdx]
    cases j with
    | zero =>
      cases h
      cases hr : entryIdx rest en.v with
      | some j2 => simp
      | none => simp
    | succ j =>
      have := ihr j h
      cases hr : entryIdx rest en.v with
      | some j2 => simp
      | none =>
        rw [hr] at this
        cases this

theorem entryIdx_get (entries : List InEntry)
    (hids : (entries.map (·.v)).Nodup) (j : Nat) (en : InEntry)
    (h : entries.get? j = some en) : entryIdx entries en.v = some j := by
  induction entries generalizing j with
  | nil => cases h
  | cons en2 rest ihr =>
    rw [List.map_cons, List.nodup_cons] at hids
    rw [entryIdx]
    cases j with
    | zero =>
      cases h
      cases hr : entryIdx rest en.v with
      | some j2 =>
        exfalso
        obtain ⟨en3, hen3, hv3⟩ := entryIdx_spec rest en.v j2 hr
        exact hids.1 (hv3 ▸ List.mem_map_of_mem (·.v) (get?_mem rest j2 en3 hen3))
      | none => rw [if_pos rfl]
    | succ j =>
      rw [ihr hids.2 j h]

theorem entryIdx_vOf (entries : List InEntry) (hids : (entries.map (·.v)).Nodup)
    (j : Nat) (hj : j < entries.length) :
    ∃ en, entries.get? j = some en ∧ entryIdx entries en.v = some j := by
  cases h : entries.get? j with
  | none =>
    rw [List.get?_eq_none] at h
    omega
  | some en => exact ⟨en, rfl, entryIdx_get entries hids j en h⟩

/-! ### The constraint edges between entries, and pop-order precedence -/

/-- The constraint edges whose two endpoints are both entries, as pairs of
entry indices, in `cg` order. -/
def Emap (entries : List InEntry) (cg : CGraph) : List (Nat × Nat) :=
  cg.filterMap (fun e =>
    match entryIdx entries e.1, entryIdx entries e.2 with
    | some a, some b => some (a, b)
    | _, _ => none)

/-- `a` occurs before `b` in the list `l`. -/
def Before (l : List Nat) (a b : Nat) : Prop :=
  ∃ l1 l2, l = l1 ++ b :: l2 ∧ a ∈ l1

theorem Before.extend (l l' : List Nat) (a b : Nat) (h : Before l a b) :
    Before (l ++ l') a b := by
  obtain ⟨l1, l2, hl, ha⟩ := h
  exact ⟨l1, l2 ++ l', by rw [hl]; simp, ha⟩

theorem Before.last (l : List Nat) (a c : Nat) (h : a ∈ l) :
    Before (l ++ [c]) a c := ⟨l, [], rfl, h⟩

theorem Before.mem_left (l : List Nat) (a b : Nat) (h : Before l a b) : a ∈ l := by
  obtain ⟨l1, l2, hl, ha⟩ := h
  rw [hl]
  exact List.mem_append_left _ ha

theorem Before.mem_right (l : List Nat) (a b : Nat) (h : Before l a b) : b ∈ l := by
  obtain ⟨l1, l2, hl, _⟩ := h
  rw [hl]
  exact List.mem_append_right _ (List.mem_cons_self b l2)

theorem split_unique (l p p' q q' : List Nat) (b : Nat) (hnd : l.Nodup)
    (h1 : l = p ++ b :: q) (h2 : l = p' ++ b :: q') : p = p' ∧ q = q' := by
  induction p generalizing l p' with
  | nil =>
    cases p' with
    | nil =>
      rw [h1] at h2
      simp only [List.nil_append] at h2
      cases h2
      exact ⟨rfl, rfl⟩
    | cons x xs =>
      exfalso
      rw [h1] at h2 hnd
      simp only [List.nil_append] at h2 hnd
      cases h2
      simp only [List.cons_append, List.nodup_cons] at hnd
      exact hnd.1 (List.mem_append_right _ (List.mem_cons_self b q'))
  | cons x xs ihx =>
    cases p' with
    | nil =>
      exfalso
      rw [h2] at h1 hnd
      simp only [List.nil_append] at h1 hnd
      cases h1
      simp only [List.cons_append, List.nodup_cons] at hnd
      exact hnd.1 (List.mem_append_right _ (List.mem_cons_self b q))
    | cons y ys =>
      rw [h1] at h2
      simp only [List.cons_append] at h2
      obtain ⟨hxy, hrest⟩ := List.cons.inj h2
      rw [h1] at hnd
      simp only [List.cons_append, List.nodup_cons] at hnd
      obtain ⟨h3, h4⟩ := ihx (xs ++ b :: q) ys hnd.2 rfl hrest
      exact ⟨by rw [hxy, h3], h4⟩

theorem Before.trans (l : List Nat) (a b c : Nat) (hnd : l.Nodup)
    (h1 : Before l a b) (h2 : Before l b c) : Before l a c := by
  obtain ⟨l1, l2, hl1, ha⟩ := h1
  obtain ⟨m1, m2, hm1, hb⟩ := h2
  obtain ⟨k1, k2, hk⟩ : ∃ k1 k2, m1 = k1 ++ b :: k2 := by
    obtain ⟨k1, k2, hk⟩ := List.append_of_mem hb
    exact ⟨k1, k2, hk⟩
  have hl' : l = k1 ++ b :: (k2 ++ c :: m2) := by
    rw [hm1, hk]
    simp
  obtain ⟨hp, _⟩ := split_unique l l1 k1 l2 (k2 ++ c :: m2) b hnd hl1 hl'
  refine ⟨m1, m2, hm1, ?_⟩
  rw [hk]
  exact List.mem_append_left _ (hp ▸ ha)

theorem Before.asymm (l : List Nat) (a b : Nat) (hnd : l.Nodup)
    (h1 : Before l a b) (h2 : Before l b a) : False := by
  have h3 := Before.trans l a b a hnd h1 h2
  obtain ⟨l1, l2, hl, ha⟩ := h3
  rw [hl] at hnd
  rw [List.nodup_append] at hnd
  exact hnd.2.2 ha (List.mem_cons_self a l2)

/-! ### Bookkeeping measures -/

/-- The id of the `i`-th input entry. -/
def vOf (entries : List InEntry) (i : Nat) : Nat :=
  ((entries.get? i).map (·.v)).getD 0

/-- The multiset of node ids held by the live (unmerged) entries. -/
def msumOf (st : List CEntry) : Multiset Nat :=
  (st.map (fun c => if c.merged then (0 : Multiset Nat) else (c.vs : Multiset Nat))).sum

/-- The minimum original input index over a `vs` list. -/
def minIdxOf (entries : List InEntry) (vs : List Nat) : Nat :=
  match vs.map (fun x => (entryIdx entries x).getD 0) with
  | [] => 0
  | y :: ys => ys.foldl min y

theorem minIdxOf_append (entries : List InEntry) (l1 l2 : List Nat)
    (h1 : l1 ≠ []) (h2 : l2 ≠ []) :
    minIdxOf entries (l1 ++ l2) = min (minIdxOf entries l1) (minIdxOf entries l2) := by
  cases l1 with
  | nil => exact absurd rfl h1
  | cons x xs =>
    cases l2 with
    | nil => exact absurd rfl h2
    | cons y ys =>
      simp only [minIdxOf, List.cons_append, List.map_cons, List.map_append,
        List.foldl_append, List.foldl_cons]
      rw [foldl_min_assoc]

/-! ### Shape of the store after entry initialisation and edge registration -/

theorem initStore_get? : ∀ (l : List InEntry) (i0 k : Nat),
    (initStore i0 l).get? k = (l.get? k).map (initEntry (i0 + k)) := by
  intro l
  induction l with
  | nil => intro i0 k; cases k <;> rfl
  | cons en rest ihr =>
    intro i0 k
    cases k with
    | zero => simp [initStore]
    | succ k =>
      show (initStore (i0+1) rest).get? k = _
      rw [ihr (i0+1) k]
      have : i0 + 1 + k = i0 + (k + 1) := by omega
      rw [this]
      rfl

theorem initStore_length : ∀ (l : List InEntry) (i0 : Nat),
    (initStore i0 l).length = l.length := by
  intro l
  induction l with
  | nil => intro i0; rfl
  | cons en rest ihr =>
    intro i0
    show (initStore (i0+1) rest).length + 1 = _
    rw [ihr (i0+1)]
    rfl

/-- The shape of the store once the edges in `el` (already mapped to entry
index pairs) have been registered. -/
def StoreShapeAt (entries : List InEntry) (el : List (Nat × Nat)) (st : List CEntry) : Prop :=
  st.length = entries.length ∧
  ∀ k, k < entries.length →
    ∃ c en, st.get? k = some c ∧ entries.get? k = some en ∧
      c.i = k ∧ c.inl = [] ∧ c.vs = [en.v] ∧ c.merged = false ∧
      c.barycenter = en.barycenter ∧
      c.weight = (match en.barycenter with | some _ => en.weight | none => none) ∧
      c.out = (el.filter (fun p => p.1 == k)).map (·.2) ∧
      c.indegree = ((el.filter (fun p => p.2 == k)).length : Int)

theorem storeShape_init (entries : List InEntry) :
    StoreShapeAt entries [] (initStore 0 entries) := by
  refine ⟨initStore_length entries 0, ?_⟩
  intro k hk
  cases hen : entries.get? k with
  | none =>
    rw [List.get?_eq_none] at hen
    omega
  | some en =>
    refine ⟨initEntry k en, en, ?_, rfl, rfl, rfl, rfl, rfl, rfl, rfl, rfl, rfl⟩
    rw [initStore_get?, hen]
    simp

theorem entryIdx_lt (entries : List InEntry) (v i : Nat)
    (h : entryIdx entries v = some i) : i < entries.length := by
  obtain ⟨en, hen, _⟩ := entryIdx_spec entries v i h
  exact get?_lt_length entries i en hen

theorem filter_append_single_pos {α : Type} (l : List α) (x : α) (p : α → Bool)
    (h : p x = true) : (l ++ [x]).filter p = l.filter p ++ [x] := by
  rw [List.filter_append, List.filter_cons, h]
  rfl

theorem filter_append_single_neg {α : Type} (l : List α) (x : α) (p : α → Bool)
    (h : p x = false) : (l ++ [x]).filter p = l.filter p := by
  rw [List.filter_append, List.filter_cons, h]
  simp

theorem storeShape_addCEdge (entries : List InEntry) (el : List (Nat × Nat))
    (st : List CEntry) (e : Nat × Nat) (h : StoreShapeAt entries el st) :
    StoreShapeAt entries
      (el ++ (match entryIdx entries e.1, entryIdx entries e.2 with
              | some a, some b => [(a, b)]
              | _, _ => []))
      (addCEdge entries st e) := by
  obtain ⟨hlen, hsh⟩ := h
  cases hia : entryIdx entries e.1 with
  | none =>
    refine ⟨?_, ?_⟩
    · rw [addCEdge, hia]
      exact hlen
    · intro k hk
      obtain ⟨c, en, hc, hen, rest⟩ := hsh k hk
      refine ⟨c, en, ?_, hen, ?_⟩
      · rw [addCEdge, hia]
        exact hc
      · simpa using rest
  | some iv =>
    cases hib : entryIdx entries e.2 with
    | none =>
      refine ⟨?_, ?_⟩
      · rw [addCEdge, hia, hib]
        exact hlen
      · intro k hk
        obtain ⟨c, en, hc, hen, rest⟩ := hsh k hk
        refine ⟨c, en, ?_, hen, ?_⟩
        · rw [addCEdge, hia, hib]
          exact hc
        · simpa using rest
    | some iw =>
      show StoreShapeAt entries (el ++ [(iv, iw)]) (addCEdge entries st e)
      have hivlt : iv < entries.length := entryIdx_lt entries e.1 iv hia
      have hiwlt : iw < entries.length := entryIdx_lt entries e.2 iw hib
      obtain ⟨cw, enw, hcw, henw, hwi, hwinl, hwvs, hwm, hwb, hww, hwout, hwdeg⟩ :=
        hsh iw hiwlt
      by_cases hvw : iv = iw
      · subst hvw
        have hget2 : (st.set iv { cw with indegree := cw.indegree + 1 }).get? iv =
            some { cw with indegree := cw.indegree + 1 } :=
          get?_set_same st iv _ (by omega)
        have hstep : addCEdge entries st e =
            (st.set iv { cw with indegree := cw.indegree + 1 }).set iv
              { cw with indegree := cw.indegree + 1,
                        out := cw.out ++ [iv] } := by
          simp only [addCEdge, hia, hib, hcw, hget2]
        rw [hstep]
        refine ⟨by simp [hlen], ?_⟩
        intro k hk
        by_cases hkv : k = iv
        · subst hkv
          refine ⟨{ cw with indegree := cw.indegree + 1, out := cw.out ++ [k] },
            enw, ?_, henw, hwi, hwinl, hwvs, hwm, hwb, hww, ?_, ?_⟩
          · exact get?_set_same _ k _ (by simp only [List.length_set]; omega)
          · show cw.out ++ [k] = _
            rw [filter_append_single_pos _ _ _ (by simp), List.map_append, hwout]
            rfl
          · show cw.indegree + 1 = _
            rw [filter_append_single_pos _ _ _ (by simp), List.length_append, hwdeg]
            simp
        · obtain ⟨c, en, hc, hen, hi2, hinl2, hvs2, hm2, hb2, hw2, hout2, hdeg2⟩ :=
            hsh k hk
          refine ⟨c, en, ?_, hen, hi2, hinl2, hvs2, hm2, hb2, hw2, ?_, ?_⟩
          · rw [get?_set_other _ _ _ _ hkv, get?_set_other _ _ _ _ hkv]
            exact hc
          · rw [filter_append_single_neg _ _ _ (by simp [hkv]; omega), hout2]
          · rw [filter_append_single_neg _ _ _ (by simp [hkv]; omega), hdeg2]
      · obtain ⟨cv, env, hcv, henv, hvi, hvinl, hvvs, hvm, hvb, hvw2, hvout, hvdeg⟩ :=
          hsh iv hivlt
        have hget2 : (st.set iw { cw with indegree := cw.indegree + 1 }).get? iv =
            some cv := by
          rw [get?_set_other _ _ _ _ hvw]
          exact hcv
        have hstep : addCEdge entries st e =
            (st.set iw { cw with indegree := cw.indegree + 1 }).set iv
              { cv with out := cv.out ++ [iw] } := by
          simp only [addCEdge, hia, hib, hcw, hget2]
        rw [hstep]
        refine ⟨by simp [hlen], ?_⟩
        intro k hk
        by_cases hkv : k = iv
        · subst hkv
          refine ⟨{ cv with out := cv.out ++ [iw] },
            env, ?_, henv, hvi, hvinl, hvvs, hvm, hvb, hvw2, ?_, ?_⟩
          · exact get?_set_same _ k _ (by simp only [List.length_set]; omega)
          · show cv.out ++ [iw] = _
            rw [filter_append_single_pos _ _ _ (by simp), List.map_append, hvout]
            rfl
          · show cv.indegree = _
            rw [filter_append_single_neg _ _ _ ?hx, hvdeg]
            case hx =>
              simp only [Bool.eq_false_iff]
              intro hq
              have h5 : iw = k := by simpa using hq
              exact hvw h5.symm
        · by_cases hkw : k = iw
          · subst hkw
            refine ⟨{ cw with indegree := cw.indegree + 1 },
              enw, ?_, henw, hwi, hwinl, hwvs, hwm, hwb, hww, ?_, ?_⟩
            · rw [get?_set_other _ _ _ _ hkv]
              exact get?_set_same _ k _ (by omega)
            · show cw.out = _
              rw [filter_append_single_neg _ _ _ ?hy, hwout]
              case hy =>
                simp only [Bool.eq_false_iff]
                intro hq
                have h5 : iv = k := by simpa using hq
                exact hkv h5.symm
            · show cw.indegree + 1 = _
              rw [filter_append_single_pos _ _ _ (by simp), List.length_append, hwdeg]
              simp
          · obtain ⟨c, en, hc, hen, hi2, hinl2, hvs2, hm2, hb2, hw2, hout2, hdeg2⟩ :=
              hsh k hk
            refine ⟨c, en, ?_, hen, hi2, hinl2, hvs2, hm2, hb2, hw2, ?_, ?_⟩
            · rw [get?_set_other _ _ _ _ hkv, get?_set_other _ _ _ _ hkw]
              exact hc
            · rw [filter_append_single_neg _ _ _ ?hz, hout2]
              case hz =>
                simp only [Bool.eq_false_iff]
                intro hq
                have h5 : iv = k := by simpa using hq
                exact hkv h5.symm
            · rw [filter_append_single_neg _ _ _ ?hw, hdeg2]
              case hw =>
                simp only [Bool.eq_false_iff]
                intro hq
                have h5 : iw = k := by simpa using hq
                exact hkw h5.symm

theorem Emap_cons (entries : List InEntry) (e : Nat × Nat) (rest : CGraph) :
    Emap entries (e :: rest) =
      (match entryIdx entries e.1, entryIdx entries e.2 with
       | some a, some b => [(a, b)]
       | _, _ => []) ++ Emap entries rest := by
  rw [Emap, Emap, List.filterMap_cons]
  cases entryIdx entries e.1 with
  | none => rfl
  | some a =>
    cases entryIdx entries e.2 with
    | none => rfl
    | some b => rfl

theorem storeShape_fold (entries : List InEntry) :
    ∀ (rest : CGraph) (el : List (Nat × Nat)) (st : List CEntry),
      StoreShapeAt entries el st →
      StoreShapeAt entries (el ++ Emap entries rest)
        (rest.foldl (addCEdge entries) st) := by
  intro rest
  induction rest with
  | nil =>
    intro el st h
    simpa [Emap] using h
  | cons e rest2 ihr =>
    intro el st h
    rw [Emap_cons, List.foldl_cons]
    have h2 := storeShape_addCEdge entries el st e h
    have h3 := ihr _ _ h2
    rw [List.append_assoc] at h3
    exact h3

theorem store1_shape (entries : List InEntry) (cg : CGraph) :
    StoreShapeAt entries (Emap entries cg)
      (cg.foldl (addCEdge entries) (initStore 0 entries)) := by
  have := storeShape_fold entries cg [] (initStore 0 entries) (storeShape_init entries)
  simpa using this

/-! ### The invariant fragment maintained by the merge phase -/

/-- Reachability along the mapped constraint edges (reflexive-transitive). -/
inductive EPath (E : List (Nat × Nat)) : Nat → Nat → Prop
  | refl (a : Nat) : EPath E a a
  | snoc {a b c : Nat} : EPath E a b → (b, c) ∈ E → EPath E a c

theorem EPath.mono {E : List (Nat × Nat)} (f : Nat → Nat)
    (hf : ∀ p ∈ E, f p.1 < f p.2) {a b : Nat} (h : EPath E a b) : f a ≤ f b := by
  induction h with
  | refl => exact le_refl _
  | snoc _ he ih => exact le_of_lt (lt_of_le_of_lt ih (hf _ he))

/-- The bookkeeping facts about `vs` / `i` / `merged` that the merge phase
(`handleInFold`) preserves, relative to a pop list `popped2`. -/
def HInv (entries : List InEntry) (E : List (Nat × Nat)) (popped2 : List Nat)
    (st : List CEntry) : Prop :=
  st.length = entries.length ∧
  msumOf st = ↑(entries.map (·.v)) ∧
  (∀ i c, st.get? i = some c → c.merged = false →
    c.vs ≠ [] ∧ c.i = minIdxOf entries c.vs ∧ vOf entries i ∈ c.vs) ∧
  (∀ i c, st.get? i = some c → ∀ x ∈ c.vs,
    entryIdx entries x = some i ∨
    (∃ j, entryIdx entries x = some j ∧ Before popped2 j i)) ∧
  (∀ i c, st.get? i = some c → ∀ x ∈ c.vs, ∀ j, entryIdx entries x = some j →
    EPath E j i) ∧
  (∀ i c, st.get? i = some c → i ∉ popped2 →
    c.vs = [vOf entries i] ∧ c.i = i ∧ c.merged = false)

theorem msum_set (st : List CEntry) (k : Nat) (c c2 : CEntry) (hc : st.get? k = some c) :
    msumOf (st.set k c2) + (if c.merged then 0 else (c.vs : Multiset Nat)) =
      msumOf st + (if c2.merged then 0 else (c2.vs : Multiset Nat)) := by
  induction st generalizing k with
  | nil => cases hc
  | cons d ds ihd =>
    cases k with
    | zero =>
      cases hc
      show msumOf (c2 :: ds) + _ = _
      rw [msumOf, msumOf]
      simp only [List.map_cons, List.sum_cons]
      abel
    | succ k =>
      show msumOf (d :: ds.set k c2) + _ = _
      rw [msumOf, msumOf]
      simp only [List.map_cons, List.sum_cons]
      have := ihd k hc
      rw [msumOf, msumOf] at this
      calc (if d.merged then 0 else (d.vs : Multiset Nat)) +
            ((ds.set k c2).map fun c => if c.merged then 0 else (c.vs : Multiset Nat)).sum +
            (if c.merged then 0 else (c.vs : Multiset Nat))
          = (if d.merged then 0 else (d.vs : Multiset Nat)) +
            (((ds.set k c2).map fun c => if c.merged then 0 else (c.vs : Multiset Nat)).sum +
            (if c.merged then 0 else (c.vs : Multiset Nat))) := by abel
        _ = (if d.merged then 0 else (d.vs : Multiset Nat)) +
            ((ds.map fun c => if c.merged then 0 else (c.vs : Multiset Nat)).sum +
            (if c2.merged then 0 else (c2.vs : Multiset Nat))) := by rw [this]
        _ = _ := by abel

theorem mergeEntries_get (st : List CEntry) (t s : Nat) (ct cs : CEntry)
    (hne : s ≠ t) (ht : st.get? t = some ct) (hs : st.get? s = some cs) :
    (mergeEntries st t s).get? t = some (mergedTarget ct cs) ∧
    (mergeEntries st t s).get? s = some { cs with merged := true } ∧
    (∀ k, k ≠ t → k ≠ s → (mergeEntries st t s).get? k = st.get? k) ∧
    (mergeEntries st t s).length = st.length := by
  have hstep : mergeEntries st t s =
      (st.set t (mergedTarget ct cs)).set s { cs with merged := true } := by
    simp only [mergeEntries, ht, hs]
  rw [hstep]
  have hlt : t < st.length := get?_lt_length st t ct ht
  have hls : s < st.length := get?_lt_length st s cs hs
  refine ⟨?_, ?_, ?_, by simp⟩
  · rw [get?_set_other _ _ _ _ (fun hq => hne hq.symm)]
    exact get?_set_same st t _ hlt
  · exact get?_set_same _ s _ (by simp only [List.length_set]; omega)
  · intro k hkt hks
    rw [get?_set_other _ _ _ _ hks, get?_set_other _ _ _ _ hkt]

theorem merge_HInv (entries : List InEntry) (E : List (Nat × Nat))
    (popped2 : List Nat)
    (hnd2 : popped2.Nodup) (idx u : Nat) (hne : u ≠ idx) (hu : u ∈ popped2)
    (hbef : Before popped2 u idx) (hEu : (u, idx) ∈ E) (st : List CEntry)
    (hinv : HInv entries E popped2 st) (cu cv : CEntry)
    (hcu : st.get? u = some cu) (hcv : st.get? idx = some cv)
    (hum : cu.merged = false) (hvm : cv.merged = false) :
    HInv entries E popped2 (mergeEntries st idx u) ∧
    (mergeEntries st idx u).get? idx = some (mergedTarget cv cu) ∧
    (mergeEntries st idx u).get? u = some { cu with merged := true } ∧
    (∀ k, k ≠ idx → k ≠ u → (mergeEntries st idx u).get? k = st.get? k) := by
  obtain ⟨hlen, hms, himin, horder, hpath, hfresh⟩ := hinv
  obtain ⟨hgt, hgs, hgo, hglen⟩ := mergeEntries_get st idx u cv cu hne hcv hcu
  have hvsu := himin u cu hcu hum
  have hvsv := himin idx cv hcv hvm
  have hidxp : idx ∈ popped2 := Before.mem_right _ _ _ hbef
  refine ⟨⟨by rw [hglen, hlen], ?_, ?_, ?_, ?_, ?_⟩, hgt, hgs, hgo⟩
  · -- preserved multiset
    have hstep : mergeEntries st idx u =
        (st.set idx (mergedTarget cv cu)).set u { cu with merged := true } := by
      simp only [mergeEntries, hcv, hcu]
    have h1 := msum_set st idx cv (mergedTarget cv cu) hcv
    have h2 := msum_set (st.set idx (mergedTarget cv cu)) u cu { cu with merged := true }
      (by rw [get?_set_other _ _ _ _ hne]; exact hcu)
    rw [hvm] at h1
    rw [hum] at h2
    have hmt : (mergedTarget cv cu).merged = false := hvm
    rw [hmt] at h1
    simp only [Bool.false_eq_true, if_false, if_true] at h1 h2
    have hvs : ((mergedTarget cv cu).vs : Multiset Nat) =
        (cu.vs : Multiset Nat) + (cv.vs : Multiset Nat) := by
      show ((cu.vs ++ cv.vs : List Nat) : Multiset Nat) = _
      exact rfl
    rw [hstep]
    have goal1 : msumOf ((st.set idx (mergedTarget cv cu)).set u { cu with merged := true })
        + (cu.vs : Multiset Nat) + (cv.vs : Multiset Nat)
        = msumOf st + (cu.vs : Multiset Nat) + (cv.vs : Multiset Nat) := by
      calc msumOf ((st.set idx (mergedTarget cv cu)).set u { cu with merged := true })
            + (cu.vs : Multiset Nat) + (cv.vs : Multiset Nat)
          = (msumOf ((st.set idx (mergedTarget cv cu)).set u { cu with merged := true })
            + (cu.vs : Multiset Nat)) + (cv.vs : Multiset Nat) := by abel
        _ = (msumOf (st.set idx (mergedTarget cv cu)) + 0) + (cv.vs : Multiset Nat) := by
              rw [h2]
        _ = msumOf (st.set idx (mergedTarget cv cu)) + (cv.vs : Multiset Nat) := by abel
        _ = msumOf st + ((mergedTarget cv cu).vs : Multiset Nat) := h1
        _ = msumOf st + (cu.vs : Multiset Nat) + (cv.vs : Multiset Nat) := by
              rw [hvs]; abel
    exact (add_right_cancel (add_right_cancel goal1)).trans hms
  · -- vs nonempty, i = min, own id present
    intro k c hk hm
    by_cases hki : k = idx
    · subst hki
      rw [hgt] at hk
      cases hk
      refine ⟨?_, ?_, ?_⟩
      · show cu.vs ++ cv.vs ≠ []
        intro hq
        exact hvsv.1 (by simpa using (List.append_eq_nil.mp hq).2)
      · show min cu.i cv.i = minIdxOf entries (cu.vs ++ cv.vs)
        rw [minIdxOf_append entries cu.vs cv.vs hvsu.1 hvsv.1, hvsu.2.1, hvsv.2.1]
      · exact List.mem_append_right _ hvsv.2.2
    · by_cases hku : k = u
      · subst hku
        rw [hgs] at hk
        cases hk
        cases hm
      · rw [hgo k hki hku] at hk
        exact himin k c hk hm
  · -- containment order
    intro k c hk x hx
    by_cases hki : k = idx
    · subst hki
      rw [hgt] at hk
      cases hk
      rcases List.mem_append.mp hx with hxu | hxv
      · rcases horder u cu hcu x hxu with h1 | ⟨j, hj, hbj⟩
        · exact Or.inr ⟨u, h1, hbef⟩
        · exact Or.inr ⟨j, hj, Before.trans _ j u k hnd2 hbj hbef⟩
      · exact horder k cv hcv x hxv
    · by_cases hku : k = u
      · subst hku
        rw [hgs] at hk
        cases hk
        exact horder k cu hcu x hx
      · rw [hgo k hki hku] at hk
        exact horder k c hk x hx
  · -- reachability of the container from each member
    intro k c hk x hx j hj
    by_cases hki : k = idx
    · subst hki
      rw [hgt] at hk
      cases hk
      rcases List.mem_append.mp hx with hxu | hxv
      · exact EPath.snoc (hpath u cu hcu x hxu j hj) hEu
      · exact hpath k cv hcv x hxv j hj
    · by_cases hku : k = u
      · subst hku
        rw [hgs] at hk
        cases hk
        exact hpath k cu hcu x hx j hj
      · rw [hgo k hki hku] at hk
        exact hpath k c hk x hx j hj
  · -- untouched outside popped2
    intro k c hk hkp
    have hki : k ≠ idx := fun hq => hkp (hq ▸ hidxp)
    have hku : k ≠ u := fun hq => hkp (hq ▸ hu)
    rw [hgo k hki hku] at hk
    exact hfresh k c hk hkp

theorem handleInFold_cons (idx u : Nat) (us : List Nat) (st : List CEntry) :
    handleInFold idx (u :: us) st = handleInFold idx us
      (match st.get? u, st.get? idx with
       | some ue, some ve =>
         if ue.merged then st
         else if ue.barycenter = none ∨ ve.barycenter = none ∨
             ve.barycenter.getD 0 ≤ ue.barycenter.getD 0 then
           mergeEntries st idx u
         else st
       | _, _ => st) := rfl

/-- The merge phase (`entry.in.reverse().forEach(handleIn(entry))`) keeps the
`HInv` bookkeeping, keeps the popped entry unmerged, and changes no entry's
`indegree`, `out` or `in` list. -/
theorem handleInFold_spec (entries : List InEntry) (E : List (Nat × Nat))
    (popped2 : List Nat) (hnd2 : popped2.Nodup) (idx : Nat) :
    ∀ (us : List Nat) (st : List CEntry),
    (∀ u ∈ us, u ≠ idx ∧ u ∈ popped2 ∧ Before popped2 u idx ∧ (u, idx) ∈ E) →
    (∀ cv, st.get? idx = some cv → cv.merged = false) →
    HInv entries E popped2 st →
    HInv entries E popped2 (handleInFold idx us st) ∧
    (∀ cv, (handleInFold idx us st).get? idx = some cv → cv.merged = false) ∧
    (∀ k c, st.get? k = some c → ∃ c2, (handleInFold idx us st).get? k = some c2 ∧
      c2.indegree = c.indegree ∧ c2.out = c.out ∧ c2.inl = c.inl) := by
  intro us
  induction us with
  | nil =>
    intro st hus hvun hinv
    exact ⟨hinv, hvun, fun k c hk => ⟨c, hk, rfl, rfl, rfl⟩⟩
  | cons u us ih =>
    intro st hus hvun hinv
    obtain ⟨hu1, hu2, hu3, hu4⟩ := hus u (List.mem_cons_self u us)
    have hus' : ∀ w ∈ us, w ≠ idx ∧ w ∈ popped2 ∧ Before popped2 w idx ∧
        (w, idx) ∈ E := fun w hw => hus w (List.mem_cons_of_mem u hw)
    cases hgu : st.get? u with
    | none =>
      cases hgv : st.get? idx with
      | none =>
        have hstep : handleInFold idx (u :: us) st = handleInFold idx us st := by
          rw [handleInFold_cons, hgu, hgv]
        rw [hstep]
        exact ih st hus' hvun hinv
      | some ve =>
        have hstep : handleInFold idx (u :: us) st = handleInFold idx us st := by
          rw [handleInFold_cons, hgu, hgv]
        rw [hstep]
        exact ih st hus' hvun hinv
    | some ue =>
      cases hgv : st.get? idx with
      | none =>
        have hstep : handleInFold idx (u :: us) st = handleInFold idx us st := by
          rw [handleInFold_cons, hgu, hgv]
        rw [hstep]
        exact ih st hus' hvun hinv
      | some ve =>
        have hvm : ve.merged = false := hvun ve hgv
        by_cases hm : ue.merged = true
        · have hstep : handleInFold idx (u :: us) st = handleInFold idx us st := by
            rw [handleInFold_cons, hgu, hgv]
            show handleInFold idx us
              (if ue.merged = true then st else
               if ue.barycenter = none ∨ ve.barycenter = none ∨
                   ve.barycenter.getD 0 ≤ ue.barycenter.getD 0 then
                 mergeEntries st idx u else st) = _
            rw [if_pos hm]
          rw [hstep]
          exact ih st hus' hvun hinv
        · have hm' : ue.merged = false := by
            revert hm; cases ue.merged <;> simp
          by_cases hcnd : (ue.barycenter = none ∨ ve.barycenter = none ∨
              ve.barycenter.getD 0 ≤ ue.barycenter.getD 0)
          · have hstep : handleInFold idx (u :: us) st =
                handleInFold idx us (mergeEntries st idx u) := by
              rw [handleInFold_cons, hgu, hgv]
              show handleInFold idx us
                (if ue.merged = true then st else
                 if ue.barycenter = none ∨ ve.barycenter = none ∨
                     ve.barycenter.getD 0 ≤ ue.barycenter.getD 0 then
                   mergeEntries st idx u else st) = _
              rw [if_neg hm, if_pos hcnd]
            obtain ⟨hinv2, hgt, hgs, hgo⟩ :=
              merge_HInv entries E popped2 hnd2 idx u hu1 hu2 hu3 hu4 st hinv
                ue ve hgu hgv hm' hvm
            have hvun2 : ∀ cv, (mergeEntries st idx u).get? idx = some cv →
                cv.merged = false := by
              intro cv h
              rw [hgt] at h
              injection h with h2
              rw [← h2]
              exact hvm
            rw [hstep]
            obtain ⟨ha, hb, hc⟩ := ih (mergeEntries st idx u) hus' hvun2 hinv2
            refine ⟨ha, hb, ?_⟩
            intro k c hk
            by_cases hki : k = idx
            · subst hki
              rw [hgv] at hk
              injection hk with hk2
              obtain ⟨c2, h1, h2, h3, h4⟩ := hc k (mergedTarget ve ue) hgt
              exact ⟨c2, h1, by rw [h2, ← hk2]; rfl, by rw [h3, ← hk2]; rfl,
                by rw [h4, ← hk2]; rfl⟩
            · by_cases hku : k = u
              · subst hku
                rw [hgu] at hk
                injection hk with hk2
                obtain ⟨c2, h1, h2, h3, h4⟩ := hc k { ue with merged := true } hgs
                exact ⟨c2, h1, by rw [h2, ← hk2], by rw [h3, ← hk2],
                  by rw [h4, ← hk2]⟩
              · obtain ⟨c2, h1, h2, h3, h4⟩ :=
                  hc k c (by rw [hgo k hki hku]; exact hk)
                exact ⟨c2, h1, h2, h3, h4⟩
          · have hstep : handleInFold idx (u :: us) st = handleInFold idx us st := by
              rw [handleInFold_cons, hgu, hgv]
              show handleInFold idx us
                (if ue.merged = true then st else
                 if ue.barycenter = none ∨ ve.barycenter = none ∨
                     ve.barycenter.getD 0 ≤ ue.barycenter.getD 0 then
                   mergeEntries st idx u else st) = _
              rw [if_neg hm, if_neg hcnd]
            rw [hstep]
            exact ih st hus' hvun hinv

/-! ### The out phase: indegree decrements and stack pushes -/

/-- The indegree of the entry at index `k` (0 when absent). -/
def degOf (st : List CEntry) (k : Nat) : Int :=
  match st.get? k with
  | some c => c.indegree
  | none => 0

theorem handleOutFold_cons (idx w : Nat) (ws : List Nat) (st : List CEntry)
    (stack : List Nat) :
    handleOutFold idx (w :: ws) (st, stack) = handleOutFold idx ws
      (match st.get? w with
       | some we =>
         (st.set w { we with inl := we.inl ++ [idx], indegree := we.indegree - 1 },
          if we.indegree - 1 = 0 then w :: stack else stack)
       | none => (st, stack)) := rfl

/-- The out phase (`entry.out.forEach(handleOut(entry))`): provided every
listed successor exists and no indegree is smaller than its number of
occurrences, the final stack is the old stack below a duplicate-free block of
exactly those successors whose indegree equalled their occurrence count, each
successor's indegree drops by its occurrence count, `idx` is recorded on the
in-lists, and every other field of every entry is untouched. -/
theorem handleOutFold_spec (idx : Nat) :
    ∀ (ws : List Nat) (st : List CEntry) (stack : List Nat),
    (∀ w ∈ ws, ∃ c, st.get? w = some c) →
    (∀ k c, st.get? k = some c → ((ws.count k : Int)) ≤ c.indegree) →
    ∃ push,
      (handleOutFold idx ws (st, stack)).2 = push ++ stack ∧
      push.Nodup ∧
      (∀ x, x ∈ push ↔ (x ∈ ws ∧ degOf st x = (ws.count x : Int))) ∧
      (handleOutFold idx ws (st, stack)).1.length = st.length ∧
      (∀ k c, st.get? k = some c →
        ∃ c2, (handleOutFold idx ws (st, stack)).1.get? k = some c2 ∧
          c2.vs = c.vs ∧ c2.i = c.i ∧ c2.merged = c.merged ∧
          c2.barycenter = c.barycenter ∧ c2.weight = c.weight ∧
          c2.out = c.out ∧
          c2.indegree = c.indegree - (ws.count k : Int) ∧
          (∀ j ∈ c2.inl, j ∈ c.inl ∨ (j = idx ∧ k ∈ ws))) := by
  intro ws
  induction ws with
  | nil =>
    intro st stack hws hdeg
    refine ⟨[], rfl, List.nodup_nil, by simp, rfl, ?_⟩
    intro k c hk
    exact ⟨c, hk, rfl, rfl, rfl, rfl, rfl, rfl, by simp, fun j hj => Or.inl hj⟩
  | cons w ws ih =>
    intro st stack hws hdeg
    obtain ⟨we, hwe⟩ := hws w (List.mem_cons_self w ws)
    have hwlt : w < st.length := get?_lt_length st w we hwe
    have hdegw : degOf st w = we.indegree := by
      show (match st.get? w with | some c => c.indegree | none => 0) = _
      rw [hwe]
    have hdegne : ∀ x, x ≠ w →
        degOf (st.set w { we with inl := we.inl ++ [idx], indegree := we.indegree - 1 }) x = degOf st x := by
      intro x hx
      show (match (st.set w _).get? x with | some c => c.indegree | none => 0) = _
      rw [get?_set_other st w x _ hx]
      rfl
    have hset : (st.set w { we with inl := we.inl ++ [idx], indegree := we.indegree - 1 }).get? w =
        some { we with inl := we.inl ++ [idx], indegree := we.indegree - 1 } :=
      get?_set_same st w _ hwlt
    have hws' : ∀ v ∈ ws, ∃ c, (st.set w { we with inl := we.inl ++ [idx], indegree := we.indegree - 1 }).get? v = some c := by
      intro v hv
      by_cases hvw : v = w
      · subst hvw
        exact ⟨_, hset⟩
      · rw [get?_set_other st w v _ hvw]
        exact hws v (List.mem_cons_of_mem w hv)
    have hdeg' : ∀ k c, (st.set w { we with inl := we.inl ++ [idx], indegree := we.indegree - 1 }).get? k = some c →
        ((ws.count k : Int)) ≤ c.indegree := by
      intro k c hk
      by_cases hkw : k = w
      · subst hkw
        rw [hset] at hk
        injection hk with hk2
        have h1 := hdeg k we hwe
        rw [List.count_cons_self] at h1
        rw [← hk2]
        show ((ws.count k : Int)) ≤ we.indegree - 1
        push_cast at h1
        omega
      · rw [get?_set_other st w k _ hkw] at hk
        have h1 := hdeg k c hk
        rw [List.count_cons_of_ne hkw] at h1
        exact h1
    have hcountw := hdeg w we hwe
    rw [List.count_cons_self] at hcountw
    by_cases hz : we.indegree - 1 = 0
    · -- the successor reaches indegree zero: it is pushed now
      have hstep : handleOutFold idx (w :: ws) (st, stack) =
          handleOutFold idx ws (st.set w { we with inl := we.inl ++ [idx], indegree := we.indegree - 1 }, w :: stack) := by
        rw [handleOutFold_cons, hwe]
        show handleOutFold idx ws
          (st.set w { we with inl := we.inl ++ [idx], indegree := we.indegree - 1 },
           if we.indegree - 1 = 0 then w :: stack else stack) = _
        rw [if_pos hz]
      have hcw0 : ws.count w = 0 := by
        push_cast at hcountw
        omega
      have hwnm : w ∉ ws := List.count_eq_zero.mp hcw0
      obtain ⟨push, hp1, hp2, hp3, hp4, hp5⟩ :=
        ih (st.set w { we with inl := we.inl ++ [idx], indegree := we.indegree - 1 }) (w :: stack) hws' hdeg'
      have hwnp : w ∉ push := by
        intro hq
        exact hwnm ((hp3 w).mp hq).1
      refine ⟨push ++ [w], ?_, ?_, ?_, ?_, ?_⟩
      · rw [hstep, hp1]
        simp
      · rw [List.nodup_append]
        exact ⟨hp2, List.nodup_singleton w,
          fun x hx hx2 => hwnp (by rw [List.mem_singleton] at hx2; rw [hx2] at hx; exact hx)⟩
      · intro x
        rw [List.mem_append, List.mem_singleton]
        by_cases hxw : x = w
        · subst hxw
          constructor
          · intro _
            refine ⟨List.mem_cons_self _ _, ?_⟩
            rw [List.count_cons_self, hcw0, hdegw]
            push_cast
            omega
          · intro _
            exact Or.inr rfl
        · constructor
          · intro hx
            rcases hx with hx | hx
            · obtain ⟨hx1, hx2⟩ := (hp3 x).mp hx
              rw [hdegne x hxw] at hx2
              rw [List.count_cons_of_ne hxw]
              exact ⟨List.mem_cons_of_mem w hx1, hx2⟩
            · exact absurd hx hxw
          · intro ⟨hx1, hx2⟩
            left
            apply (hp3 x).mpr
            rw [hdegne x hxw]
            rw [List.count_cons_of_ne hxw] at hx2
            rcases List.mem_cons.mp hx1 with h | h
            · exact absurd h hxw
            · exact ⟨h, hx2⟩
      · rw [hstep, hp4]
        simp
      · intro k c hk
        rw [hstep]
        by_cases hkw : k = w
        · subst hkw
          rw [hwe] at hk
          injection hk with hk2
          obtain ⟨c2, g1, g2, g3, g4, g5, g6, g7, g8, g9⟩ :=
            hp5 k { we with inl := we.inl ++ [idx], indegree := we.indegree - 1 } hset
          refine ⟨c2, g1, by rw [g2, ← hk2], by rw [g3, ← hk2],
            by rw [g4, ← hk2], by rw [g5, ← hk2], by rw [g6, ← hk2],
            by rw [g7, ← hk2], ?_, ?_⟩
          · rw [g8, ← hk2, List.count_cons_self]
            show we.indegree - 1 - _ = we.indegree - _
            push_cast
            ring
          · intro j hj
            rcases g9 j hj with hj2 | ⟨hj2, _⟩
            · rcases List.mem_append.mp hj2 with hj3 | hj3
              · rw [← hk2]
                exact Or.inl hj3
              · rw [List.mem_singleton] at hj3
                exact Or.inr ⟨hj3, List.mem_cons_self _ _⟩
            · exact Or.inr ⟨hj2, List.mem_cons_self _ _⟩
        · obtain ⟨c2, g1, g2, g3, g4, g5, g6, g7, g8, g9⟩ :=
            hp5 k c (by rw [get?_set_other st w k _ hkw]; exact hk)
          refine ⟨c2, g1, g2, g3, g4, g5, g6, g7, ?_, ?_⟩
          · rw [g8, List.count_cons_of_ne hkw]
          · intro j hj
            rcases g9 j hj with hj2 | ⟨hj2, hj3⟩
            · exact Or.inl hj2
            · exact Or.inr ⟨hj2, List.mem_cons_of_mem w hj3⟩
    · -- the successor's indegree stays positive: no push
      have hstep : handleOutFold idx (w :: ws) (st, stack) =
          handleOutFold idx ws (st.set w { we with inl := we.inl ++ [idx], indegree := we.indegree - 1 }, stack) := by
        rw [handleOutFold_cons, hwe]
        show handleOutFold idx ws
          (st.set w { we with inl := we.inl ++ [idx], indegree := we.indegree - 1 },
           if we.indegree - 1 = 0 then w :: stack else stack) = _
        rw [if_neg hz]
      obtain ⟨push, hp1, hp2, hp3, hp4, hp5⟩ :=
        ih (st.set w { we with inl := we.inl ++ [idx], indegree := we.indegree - 1 }) stack hws' hdeg'
      refine ⟨push, by rw [hstep, hp1], hp2, ?_, by rw [hstep, hp4]; simp, ?_⟩
      · intro x
        by_cases hxw : x = w
        · subst hxw
          rw [hp3 x]
          have hdg2 : degOf (st.set x { we with inl := we.inl ++ [idx], indegree := we.indegree - 1 }) x = we.indegree - 1 := by
            show (match (st.set x _).get? x with
                  | some c => c.indegree | none => 0) = _
            rw [hset]
          rw [hdg2, hdegw, List.count_cons_self]
          constructor
          · intro ⟨hx1, hx2⟩
            have hcp : 0 < ws.count x := List.count_pos_iff.mpr hx1
            refine ⟨List.mem_cons_self _ _, ?_⟩
            omega
          · intro ⟨_, hx2⟩
            have hcp : 0 < ws.count x := by
              by_contra hq
              have : ws.count x = 0 := by omega
              rw [this] at hx2
              push_cast at hx2
              omega
            refine ⟨List.count_pos_iff.mp hcp, ?_⟩
            omega
        · rw [hp3 x, hdegne x hxw, List.count_cons_of_ne hxw]
          constructor
          · intro ⟨hx1, hx2⟩
            exact ⟨List.mem_cons_of_mem w hx1, hx2⟩
          · intro ⟨hx1, hx2⟩
            rcases List.mem_cons.mp hx1 with h | h
            · exact absurd h hxw
            · exact ⟨h, hx2⟩
      · intro k c hk
        rw [hstep]
        by_cases hkw : k = w
        · subst hkw
          rw [hwe] at hk
          injection hk with hk2
          obtain ⟨c2, g1, g2, g3, g4, g5, g6, g7, g8, g9⟩ :=
            hp5 k { we with inl := we.inl ++ [idx], indegree := we.indegree - 1 } hset
          refine ⟨c2, g1, by rw [g2, ← hk2], by rw [g3, ← hk2],
            by rw [g4, ← hk2], by rw [g5, ← hk2], by rw [g6, ← hk2],
            by rw [g7, ← hk2], ?_, ?_⟩
          · rw [g8, ← hk2, List.count_cons_self]
            show we.indegree - 1 - _ = we.indegree - _
            push_cast
            ring
          · intro j hj
            rcases g9 j hj with hj2 | ⟨hj2, _⟩
            · rcases List.mem_append.mp hj2 with hj3 | hj3
              · rw [← hk2]
                exact Or.inl hj3
              · rw [List.mem_singleton] at hj3
                exact Or.inr ⟨hj3, List.mem_cons_self _ _⟩
            · exact Or.inr ⟨hj2, List.mem_cons_self _ _⟩
        · obtain ⟨c2, g1, g2, g3, g4, g5, g6, g7, g8, g9⟩ :=
            hp5 k c (by rw [get?_set_other st w k _ hkw]; exact hk)
          refine ⟨c2, g1, g2, g3, g4, g5, g6, g7, ?_, ?_⟩
          · rw [g8, List.count_cons_of_ne hkw]
          · intro j hj
            rcases g9 j hj with hj2 | ⟨hj2, hj3⟩
            · exact Or.inl hj2
            · exact Or.inr ⟨hj2, List.mem_cons_of_mem w hj3⟩

/-! ### The initial store satisfies the invariants -/

theorem get?_some_of_lt {α : Type} (l : List α) (k : Nat) (h : k < l.length) :
    ∃ x, l.get? k = some x := by
  cases hx : l.get? k with
  | none =>
    rw [List.get?_eq_none] at hx
    omega
  | some x => exact ⟨x, rfl⟩

theorem msumOf_set_same_fields (st : List CEntry) (k : Nat) (c c2 : CEntry)
    (hc : st.get? k = some c) (hm : c2.merged = c.merged) (hv : c2.vs = c.vs) :
    msumOf (st.set k c2) = msumOf st := by
  have h := msum_set st k c c2 hc
  rw [hm, hv] at h
  exact add_right_cancel h

theorem msumOf_initStore : ∀ (l : List InEntry) (i0 : Nat),
    msumOf (initStore i0 l) = ↑(l.map (·.v)) := by
  intro l
  induction l with
  | nil => intro i0; rfl
  | cons en rest ihr =>
    intro i0
    show msumOf (initEntry i0 en :: initStore (i0+1) rest) = _
    rw [msumOf]
    simp only [List.map_cons, List.sum_cons]
    have h2 := ihr (i0+1)
    rw [msumOf] at h2
    rw [h2]
    show (if false = true then (0 : Multiset Nat)
          else (([en.v] : List Nat) : Multiset Nat)) +
        ↑(rest.map (·.v)) = ↑(en.v :: rest.map (·.v))
    rw [if_neg (by simp)]
    rw [Multiset.coe_singleton, Multiset.singleton_add, Multiset.cons_coe]

theorem msumOf_addCEdge (entries : List InEntry) (st : List CEntry) (e : Nat × Nat) :
    msumOf (addCEdge entries st e) = msumOf st := by
  cases h1 : entryIdx entries e.1 with
  | none => simp only [addCEdge, h1]
  | some iv =>
    cases h2 : entryIdx entries e.2 with
    | none => simp only [addCEdge, h1, h2]
    | some iw =>
      cases hw : st.get? iw with
      | none =>
        simp only [addCEdge, h1, h2, hw]
        cases hv : st.get? iv with
        | none => simp only [hv]
        | some cv =>
          simp only [hv]
          exact msumOf_set_same_fields st iv cv _ hv rfl rfl
      | some cw =>
        simp only [addCEdge, h1, h2, hw]
        cases hv : (st.set iw { cw with indegree := cw.indegree + 1 }).get? iv with
        | none =>
          simp only [hv]
          exact msumOf_set_same_fields st iw cw _ hw rfl rfl
        | some cv =>
          simp only [hv]
          rw [msumOf_set_same_fields _ iv cv { cv with out := cv.out ++ [iw] } hv rfl rfl]
          exact msumOf_set_same_fields st iw cw { cw with indegree := cw.indegree + 1 } hw rfl rfl

theorem msumOf_store1 (entries : List InEntry) (cg : CGraph) :
    msumOf (cg.foldl (addCEdge entries) (initStore 0 entries)) =
      ↑(entries.map (·.v)) := by
  suffices h : ∀ (l : List (Nat × Nat)) (st : List CEntry),
      msumOf (l.foldl (addCEdge entries) st) = msumOf st by
    rw [h cg (initStore 0 entries), msumOf_initStore]
  intro l
  induction l with
  | nil => intro st; rfl
  | cons e rest ihr =>
    intro st
    show msumOf (rest.foldl (addCEdge entries) (addCEdge entries st e)) = _
    rw [ihr (addCEdge entries st e), msumOf_addCEdge]

theorem minIdxOf_singleton (entries : List InEntry) (x : Nat) :
    minIdxOf entries [x] = (entryIdx entries x).getD 0 := rfl

/-- After initialisation and edge registration, the merge-phase invariant
holds with nothing popped. -/
theorem HInv_init (entries : List InEntry) (cg : CGraph)
    (hids : (entries.map (·.v)).Nodup) :
    HInv entries (Emap entries cg) []
      (cg.foldl (addCEdge entries) (initStore 0 entries)) := by
  obtain ⟨hlen, hsh⟩ := store1_shape entries cg
  have hfacts : ∀ i c, (cg.foldl (addCEdge entries) (initStore 0 entries)).get? i =
      some c → ∃ en, entries.get? i = some en ∧ c.i = i ∧ c.vs = [en.v] ∧
      c.merged = false ∧ entryIdx entries en.v = some i ∧ vOf entries i = en.v := by
    intro i c hc
    have hi : i < entries.length := by
      have := get?_lt_length _ i c hc
      omega
    obtain ⟨c2, en, hc2, hen, hci, hinl, hvs, hmg, hbc, hwt, hout, hdeg⟩ := hsh i hi
    rw [hc] at hc2
    injection hc2 with hc3
    subst hc3
    refine ⟨en, hen, hci, hvs, hmg, entryIdx_get entries hids i en hen, ?_⟩
    show ((entries.get? i).map (·.v)).getD 0 = en.v
    rw [hen]
    rfl
  refine ⟨hlen, msumOf_store1 entries cg, ?_, ?_, ?_, ?_⟩
  · intro i c hc hm
    obtain ⟨en, hen, hci, hvs, hmg, hidx, hvof⟩ := hfacts i c hc
    refine ⟨by rw [hvs]; simp, ?_, ?_⟩
    · rw [hvs, minIdxOf_singleton, hidx, hci]
      rfl
    · rw [hvs, hvof]
      exact List.mem_singleton_self _
  · intro i c hc x hx
    obtain ⟨en, hen, hci, hvs, hmg, hidx, hvof⟩ := hfacts i c hc
    rw [hvs, List.mem_singleton] at hx
    subst hx
    exact Or.inl hidx
  · intro i c hc x hx j hj
    obtain ⟨en, hen, hci, hvs, hmg, hidx, hvof⟩ := hfacts i c hc
    rw [hvs, List.mem_singleton] at hx
    subst hx
    rw [hidx] at hj
    injection hj with hj2
    rw [← hj2]
    exact EPath.refl i
  · intro i c hc _
    obtain ⟨en, hen, hci, hvs, hmg, hidx, hvof⟩ := hfacts i c hc
    rw [hvof]
    exact ⟨hvs, hci, hmg⟩

/-! ### The full worklist-loop invariant -/

/-- The number of constraint edges into `k` whose source is not yet popped. -/
def remIn (E : List (Nat × Nat)) (popped : List Nat) (k : Nat) : Nat :=
  (E.filter (fun p => p.2 == k && !(decide (p.1 ∈ popped)))).length

/-- The invariant of the worklist loop (`while (sourceSet.length)`): the merge
invariant, no duplicates between processed entries and the stack, entries in
range, `out` lists fixed to the constraint successors, indegrees counting
unpopped constraint predecessors, in-lists holding popped constraint
predecessors, the stack holding exactly the unpopped entries with no remaining
unpopped predecessor, and pops respecting the constraint order. -/
def LoopInv (entries : List InEntry) (E : List (Nat × Nat)) (st : List CEntry)
    (stack popped : List Nat) : Prop :=
  HInv entries E popped st ∧
  (popped ++ stack).Nodup ∧
  (∀ x ∈ popped, x < entries.length) ∧
  (∀ x ∈ stack, x < entries.length) ∧
  (∀ k c, st.get? k = some c →
    c.out = (E.filter (fun p => p.1 == k)).map (·.2) ∧
    c.indegree = (remIn E popped k : Int) ∧
    (∀ j ∈ c.inl, j ∈ popped ∧ (j, k) ∈ E)) ∧
  (∀ k, k < entries.length → k ∉ popped → (k ∈ stack ↔ remIn E popped k = 0)) ∧
  (∀ p ∈ E, p.2 ∈ popped → Before popped p.1 p.2)

theorem remIn_nil_popped (E : List (Nat × Nat)) (k : Nat) :
    remIn E [] k = (E.filter (fun p => p.2 == k)).length := by
  show (E.filter _).length = _
  congr 1
  apply List.filter_congr
  intro x _
  simp

/-- The worklist loop starts in the invariant. -/
theorem LoopInv_init (entries : List InEntry) (cg : CGraph)
    (hids : (entries.map (·.v)).Nodup) :
    LoopInv entries (Emap entries cg)
      (cg.foldl (addCEdge entries) (initStore 0 entries))
      (initSourceSet (cg.foldl (addCEdge entries) (initStore 0 entries))) [] := by
  obtain ⟨hlen, hsh⟩ := store1_shape entries cg
  have hstk : ∀ x, x ∈ initSourceSet (cg.foldl (addCEdge entries)
      (initStore 0 entries)) ↔ x < entries.length ∧
      remIn (Emap entries cg) [] x = 0 := by
    intro x
    show x ∈ (((List.range _).filter _).reverse) ↔ _
    rw [List.mem_reverse, List.mem_filter, List.mem_range, hlen]
    constructor
    · intro ⟨hx1, hx2⟩
      refine ⟨hx1, ?_⟩
      obtain ⟨c2, en, hc2, hen, hci, hinl, hvs, hmg, hbc, hwt, hout, hdeg⟩ :=
        hsh x hx1
      rw [hc2] at hx2
      have hx3 : (c2.indegree == 0) = true := hx2
      rw [beq_iff_eq] at hx3
      rw [hdeg] at hx3
      rw [remIn_nil_popped]
      exact_mod_cast hx3
    · intro ⟨hx1, hx2⟩
      refine ⟨hx1, ?_⟩
      obtain ⟨c2, en, hc2, hen, hci, hinl, hvs, hmg, hbc, hwt, hout, hdeg⟩ :=
        hsh x hx1
      rw [hc2]
      show (c2.indegree == 0) = true
      rw [beq_iff_eq, hdeg]
      rw [remIn_nil_popped] at hx2
      exact_mod_cast hx2
  refine ⟨HInv_init entries cg hids, ?_, by simp, ?_, ?_, ?_, by simp⟩
  · show (initSourceSet _).Nodup
    exact (List.nodup_reverse).mpr ((List.nodup_range _).filter _)
  · intro x hx
    exact ((hstk x).mp hx).1
  · intro k c hc
    have hk : k < entries.length := by
      have := get?_lt_length _ k c hc
      omega
    obtain ⟨c2, en, hc2, hen, hci, hinl, hvs, hmg, hbc, hwt, hout, hdeg⟩ := hsh k hk
    rw [hc] at hc2
    injection hc2 with hc3
    subst hc3
    refine ⟨hout, ?_, ?_⟩
    · rw [hdeg, remIn_nil_popped]
    · intro j hj
      rw [hinl] at hj
      cases hj
  · intro k hk _
    rw [hstk k]
    exact ⟨fun h => h.2, fun h => ⟨hk, h⟩⟩

/-! ### Counting lemmas for indegree bookkeeping -/

theorem filter_length_mono {α : Type} (l : List α) (p q : α → Bool)
    (h : ∀ x ∈ l, p x = true → q x = true) :
    (l.filter p).length ≤ (l.filter q).length := by
  induction l with
  | nil => exact le_refl _
  | cons a l ih =>
    have ih2 := ih (fun x hx => h x (List.mem_cons_of_mem a hx))
    rw [List.filter_cons, List.filter_cons]
    by_cases hp : p a = true
    · rw [if_pos hp, if_pos (h a (List.mem_cons_self a l) hp)]
      simpa using ih2
    · rw [if_neg hp]
      by_cases hq : q a = true
      · rw [if_pos hq]
        exact le_trans ih2 (by simp)
      · rw [if_neg hq]
        exact ih2

/-- The occurrence count of `k` in the successor list of `idx` is the number
of constraint edges from `idx` to `k`. -/
theorem count_out (E : List (Nat × Nat)) (idx k : Nat) :
    ((E.filter (fun p => p.1 == idx)).map (·.2)).count k =
      (E.filter (fun p => p.1 == idx && p.2 == k)).length := by
  induction E with
  | nil => rfl
  | cons p E ih =>
    rw [List.filter_cons, List.filter_cons]
    by_cases h1 : p.1 = idx
    · rw [if_pos (by simpa using h1)]
      by_cases h2 : p.2 = k
      · rw [if_pos (by simp [h1, h2])]
        rw [List.map_cons, List.count_cons]
        rw [List.length_cons, ih]
        simp [h2]
      · rw [if_neg (by simp [h1, h2])]
        rw [List.map_cons, List.count_cons]
        rw [ih]
        simp [h2]
    · rw [if_neg (by simpa using h1), if_neg (by simp [h1])]
      exact ih

/-- Popping `idx` removes exactly the `idx → k` edges from the remaining
indegree of `k`. -/
theorem remIn_shift (E : List (Nat × Nat)) (popped : List Nat) (idx k : Nat)
    (hidx : idx ∉ popped) :
    remIn E (popped ++ [idx]) k +
      (E.filter (fun p => p.1 == idx && p.2 == k)).length =
    remIn E popped k := by
  induction E with
  | nil => rfl
  | cons p E ih =>
    show (List.filter _ (p :: E)).length + (List.filter _ (p :: E)).length =
      (List.filter _ (p :: E)).length
    rw [List.filter_cons, List.filter_cons, List.filter_cons]
    by_cases h2 : p.2 = k
    · by_cases h1 : p.1 = idx
      · rw [if_neg (by simp [h1, h2]), if_pos (by simp [h1, h2]),
          if_pos (by simp [h2, h1, hidx])]
        rw [List.length_cons, List.length_cons]
        have := ih
        rw [remIn, remIn] at this
        omega
      · by_cases hm : p.1 ∈ popped
        · rw [if_neg (by simp [hm]), if_neg (by simp [h1]),
            if_neg (by simp [hm])]
          exact ih
        · rw [if_pos (by simp [h2, hm, h1]), if_neg (by simp [h1]),
            if_pos (by simp [h2, hm])]
          rw [List.length_cons, List.length_cons]
          have := ih
          rw [remIn, remIn] at this
          omega
    · rw [if_neg (by simp [h2]), if_neg (by simp [h2]), if_neg (by simp [h2])]
      exact ih

/-! ### Transporting the invariants across field-preserving rewrites -/

theorem msumOf_congr : ∀ (st st2 : List CEntry),
    st2.length = st.length →
    (∀ k c, st.get? k = some c → ∃ c2, st2.get? k = some c2 ∧
      c2.vs = c.vs ∧ c2.merged = c.merged) →
    msumOf st2 = msumOf st := by
  intro st
  induction st with
  | nil =>
    intro st2 hlen _
    have h : st2 = [] := List.length_eq_zero.mp hlen
    rw [h]
  | cons c cs ih =>
    intro st2 hlen h
    cases st2 with
    | nil => simp at hlen
    | cons c2 cs2 =>
      obtain ⟨c2', hc2', hv, hm⟩ := h 0 c rfl
      injection hc2' with hh
      have ht : msumOf cs2 = msumOf cs := by
        apply ih cs2 (by simpa using hlen)
        intro k ck hk
        exact h (k+1) ck hk
      rw [msumOf, msumOf]
      simp only [List.map_cons, List.sum_cons]
      rw [msumOf, msumOf] at ht
      rw [ht, hh, hm, hv]

theorem HInv_frame (entries : List InEntry) (E : List (Nat × Nat))
    (popped2 : List Nat) (st st2 : List CEntry)
    (hlen : st2.length = st.length)
    (hfr : ∀ k c, st.get? k = some c → ∃ c2, st2.get? k = some c2 ∧
      c2.vs = c.vs ∧ c2.i = c.i ∧ c2.merged = c.merged)
    (h : HInv entries E popped2 st) : HInv entries E popped2 st2 := by
  obtain ⟨h1, h2, h3, h4, h5, h6⟩ := h
  have hback : ∀ i c2, st2.get? i = some c2 → ∃ c, st.get? i = some c ∧
      c2.vs = c.vs ∧ c2.i = c.i ∧ c2.merged = c.merged := by
    intro i c2 hc2
    have hi : i < st.length := by
      have := get?_lt_length st2 i c2 hc2
      omega
    obtain ⟨c, hc⟩ := get?_some_of_lt st i hi
    obtain ⟨c2', hc2', hv, hi', hm⟩ := hfr i c hc
    rw [hc2] at hc2'
    injection hc2' with hh
    exact ⟨c, hc, by rw [hh]; exact hv, by rw [hh]; exact hi',
      by rw [hh]; exact hm⟩
  refine ⟨hlen.trans h1, ?_, ?_, ?_, ?_, ?_⟩
  · exact (msumOf_congr st st2 hlen (fun k c hk => by
      obtain ⟨c2, a, b, _, d⟩ := hfr k c hk
      exact ⟨c2, a, b, d⟩)).trans h2
  · intro i c2 hc2 hm2
    obtain ⟨c, hc, hv, hi', hm⟩ := hback i c2 hc2
    obtain ⟨g1, g2, g3⟩ := h3 i c hc (by rw [← hm]; exact hm2)
    exact ⟨by rw [hv]; exact g1, by rw [hv, hi']; exact g2, by rw [hv]; exact g3⟩
  · intro i c2 hc2 x hx
    obtain ⟨c, hc, hv, hi', hm⟩ := hback i c2 hc2
    exact h4 i c hc x (by rw [← hv]; exact hx)
  · intro i c2 hc2 x hx j hj
    obtain ⟨c, hc, hv, hi', hm⟩ := hback i c2 hc2
    exact h5 i c hc x (by rw [← hv]; exact hx) j hj
  · intro i c2 hc2 hi
    obtain ⟨c, hc, hv, hi', hm⟩ := hback i c2 hc2
    obtain ⟨g1, g2, g3⟩ := h6 i c hc hi
    exact ⟨by rw [hv]; exact g1, by rw [hi']; exact g2, by rw [hm]; exact g3⟩

theorem HInv_extend (entries : List InEntry) (E : List (Nat × Nat))
    (popped : List Nat) (idx : Nat) (st : List CEntry)
    (h : HInv entries E popped st) :
    HInv entries E (popped ++ [idx]) st := by
  obtain ⟨h1, h2, h3, h4, h5, h6⟩ := h
  refine ⟨h1, h2, h3, ?_, h5, ?_⟩
  · intro i c hc x hx
    rcases h4 i c hc x hx with h | ⟨j, hj, hb⟩
    · exact Or.inl h
    · exact Or.inr ⟨j, hj, Before.extend _ _ _ _ hb⟩
  · intro i c hc hi
    exact h6 i c hc (fun hq => hi (List.mem_append_left _ hq))

/-! ### One iteration of the worklist loop -/

/-- Popping one entry preserves the worklist-loop invariant. -/
theorem LoopInv_step (entries : List InEntry) (E : List (Nat × Nat))
    (hEr : ∀ p ∈ E, p.1 < entries.length ∧ p.2 < entries.length)
    (st : List CEntry) (idx : Nat) (stack popped : List Nat)
    (hinv : LoopInv entries E st (idx :: stack) popped) :
    ∃ ve ve2,
      st.get? idx = some ve ∧
      (handleInFold idx ve.inl.reverse st).get? idx = some ve2 ∧
      LoopInv entries E
        (handleOutFold idx ve2.out (handleInFold idx ve.inl.reverse st, stack)).1
        (handleOutFold idx ve2.out (handleInFold idx ve.inl.reverse st, stack)).2
        (popped ++ [idx]) := by
  obtain ⟨hH, hnd, hpr, hsr, hfields, hzero, htopo⟩ := hinv
  have hidxn : idx < entries.length := hsr idx (List.mem_cons_self _ _)
  have hndp : popped.Nodup := (List.nodup_append.mp hnd).1
  have hndis : ∀ a ∈ popped, a ∉ idx :: stack := (List.nodup_append.mp hnd).2.2
  have hnds : (idx :: stack).Nodup := (List.nodup_append.mp hnd).2.1
  have hidxnp : idx ∉ popped := fun hq => hndis idx hq (List.mem_cons_self _ _)
  have hlen : st.length = entries.length := hH.1
  obtain ⟨ve, hve⟩ := get?_some_of_lt st idx (by omega)
  obtain ⟨hveout, hvedeg, hveinl⟩ := hfields idx ve hve
  have hrem0 : remIn E popped idx = 0 :=
    (hzero idx hidxn hidxnp).mp (List.mem_cons_self _ _)
  have hnd2 : (popped ++ [idx]).Nodup :=
    List.nodup_append.mpr ⟨hndp, List.nodup_singleton _,
      fun a ha hb => hidxnp ((List.mem_singleton.mp hb) ▸ ha)⟩
  -- merge phase
  have hH2 := HInv_extend entries E popped idx st hH
  have hus : ∀ u ∈ ve.inl.reverse, u ≠ idx ∧ u ∈ (popped ++ [idx]) ∧
      Before (popped ++ [idx]) u idx ∧ (u, idx) ∈ E := by
    intro u hu
    rw [List.mem_reverse] at hu
    obtain ⟨hup, huE⟩ := hveinl u hu
    exact ⟨fun hq => hidxnp (hq ▸ hup), List.mem_append_left _ hup,
      Before.last _ _ _ hup, huE⟩
  have hvun : ∀ cv, st.get? idx = some cv → cv.merged = false := by
    intro cv hcv
    rw [hve] at hcv
    injection hcv with h
    rw [← h]
    exact (hH.2.2.2.2.2 idx ve hve hidxnp).2.2
  obtain ⟨hH3, hvun3, hframe3⟩ :=
    handleInFold_spec entries E (popped ++ [idx]) hnd2 idx ve.inl.reverse st
      hus hvun hH2
  obtain ⟨ve2, hve2, hd2, ho2, hi2⟩ := hframe3 idx ve hve
  refine ⟨ve, ve2, hve, hve2, ?_⟩
  have hlen2 : (handleInFold idx ve.inl.reverse st).length = st.length := by
    rw [hH3.1, hlen]
  -- field facts transferred to the post-merge store
  have hfields2 : ∀ k c2, (handleInFold idx ve.inl.reverse st).get? k = some c2 →
      c2.out = (E.filter (fun p => p.1 == k)).map (·.2) ∧
      c2.indegree = (remIn E popped k : Int) ∧
      (∀ j ∈ c2.inl, j ∈ popped ∧ (j, k) ∈ E) := by
    intro k c2 hc2
    have hk : k < st.length := by
      have := get?_lt_length _ k c2 hc2
      omega
    obtain ⟨c, hc⟩ := get?_some_of_lt st k hk
    obtain ⟨c2', hc2', hdg, hout, hinl⟩ := hframe3 k c hc
    rw [hc2] at hc2'
    injection hc2' with hh
    obtain ⟨f1, f2, f3⟩ := hfields k c hc
    exact ⟨by rw [hh, hout]; exact f1, by rw [hh, hdg]; exact f2,
      by rw [hh, hinl]; exact f3⟩
  -- the successor list
  have hwsE : ∀ w ∈ ve2.out, (idx, w) ∈ E := by
    intro w hw
    rw [ho2, hveout] at hw
    obtain ⟨p, hp, hp2⟩ := List.mem_map.mp hw
    rw [List.mem_filter] at hp
    have hp1 : p.1 = idx := by simpa using hp.2
    have hpe : p = (idx, w) := by
      cases p
      simp only [Prod.mk.injEq]
      exact ⟨hp1, hp2⟩
    rw [← hpe]
    exact hp.1
  have hcnt : ∀ k, ve2.out.count k =
      (E.filter (fun p => p.1 == idx && p.2 == k)).length := by
    intro k
    rw [ho2, hveout]
    exact count_out E idx k
  have hws : ∀ w ∈ ve2.out, ∃ c, (handleInFold idx ve.inl.reverse st).get? w =
      some c := by
    intro w hw
    exact get?_some_of_lt _ w (by rw [hlen2]; have := (hEr _ (hwsE w hw)).2; omega)
  have hdeg : ∀ k c, (handleInFold idx ve.inl.reverse st).get? k = some c →
      ((ve2.out.count k : Int)) ≤ c.indegree := by
    intro k c hc
    obtain ⟨_, f2, _⟩ := hfields2 k c hc
    rw [f2, hcnt k]
    have hle : (E.filter (fun p => p.1 == idx && p.2 == k)).length ≤
        remIn E popped k := by
      apply filter_length_mono
      intro p hp hq
      rw [Bool.and_eq_true, beq_iff_eq, beq_iff_eq] at hq
      show (p.2 == k && !(decide (p.1 ∈ popped))) = true
      rw [Bool.and_eq_true, beq_iff_eq]
      refine ⟨hq.2, ?_⟩
      rw [hq.1]
      simp [hidxnp]
    exact_mod_cast hle
  obtain ⟨push, hp1, hp2, hp3, hp4, hp5⟩ :=
    handleOutFold_spec idx ve2.out (handleInFold idx ve.inl.reverse st) stack
      hws hdeg
  -- membership facts about the pushed block
  have hpush : ∀ x ∈ push, (idx, x) ∈ E ∧ x < entries.length ∧
      remIn E popped x = ve2.out.count x ∧ 1 ≤ ve2.out.count x := by
    intro x hx
    obtain ⟨hx1, hx2⟩ := (hp3 x).mp hx
    have hxE := hwsE x hx1
    have hxn : x < entries.length := (hEr _ hxE).2
    obtain ⟨cx, hcx⟩ := get?_some_of_lt (handleInFold idx ve.inl.reverse st) x
      (by omega)
    obtain ⟨_, f2, _⟩ := hfields2 x cx hcx
    have hdg : degOf (handleInFold idx ve.inl.reverse st) x = cx.indegree := by
      show (match (handleInFold idx ve.inl.reverse st).get? x with
            | some c => c.indegree | none => 0) = _
      rw [hcx]
    rw [hdg, f2] at hx2
    have hcnt1 : 1 ≤ ve2.out.count x := List.count_pos_iff.mpr hx1
    exact ⟨hxE, hxn, by exact_mod_cast hx2, hcnt1⟩
  have hpushnp : ∀ x ∈ push, x ∉ popped := by
    intro x hx hq
    obtain ⟨hxE, _, _, _⟩ := hpush x hx
    exact hidxnp (Before.mem_left _ _ _ (htopo _ hxE hq))
  have hpushni : ∀ x ∈ push, x ≠ idx := by
    intro x hx hq
    subst hq
    obtain ⟨_, _, hr, hc⟩ := hpush x hx
    rw [hrem0] at hr
    omega
  have hpushns : ∀ x ∈ push, x ∉ stack := by
    intro x hx hq
    obtain ⟨_, hxn, hr, hc⟩ := hpush x hx
    have := (hzero x hxn (hpushnp x hx)).mp (List.mem_cons_of_mem idx hq)
    omega
  rw [hp1]
  refine ⟨?_, ?_, ?_, ?_, ?_, ?_, ?_⟩
  · -- HInv for the final store
    apply HInv_frame entries E (popped ++ [idx])
      (handleInFold idx ve.inl.reverse st) _ hp4
    · intro k c hk
      obtain ⟨c2, g1, g2, g3, g4, g5, g6, g7, g8, g9⟩ := hp5 k c hk
      exact ⟨c2, g1, g2, g3, g4⟩
    · exact hH3
  · -- no duplicates among popped entries and stack
    have hperm : (popped ++ [idx]) ++ (push ++ stack) =
        popped ++ ([idx] ++ (push ++ stack)) := by simp
    rw [hperm]
    have hper : (popped ++ ([idx] ++ (stack ++ push))).Perm
        (popped ++ ([idx] ++ (push ++ stack))) :=
      List.Perm.append_left popped
        (List.Perm.append_left [idx] List.perm_append_comm)
    apply hper.nodup_iff.mp
    · apply List.nodup_append.mpr
      refine ⟨hndp, ?_, ?_⟩
      · show (idx :: (stack ++ push)).Nodup
        rw [List.nodup_cons]
        refine ⟨?_, ?_⟩
        · rw [List.mem_append]
          rintro (hq | hq)
          · exact (List.nodup_cons.mp hnds).1 hq
          · exact hpushni idx hq rfl
        · apply List.nodup_append.mpr
          exact ⟨(List.nodup_cons.mp hnds).2, hp2,
            fun a ha hb => hpushns a hb ha⟩
      · intro a ha
        show a ∉ idx :: (stack ++ push)
        rw [List.mem_cons, List.mem_append]
        rintro (hq | hq | hq)
        · exact hndis a ha (hq ▸ List.mem_cons_self _ _)
        · exact hndis a ha (List.mem_cons_of_mem idx hq)
        · exact hpushnp a hq ha
  · -- popped entries in range
    intro x hx
    rcases List.mem_append.mp hx with h | h
    · exact hpr x h
    · rw [List.mem_singleton] at h
      rw [h]
      exact hidxn
  · -- stack entries in range
    intro x hx
    rcases List.mem_append.mp hx with h | h
    · exact (hpush x h).2.1
    · exact hsr x (List.mem_cons_of_mem idx h)
  · -- out lists, indegrees, in-lists
    intro k c3 hc3
    have hk : k < (handleInFold idx ve.inl.reverse st).length := by
      have := get?_lt_length _ k c3 hc3
      omega
    obtain ⟨c2, hc2⟩ := get?_some_of_lt _ k hk
    obtain ⟨c3', g1, g2, g3, g4, g5, g6, g7, g8, g9⟩ := hp5 k c2 hc2
    rw [hc3] at g1
    injection g1 with hh
    obtain ⟨f1, f2, f3⟩ := hfields2 k c2 hc2
    refine ⟨?_, ?_, ?_⟩
    · rw [hh, g7]
      exact f1
    · rw [hh, g8, f2, hcnt k]
      have hsh := remIn_shift E popped idx k hidxnp
      omega
    · intro j hj
      rw [hh] at hj
      rcases g9 j hj with hj2 | ⟨hj2, hj3⟩
      · obtain ⟨hjp, hjE⟩ := f3 j hj2
        exact ⟨List.mem_append_left _ hjp, hjE⟩
      · rw [hj2]
        exact ⟨List.mem_append_right _ (List.mem_singleton_self _),
          hwsE k hj3⟩
  · -- stack characterisation
    intro k hk hknp
    have hknp1 : k ∉ popped := fun hq => hknp (List.mem_append_left _ hq)
    have hkni : k ≠ idx := fun hq =>
      hknp (List.mem_append_right _ (hq ▸ List.mem_singleton_self _))
    have hsh := remIn_shift E popped idx k hidxnp
    rw [List.mem_append]
    constructor
    · rintro (hq | hq)
      · obtain ⟨_, _, hr, _⟩ := hpush k hq
        rw [hcnt k] at hr
        omega
      · have := (hzero k hk hknp1).mp (List.mem_cons_of_mem idx hq)
        omega
    · intro hq
      by_cases hc0 : ve2.out.count k = 0
      · right
        rw [hcnt k] at hc0
        have hr0 : remIn E popped k = 0 := by omega
        have := (hzero k hk hknp1).mpr hr0
        rcases List.mem_cons.mp this with h | h
        · exact absurd h hkni
        · exact h
      · left
        apply (hp3 k).mpr
        have hkw : k ∈ ve2.out := by
          by_contra hq2
          exact hc0 (List.count_eq_zero.mpr hq2)
        refine ⟨hkw, ?_⟩
        obtain ⟨cx, hcx⟩ := get?_some_of_lt (handleInFold idx ve.inl.reverse st)
          k (by omega)
        obtain ⟨_, f2, _⟩ := hfields2 k cx hcx
        have hdg : degOf (handleInFold idx ve.inl.reverse st) k = cx.indegree := by
          show (match (handleInFold idx ve.inl.reverse st).get? k with
                | some c => c.indegree | none => 0) = _
          rw [hcx]
        rw [hdg, f2, hcnt k]
        have : remIn E popped k =
            (E.filter (fun p => p.1 == idx && p.2 == k)).length := by omega
        exact_mod_cast this
  · -- pops respect the constraint order
    intro p hp hp2
    rcases List.mem_append.mp hp2 with h | h
    · exact Before.extend _ _ _ _ (htopo p hp h)
    · rw [List.mem_singleton] at h
      have hfil : ∀ a ∈ E, ¬((fun q => q.2 == idx &&
          !(decide (q.1 ∈ popped))) a = true) := by
        apply List.filter_eq_nil_iff.mp
        have : remIn E popped idx = 0 := hrem0
        rw [remIn] at this
        exact List.length_eq_zero.mp this
      have hp1p : p.1 ∈ popped := by
        by_contra hq
        apply hfil p hp
        rw [Bool.and_eq_true, beq_iff_eq]
        exact ⟨h, by simp [hq]⟩
      rw [h]
      exact Before.last _ _ _ hp1p

/-- Running the loop from a state in the invariant, with enough fuel, empties
the stack and preserves the invariant (each pop consumes one unit of fuel and
adds a fresh index to the pop list, so `entries.length` units suffice). -/
theorem drcLoop_run (entries : List InEntry) (E : List (Nat × Nat))
    (hEr : ∀ p ∈ E, p.1 < entries.length ∧ p.2 < entries.length) :
    ∀ (fuel : Nat) (st : List CEntry) (stack popped : List Nat),
    LoopInv entries E st stack popped →
    entries.length ≤ fuel + popped.length →
    LoopInv entries E (drcLoop fuel st stack popped).1 []
      (drcLoop fuel st stack popped).2 := by
  intro fuel
  induction fuel with
  | zero =>
    intro st stack popped hinv hfuel
    cases stack with
    | nil => exact hinv
    | cons idx stack2 =>
      exfalso
      obtain ⟨_, hnd, hpr, hsr, _⟩ := hinv
      have hle : (popped ++ idx :: stack2).length ≤
          (List.range entries.length).length := by
        apply AntvDagre.nodup_subset_length _ _ hnd _ (List.nodup_range _)
        intro x hx
        rw [List.mem_range]
        rcases List.mem_append.mp hx with h | h
        · exact hpr x h
        · exact hsr x h
      simp only [List.length_append, List.length_cons, List.length_range] at hle
      omega
  | succ fuel ih =>
    intro st stack popped hinv hfuel
    cases stack with
    | nil => exact hinv
    | cons idx stack2 =>
      obtain ⟨ve, ve2, hve, hve2, hinv2⟩ :=
        LoopInv_step entries E hEr st idx stack2 popped hinv
      have hstep : drcLoop (fuel+1) st (idx :: stack2) popped =
          drcLoop fuel
            (handleOutFold idx ve2.out
              (handleInFold idx ve.inl.reverse st, stack2)).1
            (handleOutFold idx ve2.out
              (handleInFold idx ve.inl.reverse st, stack2)).2
            (popped ++ [idx]) := by
        simp only [drcLoop, hve, hve2]
      rw [hstep]
      apply ih _ _ _ hinv2
      simp only [List.length_append, List.length_cons]
      omega

/-- Once the stack is empty, acyclicity of the mapped constraints forces every
entry to have been popped. -/
theorem popped_complete (entries : List InEntry) (E : List (Nat × Nat))
    (hEr : ∀ p ∈ E, p.1 < entries.length ∧ p.2 < entries.length)
    (st : List CEntry) (popped : List Nat)
    (hinv : LoopInv entries E st [] popped)
    (f : Nat → Nat) (hf : ∀ p ∈ E, f p.1 < f p.2) :
    ∀ k, k < entries.length → k ∈ popped := by
  obtain ⟨_, _, _, _, _, hzero, _⟩ := hinv
  by_contra hq
  push_neg at hq
  obtain ⟨k0, hk0, hk0np⟩ := hq
  have hS : ((Finset.range entries.length).filter
      (fun x => x ∉ popped)).Nonempty :=
    ⟨k0, by simp [hk0, hk0np]⟩
  obtain ⟨k, hkmem, hkmin⟩ := Finset.exists_min_image _ f hS
  rw [Finset.mem_filter, Finset.mem_range] at hkmem
  obtain ⟨hkn, hknp⟩ := hkmem
  have h0 : ¬(remIn E popped k = 0) := by
    intro h
    exact absurd ((hzero k hkn hknp).mpr h) (List.not_mem_nil k)
  have hex : ∃ p ∈ E, p.2 = k ∧ p.1 ∉ popped := by
    by_contra hq2
    push_neg at hq2
    apply h0
    rw [remIn, List.length_eq_zero, List.filter_eq_nil_iff]
    intro p hp hcontra
    rw [Bool.and_eq_true, beq_iff_eq, Bool.not_eq_true',
      decide_eq_false_iff_not] at hcontra
    exact hcontra.2 (hq2 p hp hcontra.1)
  obtain ⟨p, hpE, hp2, hp1⟩ := hex
  have hp1n : p.1 < entries.length := (hEr p hpE).1
  have hlt := hf p hpE
  rw [hp2] at hlt
  have := hkmin p.1
    (by rw [Finset.mem_filter, Finset.mem_range]; exact ⟨hp1n, hp1⟩)
  omega

/-! ### The final store and pop list of `resolveConflicts` -/

theorem Emap_range (entries : List InEntry) (cg : CGraph) :
    ∀ p ∈ Emap entries cg, p.1 < entries.length ∧ p.2 < entries.length := by
  intro p hp
  rw [Emap, List.mem_filterMap] at hp
  obtain ⟨e, he, hmap⟩ := hp
  cases h1 : entryIdx entries e.1 with
  | none =>
    rw [h1] at hmap
    cases hmap
  | some a =>
    cases h2 : entryIdx entries e.2 with
    | none =>
      rw [h1, h2] at hmap
      cases hmap
    | some b =>
      rw [h1, h2] at hmap
      injection hmap with hm
      rw [← hm]
      exact ⟨entryIdx_lt entries e.1 a h1, entryIdx_lt entries e.2 b h2⟩

theorem rcRun_inv (entries : List InEntry) (cg : CGraph)
    (hids : (entries.map (·.v)).Nodup) :
    LoopInv entries (Emap entries cg) (rcRun entries cg).1 []
      (rcRun entries cg).2 :=
  drcLoop_run entries (Emap entries cg) (Emap_range entries cg)
    entries.length _ _ _ (LoopInv_init entries cg hids) (by simp)

theorem rcRun_popped_perm (entries : List InEntry) (cg : CGraph)
    (hids : (entries.map (·.v)).Nodup) (f : Nat → Nat)
    (hf : ∀ p ∈ Emap entries cg, f p.1 < f p.2) :
    (rcRun entries cg).2.Perm (List.range entries.length) := by
  have hinv := rcRun_inv entries cg hids
  have hcomp := popped_complete entries (Emap entries cg)
    (Emap_range entries cg) _ _ hinv f hf
  obtain ⟨_, hnd, hpr, _, _⟩ := hinv
  rw [List.append_nil] at hnd
  rw [List.perm_ext_iff_of_nodup hnd (List.nodup_range _)]
  intro a
  rw [List.mem_range]
  exact ⟨fun h => hpr a h, fun h => hcomp a h⟩

/-- The multiset contribution of the entry at index `k`. -/
def contrib (st : List CEntry) (k : Nat) : Multiset Nat :=
  match st.get? k with
  | some c => if c.merged then 0 else (c.vs : Multiset Nat)
  | none => 0

theorem msumOf_eq_range : ∀ (st : List CEntry),
    msumOf st = ((List.range st.length).map (contrib st)).sum := by
  intro st
  induction st with
  | nil => rfl
  | cons c cs ih =>
    rw [msumOf]
    simp only [List.map_cons, List.sum_cons]
    show _ + _ = ((List.range (cs.length + 1)).map (contrib (c :: cs))).sum
    rw [List.range_succ_eq_map]
    simp only [List.map_cons, List.sum_cons, List.map_map]
    have hc : contrib (c :: cs) 0 =
        if c.merged then 0 else (c.vs : Multiset Nat) := rfl
    have ht : (List.map (contrib (c :: cs) ∘ Nat.succ)
        (List.range cs.length)).sum =
        (List.map (contrib cs) (List.range cs.length)).sum := rfl
    rw [hc, ht]
    rw [msumOf] at ih
    rw [ih]

theorem join_contrib (st : List CEntry) : ∀ (l : List Nat),
    (∀ k ∈ l, ∃ c, st.get? k = some c) →
    ((((l.filter (fun i => (st.get? i).any (fun e => !e.merged))).filterMap
        (fun i => (st.get? i).map
          (fun e => (⟨e.vs, e.i, e.barycenter, e.weight⟩ : OutEntry)))).map
      (fun o => o.vs)).flatten : Multiset Nat) = (l.map (contrib st)).sum := by
  intro l
  induction l with
  | nil => intro _; rfl
  | cons k l ih =>
    intro h
    obtain ⟨c, hc⟩ := h k (List.mem_cons_self _ _)
    have ih2 := ih (fun x hx => h x (List.mem_cons_of_mem k hx))
    rw [List.filter_cons]
    simp only [List.map_cons, List.sum_cons]
    have hcon : contrib st k = if c.merged then 0 else (c.vs : Multiset Nat) := by
      show (match st.get? k with
            | some c => if c.merged then 0 else (c.vs : Multiset Nat)
            | none => 0) = _
      rw [hc]
    by_cases hm : c.merged = true
    · have hpred : ((st.get? k).any (fun e => !e.merged)) = false := by
        rw [hc]
        show (!c.merged) = false
        rw [hm]
        rfl
      rw [if_neg (by rw [hpred]; exact Bool.false_ne_true)]
      rw [ih2, hcon, if_pos hm, zero_add]
    · have hm' : c.merged = false := by
        revert hm
        cases c.merged <;> simp
      have hpred : ((st.get? k).any (fun e => !e.merged)) = true := by
        rw [hc]
        show (!c.merged) = true
        rw [hm']
        rfl
      have hfm : ((k :: l.filter (fun i => (st.get? i).any (fun e => !e.merged))).filterMap
          (fun i => (st.get? i).map
            (fun e => (⟨e.vs, e.i, e.barycenter, e.weight⟩ : OutEntry)))) =
          (⟨c.vs, c.i, c.barycenter, c.weight⟩ : OutEntry) ::
          (l.filter (fun i => (st.get? i).any (fun e => !e.merged))).filterMap
            (fun i => (st.get? i).map
              (fun e => (⟨e.vs, e.i, e.barycenter, e.weight⟩ : OutEntry))) := by
        rw [List.filterMap_cons, hc]
        rfl
      rw [if_pos hpred, hfm]
      simp only [List.map_cons, List.flatten_cons]
      rw [← Multiset.coe_add, ih2, hcon, if_neg hm]

theorem resolveConflicts_eq (entries : List InEntry) (cg : CGraph) :
    resolveConflicts entries cg =
      ((rcRun entries cg).2.filter
        (fun i => ((rcRun entries cg).1.get? i).any (fun e => !e.merged))).filterMap
        (fun i => ((rcRun entries cg).1.get? i).map
          (fun e => (⟨e.vs, e.i, e.barycenter, e.weight⟩ : OutEntry))) := rfl

/-- With distinct ids and acyclic mapped constraints, the output of
`resolveConflicts` partitions the input ids, and each block's `i` is the
least original index among its members. -/
theorem resolveConflicts_partition (entries : List InEntry) (cg : CGraph)
    (hids : (entries.map (·.v)).Nodup) (f : Nat → Nat)
    (hf : ∀ p ∈ Emap entries cg, f p.1 < f p.2) :
    (((resolveConflicts entries cg).map (fun o => o.vs)).flatten : Multiset Nat) =
      ↑(entries.map (·.v)) ∧
    ∀ o ∈ resolveConflicts entries cg, o.vs ≠ [] ∧
      o.i = minIdxOf entries o.vs := by
  have hinv := rcRun_inv entries cg hids
  have hperm := rcRun_popped_perm entries cg hids f hf
  obtain ⟨hH, hnd, hpr, _, _, _, _⟩ := hinv
  have hlen : (rcRun entries cg).1.length = entries.length := hH.1
  have hget : ∀ k ∈ (rcRun entries cg).2,
      ∃ c, (rcRun entries cg).1.get? k = some c := by
    intro k hk
    exact get?_some_of_lt _ k (by rw [hlen]; exact hpr k hk)
  constructor
  · rw [resolveConflicts_eq]
    rw [join_contrib (rcRun entries cg).1 (rcRun entries cg).2 hget]
    have hsum : ((rcRun entries cg).2.map (contrib (rcRun entries cg).1)).sum =
        ((List.range entries.length).map (contrib (rcRun entries cg).1)).sum :=
      (hperm.map (contrib (rcRun entries cg).1)).sum_eq
    rw [hsum, ← hlen, ← msumOf_eq_range]
    exact hH.2.1
  · intro o ho
    rw [resolveConflicts_eq, List.mem_filterMap] at ho
    obtain ⟨i, hi, hproj⟩ := ho
    rw [List.mem_filter] at hi
    obtain ⟨hip, hipred⟩ := hi
    cases hci : (rcRun entries cg).1.get? i with
    | none =>
      rw [hci] at hproj
      cases hproj
    | some c =>
      rw [hci] at hproj hipred
      injection hproj with hpj
      have hcm : c.merged = false := by
        have h2 : (!c.merged) = true := hipred
        revert h2
        cases c.merged <;> simp
      obtain ⟨g1, g2, _⟩ := hH.2.2.1 i c hci hcm
      rw [← hpj]
      exact ⟨g1, g2⟩

/-- C9: with distinct entry ids and an acyclic constraint graph (witnessed by
a topological numbering `f` of the mapped constraint edges), the
concatenation of the `vs` lists over the output of `resolveConflicts` holds
every input node exactly once (as a multiset), and each output entry's `i` is
the minimum original input index over the members of its `vs`. -/
theorem claim_C9_node_preservation (entries : List InEntry) (cg : CGraph)
    (hids : (entries.map (·.v)).Nodup) (f : Nat → Nat)
    (hf : ∀ p ∈ Emap entries cg, f p.1 < f p.2) :
    (((resolveConflicts entries cg).map (fun o => o.vs)).flatten : Multiset Nat) =
      ↑(entries.map (·.v)) ∧
    ∀ o ∈ resolveConflicts entries cg, o.vs ≠ [] ∧
      o.i = minIdxOf entries o.vs :=
  resolveConflicts_partition entries cg hids f hf

def e9w : List InEntry :=
  [⟨0, some 5, some 1⟩, ⟨1, some 6, some 1⟩, ⟨2, some 1, some 1⟩, ⟨4, none, none⟩]

def cg9w : List (Nat × Nat) := [(0, 2), (0, 1), (1, 4)]

theorem claim_C9_node_preservation_witness :
    ((e9w.map (·.v)).Nodup ∧ (∀ p ∈ Emap e9w cg9w, p.1 < p.2)) ∧
    ((((resolveConflicts e9w cg9w).map (fun o => o.vs)).flatten : Multiset Nat) =
      ↑(e9w.map (·.v)) ∧
     ∀ o ∈ resolveConflicts e9w cg9w, o.vs ≠ [] ∧ o.i = minIdxOf e9w o.vs) :=
  ⟨⟨by decide, by decide⟩,
    claim_C9_node_preservation e9w cg9w (by decide) (fun i => i) (by decide)⟩

/-! ### C10: a merge of two barycenter-less entries -/

def e10c : List InEntry := [⟨0, none, none⟩, ⟨1, none, none⟩]

def cg10c : List (Nat × Nat) := [(0, 1)]

/-- The record of entry `1` when the constraint `0 → 1` of `cg10c` triggers
the merge (its predecessor `0` already popped and recorded on its in-list). -/
def t10 : CEntry := ⟨1, 0, [0], [], [1], none, none, false⟩

/-- The record of entry `0` at that moment. -/
def s10 : CEntry := ⟨0, 0, [], [1], [0], none, none, false⟩

/-- C10: a constraint edge between two entries that both lack a barycenter
(and weight) makes `mergeEntries` compute the unguarded division `0 / 0` as
the merged barycenter (`NaN` in JavaScript, the total-division value `0 / 0`
of the rationals in this embedding) and `0` as the merged weight, so the
surviving output entry carries a defined barycenter field and weight `0`
instead of the absent-barycenter variant. -/
theorem claim_C10_zero_div_zero :
    resolveConflicts e10c cg10c =
      [⟨[0, 1], 0, some ((0 : Rat) / 0), some 0⟩] ∧
    ∀ o ∈ resolveConflicts e10c cg10c,
      o.barycenter ≠ none ∧ o.weight = some 0 := by
  have h1 : resolveConflicts e10c cg10c =
      [⟨(mergedTarget t10 s10).vs, (mergedTarget t10 s10).i,
        (mergedTarget t10 s10).barycenter, (mergedTarget t10 s10).weight⟩] := rfl
  have hs : mSum t10 s10 = 0 := by simp [mSum, t10, s10]
  have hw : mW t10 s10 = 0 := by simp [mW, t10, s10]
  have h2 : [(⟨(mergedTarget t10 s10).vs, (mergedTarget t10 s10).i,
      (mergedTarget t10 s10).barycenter, (mergedTarget t10 s10).weight⟩ :
        OutEntry)] =
      [(⟨[0, 1], 0, some ((0 : Rat) / 0), some 0⟩ : OutEntry)] := by
    show [(⟨[0] ++ [1], min 0 1, some (mSum t10 s10 / mW t10 s10),
      some (mW t10 s10)⟩ : OutEntry)] = _
    rw [hs, hw]
    rfl
  rw [h1, h2]
  refine ⟨rfl, ?_⟩
  intro o ho
  rw [List.mem_singleton] at ho
  rw [ho]
  exact ⟨by simp, rfl⟩

/-! ### C6: the claimed output ordering, and its corrected form -/

/-- The ordering property the claim states for one constraint `u → v`: `u`
in the same block strictly left of `v`, or `u`'s block placed no later than
`v`'s. -/
def uBeforeV (os : List OutEntry) (u v : Nat) : Bool :=
  match os.findIdx? (fun o => o.vs.contains u),
        os.findIdx? (fun o => o.vs.contains v) with
  | some bu, some bv =>
    if bu = bv then
      match os.get? bu with
      | some o => o.vs.indexOf u < o.vs.indexOf v
      | none => false
    else decide (bu ≤ bv)
  | _, _ => false

def e6c : List InEntry :=
  [⟨0, some 5, some 1⟩, ⟨1, some 6, some 1⟩, ⟨2, some 1, some 1⟩]

def cg6c : List (Nat × Nat) := [(0, 2), (0, 1)]

/-- C6 counterexample: for the entries `0 ↦ (bc 5)`, `1 ↦ (bc 6)`,
`2 ↦ (bc 1)` and the acyclic constraints `0 → 2`, `0 → 1`, the source `0` of
the constraint `0 → 1` ends in the block `[0, 2]`, which is placed after the
block `[1]` holding the target — the output violates the claimed ordering for
a constraint that was never coalesced away. -/
theorem claim_C6_counterexample :
    (∀ p ∈ Emap e6c cg6c, p.1 < p.2) ∧
    (0, 1) ∈ cg6c ∧
    (entryIdx e6c 0).isSome ∧ (entryIdx e6c 1).isSome ∧
    (resolveConflicts e6c cg6c).map (fun o => (o.vs, o.i)) =
      [([1], 1), ([0, 2], 0)] ∧
    uBeforeV (resolveConflicts e6c cg6c) 0 1 = false := by
  decide

theorem Before.filter_of (l : List Nat) (p : Nat → Bool) (a b : Nat)
    (h : Before l a b) (hpa : p a = true) (hpb : p b = true) :
    Before (l.filter p) a b := by
  obtain ⟨l1, l2, hl, ha⟩ := h
  refine ⟨l1.filter p, l2.filter p, ?_, List.mem_filter.mpr ⟨ha, hpa⟩⟩
  rw [hl, List.filter_append, List.filter_cons, if_pos hpb]

theorem get?_append_length {α : Type} (l1 l2 : List α) (x : α) :
    (l1 ++ x :: l2).get? l1.length = some x := by
  induction l1 with
  | nil => rfl
  | cons y ys ih => exact ih

/-- C6 amended: a constraint `a → b` whose source block was never coalesced
away (the final record at the source's index is unmerged) is honoured: the
source's node sits in an output block strictly before the block holding the
target's node.  (The counterexample above shows that a coalesced source can
land after the target, so the unmerged hypothesis is needed.) -/
theorem claim_C6_amended (entries : List InEntry) (cg : CGraph)
    (hids : (entries.map (·.v)).Nodup) (f : Nat → Nat)
    (hf : ∀ p ∈ Emap entries cg, f p.1 < f p.2)
    (a b : Nat) (hab : (a, b) ∈ Emap entries cg)
    (ca : CEntry) (hca : (rcRun entries cg).1.get? a = some ca)
    (hcam : ca.merged = false) :
    ∃ ju jv ou ov, ju < jv ∧
      (resolveConflicts entries cg).get? ju = some ou ∧
      (resolveConflicts entries cg).get? jv = some ov ∧
      vOf entries a ∈ ou.vs ∧ vOf entries b ∈ ov.vs := by
  have hinv := rcRun_inv entries cg hids
  have hcomp := popped_complete entries (Emap entries cg)
    (Emap_range entries cg) _ _ hinv f hf
  obtain ⟨hH, hnd, hpr, _, _, _, htopo⟩ := hinv
  rw [List.append_nil] at hnd
  obtain ⟨han, hbn⟩ := Emap_range entries cg (a, b) hab
  have hbp : b ∈ (rcRun entries cg).2 := hcomp b hbn
  have hBab : Before (rcRun entries cg).2 a b := htopo (a, b) hab hbp
  obtain ⟨enb, henb⟩ := get?_some_of_lt entries b hbn
  have hvofb : vOf entries b = enb.v := by
    show ((entries.get? b).map (·.v)).getD 0 = enb.v
    rw [henb]
    rfl
  have hidxb : entryIdx entries enb.v = some b :=
    entryIdx_get entries hids b enb henb
  have hms := (resolveConflicts_partition entries cg hids f hf).1
  have hmem : vOf entries b ∈
      ((resolveConflicts entries cg).map (fun o => o.vs)).flatten := by
    have h2 : vOf entries b ∈ (entries.map (·.v) : List Nat) := by
      rw [hvofb]
      exact List.mem_map_of_mem (·.v) (get?_mem entries b enb henb)
    have h3 : vOf entries b ∈ (↑(entries.map (·.v)) : Multiset Nat) := h2
    rw [← hms] at h3
    exact h3
  rw [List.mem_flatten] at hmem
  obtain ⟨vsl, hvsl, hbin⟩ := hmem
  rw [List.mem_map] at hvsl
  obtain ⟨ov0, hov0, hvseq⟩ := hvsl
  rw [resolveConflicts_eq, List.mem_filterMap] at hov0
  obtain ⟨kb, hkb, hkbproj⟩ := hov0
  rw [List.mem_filter] at hkb
  obtain ⟨hkbp, hkbpred⟩ := hkb
  cases hckb : (rcRun entries cg).1.get? kb with
  | none =>
    rw [hckb] at hkbproj
    cases hkbproj
  | some cb =>
    rw [hckb] at hkbproj hkbpred
    injection hkbproj with hkbproj2
    have hcbm : cb.merged = false := by
      have h2 : (!cb.merged) = true := hkbpred
      revert h2
      cases cb.merged <;> simp
    have hbinc : vOf entries b ∈ cb.vs := by
      rw [← hkbproj2] at hvseq
      rw [← hvseq] at hbin
      exact hbin
    have horder := hH.2.2.2.1 kb cb hckb (vOf entries b) hbinc
    rw [hvofb, hidxb] at horder
    have hpath := hH.2.2.2.2.1 kb cb hckb (vOf entries b) hbinc b
      (by rw [hvofb]; exact hidxb)
    have hBakb : Before (rcRun entries cg).2 a kb := by
      rcases horder with h | ⟨j, hj, hbf⟩
      · injection h with h2
        rw [← h2]
        exact hBab
      · injection hj with hj2
        rw [← hj2] at hbf
        exact Before.trans _ a b kb hnd hBab hbf
    have hpa : (((rcRun entries cg).1.get? a).any (fun e => !e.merged)) = true := by
      rw [hca]
      show (!ca.merged) = true
      rw [hcam]
      rfl
    have hpkb : (((rcRun entries cg).1.get? kb).any (fun e => !e.merged)) = true := by
      rw [hckb]
      show (!cb.merged) = true
      rw [hcbm]
      rfl
    have hBf := Before.filter_of (rcRun entries cg).2
      (fun i => ((rcRun entries cg).1.get? i).any (fun e => !e.merged))
      a kb hBakb hpa hpkb
    obtain ⟨l1, l2, hl, hal1⟩ := hBf
    obtain ⟨g1, g2, hg⟩ := List.append_of_mem hal1
    have hout : resolveConflicts entries cg =
        (g1.filterMap (fun i => ((rcRun entries cg).1.get? i).map
          (fun e => (⟨e.vs, e.i, e.barycenter, e.weight⟩ : OutEntry)))) ++
        (⟨ca.vs, ca.i, ca.barycenter, ca.weight⟩ : OutEntry) ::
        ((g2.filterMap (fun i => ((rcRun entries cg).1.get? i).map
          (fun e => (⟨e.vs, e.i, e.barycenter, e.weight⟩ : OutEntry)))) ++
        (⟨cb.vs, cb.i, cb.barycenter, cb.weight⟩ : OutEntry) ::
        (l2.filterMap (fun i => ((rcRun entries cg).1.get? i).map
          (fun e => (⟨e.vs, e.i, e.barycenter, e.weight⟩ : OutEntry))))) := by
      rw [resolveConflicts_eq, hl, hg]
      simp only [List.cons_append, List.append_assoc, List.nil_append]
      rw [List.filterMap_append, List.filterMap_cons, hca,
        List.filterMap_append, List.filterMap_cons, hckb]
      rfl
    refine ⟨(g1.filterMap (fun i => ((rcRun entries cg).1.get? i).map
        (fun e => (⟨e.vs, e.i, e.barycenter, e.weight⟩ : OutEntry)))).length,
      ((g1.filterMap (fun i => ((rcRun entries cg).1.get? i).map
        (fun e => (⟨e.vs, e.i, e.barycenter, e.weight⟩ : OutEntry)))) ++
       (⟨ca.vs, ca.i, ca.barycenter, ca.weight⟩ : OutEntry) ::
       (g2.filterMap (fun i => ((rcRun entries cg).1.get? i).map
        (fun e => (⟨e.vs, e.i, e.barycenter, e.weight⟩ : OutEntry))))).length,
      ⟨ca.vs, ca.i, ca.barycenter, ca.weight⟩,
      ⟨cb.vs, cb.i, cb.barycenter, cb.weight⟩, ?_, ?_, ?_,
      (hH.2.2.1 a ca hca hcam).2.2, hbinc⟩
    · simp only [List.length_append, List.length_cons]
      omega
    · rw [hout]
      exact get?_append_length _ _ _
    · rw [hout]
      have hassoc : (g1.filterMap (fun i => ((rcRun entries cg).1.get? i).map
          (fun e => (⟨e.vs, e.i, e.barycenter, e.weight⟩ : OutEntry)))) ++
          (⟨ca.vs, ca.i, ca.barycenter, ca.weight⟩ : OutEntry) ::
          ((g2.filterMap (fun i => ((rcRun entries cg).1.get? i).map
            (fun e => (⟨e.vs, e.i, e.barycenter, e.weight⟩ : OutEntry)))) ++
          (⟨cb.vs, cb.i, cb.barycenter, cb.weight⟩ : OutEntry) ::
          (l2.filterMap (fun i => ((rcRun entries cg).1.get? i).map
            (fun e => (⟨e.vs, e.i, e.barycenter, e.weight⟩ : OutEntry))))) =
          ((g1.filterMap (fun i => ((rcRun entries cg).1.get? i).map
            (fun e => (⟨e.vs, e.i, e.barycenter, e.weight⟩ : OutEntry)))) ++
          (⟨ca.vs, ca.i, ca.barycenter, ca.weight⟩ : OutEntry) ::
          (g2.filterMap (fun i => ((rcRun entries cg).1.get? i).map
            (fun e => (⟨e.vs, e.i, e.barycenter, e.weight⟩ : OutEntry))))) ++
          (⟨cb.vs, cb.i, cb.barycenter, cb.weight⟩ : OutEntry) ::
          (l2.filterMap (fun i => ((rcRun entries cg).1.get? i).map
            (fun e => (⟨e.vs, e.i, e.barycenter, e.weight⟩ : OutEntry)))) := by
        simp
      rw [hassoc]
      exact get?_append_length _ _ _

def e6aw : List InEntry := [⟨0, some 1, some 1⟩, ⟨1, some 5, some 1⟩]

def cg6aw : List (Nat × Nat) := [(0, 1)]

def ca6aw : CEntry := ⟨0, 0, [], [1], [0], some 1, some 1, false⟩

theorem claim_C6_amended_witness :
    ((e6aw.map (·.v)).Nodup ∧ (∀ p ∈ Emap e6aw cg6aw, p.1 < p.2) ∧
     (0, 1) ∈ Emap e6aw cg6aw ∧
     (rcRun e6aw cg6aw).1.get? 0 = some ca6aw ∧ ca6aw.merged = false) ∧
    (∃ ju jv ou ov, ju < jv ∧
      (resolveConflicts e6aw cg6aw).get? ju = some ou ∧
      (resolveConflicts e6aw cg6aw).get? jv = some ov ∧
      vOf e6aw 0 ∈ ou.vs ∧ vOf e6aw 1 ∈ ov.vs) :=
  ⟨⟨by decide, by decide, by decide, by decide, by decide⟩,
    claim_C6_amended e6aw cg6aw (by decide) (fun i => i) (by decide) 0 1
      (by decide) ca6aw (by decide) (by decide)⟩

end AntvOrder

/-!
## The hill-climb loops of `order` (src/packages/layout/src/dagre/order/index.ts)

The loop `for (let i = 0, lastBest = 0; lastBest < 4; ++i, ++lastBest)`
sweeps the layer graphs, recomputes the layering and its crossing count, and
on `cc < bestCC` sets `lastBest = 0`, `best = clone(layering)`, `bestCC = cc`
(so after the trailing `++lastBest` an improving iteration leaves
`lastBest = 1`).  `bestCC` starts at `Number.POSITIVE_INFINITY` (here `⊤` in
`ℕ∞`) and `best` starts undefined (`none`); `order` runs the loop twice — the
second time with `usePrev` — sharing `best`/`bestCC`, and finally assigns
`best!`.  `sortSubgraph`, `crossCount` and `buildLayerMatrix` are not in this
repository's sources, so the layering produced at iteration `i` and its
crossing count are abstracted as functions `lay i` and `cc i`; the loop
bookkeeping itself is translated from the source.  The loop has no fuel in
JavaScript; `hillRun` takes fuel, and the theorems establish exit within the
provided fuel where needed.
-/

namespace AntvOrderLoop

/-- The loop state: iteration counter, `lastBest`, `best` and `bestCC`. -/
structure HState (L : Type) where
  i : Nat
  lastBest : Nat
  best : Option L
  bestCC : ℕ∞
deriving DecidableEq

/-- One loop body followed by the `++i, ++lastBest` increments. -/
def hillStep {L : Type} (cc : Nat → Nat) (lay : Nat → L) (s : HState L) :
    HState L :=
  if (cc s.i : ℕ∞) < s.bestCC then
    ⟨s.i + 1, 1, some (lay s.i), (cc s.i : ℕ∞)⟩
  else
    ⟨s.i + 1, s.lastBest + 1, s.best, s.bestCC⟩

/-- The loop: continue while `lastBest < 4`. -/
def hillRun {L : Type} (cc : Nat → Nat) (lay : Nat → L) :
    Nat → HState L → HState L
  | 0, s => s
  | fuel+1, s =>
    if s.lastBest < 4 then hillRun cc lay fuel (hillStep cc lay s) else s

/-- The two consecutive loops of `order` (the second shares `best` and
`bestCC`; only `i` and `lastBest` restart). -/
def orderModel {L : Type} (cc1 cc2 : Nat → Nat) (lay1 lay2 : Nat → L)
    (fuel : Nat) : HState L :=
  hillRun cc2 lay2 fuel
    ⟨0, 0, (hillRun cc1 lay1 fuel ⟨0, 0, none, ⊤⟩).best,
      (hillRun cc1 lay1 fuel ⟨0, 0, none, ⊤⟩).bestCC⟩

theorem hillRun_succ {L : Type} (cc : Nat → Nat) (lay : Nat → L) (fuel : Nat)
    (s : HState L) :
    hillRun cc lay (fuel+1) s =
      if s.lastBest < 4 then hillRun cc lay fuel (hillStep cc lay s) else s := rfl

theorem hillRun_exit {L : Type} (cc : Nat → Nat) (lay : Nat → L) (fuel : Nat)
    (s : HState L) (h : ¬(s.lastBest < 4)) : hillRun cc lay fuel s = s := by
  cases fuel with
  | zero => rfl
  | succ f =>
    rw [hillRun_succ, if_neg h]

theorem hillStep_bestCC_le {L : Type} (cc : Nat → Nat) (lay : Nat → L)
    (s : HState L) : (hillStep cc lay s).bestCC ≤ s.bestCC := by
  rw [hillStep]
  by_cases h : (cc s.i : ℕ∞) < s.bestCC
  · rw [if_pos h]
    exact le_of_lt h
  · rw [if_neg h]

theorem hillRun_bestCC_le {L : Type} (cc : Nat → Nat) (lay : Nat → L) :
    ∀ (fuel : Nat) (s : HState L),
    (hillRun cc lay fuel s).bestCC ≤ s.bestCC := by
  intro fuel
  induction fuel with
  | zero => intro s; exact le_refl _
  | succ f ih =>
    intro s
    rw [hillRun_succ]
    by_cases h : s.lastBest < 4
    · rw [if_pos h]
      exact le_trans (ih (hillStep cc lay s)) (hillStep_bestCC_le cc lay s)
    · rw [if_neg h]

/-- C4 counterexample: the running best starts undefined, not as the initial
layering; and when every sweep yields crossing count 10 while the initial
order would have count 1 (never measured by the loop), the final tracked best
is 10, which is not `≤ 1` — the assigned layering can be worse than the
initial order. -/
theorem claim_C4_counterexample :
    (⟨0, 0, none, ⊤⟩ : HState (List (List Nat))).best = none ∧
    (orderModel (fun _ => 10) (fun _ => 10)
      (fun _ => [[0]]) (fun _ => [[0]]) 12).bestCC = ((10 : Nat) : ℕ∞) ∧
    ¬((orderModel (fun _ => 10) (fun _ => 10)
      (fun _ => [[0]]) (fun _ => [[0]]) 12).bestCC ≤ ((1 : Nat) : ℕ∞)) := by
  decide

/-- C4 amended: the tracked best crossing count never increases, within one
step and across a whole run; `bestCC` starts at `⊤` with `best` undefined;
and the final best of the two runs is at most the crossing count of the
layering produced by the first sweep iteration (not of the initial order,
whose count is never measured). -/
theorem claim_C4_amended (L : Type) (cc1 cc2 : Nat → Nat) (lay1 lay2 : Nat → L)
    (fuel : Nat) (hfuel : 1 ≤ fuel) :
    (∀ s : HState L, (hillStep cc1 lay1 s).bestCC ≤ s.bestCC) ∧
    (∀ s : HState L, (hillRun cc1 lay1 fuel s).bestCC ≤ s.bestCC) ∧
    (orderModel cc1 cc2 lay1 lay2 fuel).bestCC ≤ (cc1 0 : ℕ∞) := by
  refine ⟨hillStep_bestCC_le cc1 lay1, hillRun_bestCC_le cc1 lay1 fuel, ?_⟩
  obtain ⟨f, rfl⟩ : ∃ f, fuel = f + 1 := ⟨fuel - 1, by omega⟩
  have h2 : hillStep cc1 lay1 (⟨0, 0, none, ⊤⟩ : HState L) =
      ⟨1, 1, some (lay1 0), (cc1 0 : ℕ∞)⟩ := by
    rw [hillStep, if_pos (lt_top_iff_ne_top.mpr (by simp))]
  have h1 : hillRun cc1 lay1 (f+1) (⟨0, 0, none, ⊤⟩ : HState L) =
      hillRun cc1 lay1 f ⟨1, 1, some (lay1 0), (cc1 0 : ℕ∞)⟩ := by
    rw [hillRun_succ, if_pos (by show (0:Nat) < 4; decide), h2]
  calc (orderModel cc1 cc2 lay1 lay2 (f+1)).bestCC
      ≤ (hillRun cc1 lay1 (f+1) (⟨0, 0, none, ⊤⟩ : HState L)).bestCC :=
        hillRun_bestCC_le cc2 lay2 (f+1) _
    _ ≤ (cc1 0 : ℕ∞) := by
        rw [h1]
        exact hillRun_bestCC_le cc1 lay1 f _

theorem claim_C4_amended_witness :
    (1 : Nat) ≤ 5 ∧
    ((∀ s : HState Nat,
        (hillStep (fun _ => 3) (fun i => i) s).bestCC ≤ s.bestCC) ∧
     (∀ s : HState Nat,
        (hillRun (fun _ => 3) (fun i => i) 5 s).bestCC ≤ s.bestCC) ∧
     (orderModel (fun _ => 3) (fun _ => 4) (fun i : Nat => i)
        (fun i : Nat => i) 5).bestCC ≤ ((fun _ : Nat => (3 : Nat)) 0 : ℕ∞)) :=
  ⟨by decide, claim_C4_amended Nat (fun _ => 3) (fun _ => 4)
    (fun i => i) (fun i => i) 5 (by decide)⟩

/-- C5 counterexample: when every sweep yields crossing count 5, the first
iteration improves (from `⊤`) and the loop exits after 3 — not 4 — further
non-improving iterations: 4 iterations in total rather than 1 + 4.  (The body
sets `lastBest = 0` but the loop's `++lastBest` immediately makes it 1, so
only the values 1, 2, 3 are observed below the bound 4.) -/
theorem claim_C5_counterexample :
    (hillStep (fun _ => 5) (fun i => i) ⟨0, 0, none, ⊤⟩).best = some 0 ∧
    (hillRun (fun _ => 5) (fun i => i) 10 ⟨0, 0, none, ⊤⟩).i = 4 ∧
    (hillRun (fun _ => 5) (fun i => i) 10 ⟨0, 0, none, ⊤⟩).i ≠ 1 + 4 := by
  decide

/-- C5 amended: after an iteration that improves the best, if no later sweep
improves further, exactly 3 more (non-improving) iterations run before the
loop exits with `lastBest = 4`, and the improving iteration's layering stays
the best. -/
theorem claim_C5_amended (L : Type) (cc : Nat → Nat) (lay : Nat → L)
    (s : HState L) (himp : (cc s.i : ℕ∞) < s.bestCC)
    (hno : ∀ j, s.i < j → ¬((cc j : ℕ∞) < (cc s.i : ℕ∞)))
    (fuel : Nat) (hfuel : 3 ≤ fuel) :
    (hillRun cc lay fuel (hillStep cc lay s)).i = s.i + 4 ∧
    (hillRun cc lay fuel (hillStep cc lay s)).lastBest = 4 ∧
    (hillRun cc lay fuel (hillStep cc lay s)).best = some (lay s.i) := by
  obtain ⟨f, rfl⟩ : ∃ f, fuel = f + 3 := ⟨fuel - 3, by omega⟩
  have h1 : hillStep cc lay s = ⟨s.i + 1, 1, some (lay s.i), (cc s.i : ℕ∞)⟩ := by
    rw [hillStep, if_pos himp]
  have h2 : hillStep cc lay ⟨s.i + 1, 1, some (lay s.i), (cc s.i : ℕ∞)⟩ =
      ⟨s.i + 2, 2, some (lay s.i), (cc s.i : ℕ∞)⟩ := by
    rw [hillStep, if_neg (hno (s.i + 1) (by omega))]
  have h3 : hillStep cc lay ⟨s.i + 2, 2, some (lay s.i), (cc s.i : ℕ∞)⟩ =
      ⟨s.i + 3, 3, some (lay s.i), (cc s.i : ℕ∞)⟩ := by
    rw [hillStep, if_neg (hno (s.i + 2) (by omega))]
  have h4 : hillStep cc lay ⟨s.i + 3, 3, some (lay s.i), (cc s.i : ℕ∞)⟩ =
      ⟨s.i + 4, 4, some (lay s.i), (cc s.i : ℕ∞)⟩ := by
    rw [hillStep, if_neg (hno (s.i + 3) (by omega))]
  rw [h1]
  have e3 : f + 3 = (f + 2) + 1 := rfl
  rw [e3, hillRun_succ, if_pos (by show (1:Nat) < 4; decide), h2]
  have e2 : f + 2 = (f + 1) + 1 := rfl
  rw [e2, hillRun_succ, if_pos (by show (2:Nat) < 4; decide), h3]
  rw [hillRun_succ, if_pos (by show (3:Nat) < 4; decide), h4]
  rw [hillRun_exit cc lay f _ (by show ¬((4:Nat) < 4); decide)]
  exact ⟨rfl, rfl, rfl⟩

theorem claim_C5_amended_witness :
    ((((if (0:Nat) = 0 then (5:Nat) else 7 : Nat)) : ℕ∞) <
       (⟨0, 0, none, ⊤⟩ : HState Nat).bestCC ∧
     (∀ j, (0:Nat) < j → ¬(((if j = 0 then (5:Nat) else 7 : Nat) : ℕ∞) <
       ((if (0:Nat) = 0 then (5:Nat) else 7 : Nat) : ℕ∞))) ∧
     (3:Nat) ≤ 9) ∧
    ((hillRun (fun j => if j = 0 then (5:Nat) else 7) (fun i : Nat => i) 9
        (hillStep (fun j => if j = 0 then (5:Nat) else 7) (fun i : Nat => i)
          ⟨0, 0, none, ⊤⟩)).i = 0 + 4 ∧
     (hillRun (fun j => if j = 0 then (5:Nat) else 7) (fun i : Nat => i) 9
        (hillStep (fun j => if j = 0 then (5:Nat) else 7) (fun i : Nat => i)
          ⟨0, 0, none, ⊤⟩)).lastBest = 4 ∧
     (hillRun (fun j => if j = 0 then (5:Nat) else 7) (fun i : Nat => i) 9
        (hillStep (fun j => if j = 0 then (5:Nat) else 7) (fun i : Nat => i)
          ⟨0, 0, none, ⊤⟩)).best = some 0) := by
  have hno : ∀ j, (0:Nat) < j →
      ¬(((if j = 0 then (5:Nat) else 7 : Nat) : ℕ∞) <
        ((if (0:Nat) = 0 then (5:Nat) else 7 : Nat) : ℕ∞)) := by
    intro j hj
    rw [if_neg (by omega), if_pos rfl]
    decide
  exact ⟨⟨by decide, hno, by decide⟩,
    claim_C5_amended Nat (fun j => if j = 0 then (5:Nat) else 7)
      (fun i => i) ⟨0, 0, none, ⊤⟩ (by decide) hno 9 (by decide)⟩

end AntvOrderLoop

/-!
## `buildLayerGraph` (src/packages/layout/src/dagre/order/build-layer-graph.ts)

The claim under check concerns the edges of the produced layer graph, so the
embedding covers the edge-building part of the double loop (lines 54-110):
for every node `v` that is movable at the requested rank
(`v.data.rank === rank`, or `minRank ≤ rank ≤ maxRank` when both bounds are
present), every edge incident on `v` in the requested direction is folded
into the result — looked up by its `(u, v)` endpoint pair, added with weight
`e.weight + 0` when absent, and otherwise updated in place (by its recorded
edge id) to `e.weight + existing`.  The node materialisation, parent
hierarchy, root node and border handling of the source touch no edge weight
and are not modelled; edge weights are JavaScript numbers of which only `0`
and `+` are used, embedded as `Int`. -/

namespace AntvLayerGraph

structure LNode where
  id : Nat
  rank : Option Int
  minRank : Option Int
  maxRank : Option Int
deriving Repr, DecidableEq

structure LEdge where
  eid : Nat
  source : Nat
  target : Nat
  weight : Int
deriving Repr, DecidableEq

structure LGraph where
  nodes : List LNode
  edges : List LEdge
deriving Repr, DecidableEq

/-- The movability test (line 59-64): rank match, or a subgraph whose
`minRank`/`maxRank` range covers the rank (an absent bound makes the
JavaScript comparison false). -/
def movable (v : LNode) (rank : Int) : Bool :=
  v.rank == some rank ||
  (match v.minRank, v.maxRank with
   | some mn, some mx => decide (mn ≤ rank) && decide (rank ≤ mx)
   | _, _ => false)

/-- `g.getRelatedEdges(v, direction)`: `dir = true` is `"in"` (edges into
`v`), `dir = false` is `"out"` (edges out of `v`). -/
def relatedEdges (g : LGraph) (v : Nat) (dir : Bool) : List LEdge :=
  g.edges.filter (fun e => if dir then e.target == v else e.source == v)

/-- One inner-loop body (lines 78-110): find the result edge `u → v`, read
its weight (0 when absent), then add or update. -/
def addOrUpdate (res : List LEdge) (eid u v : Nat) (w : Int) : List LEdge :=
  match res.find? (fun ed => ed.source == u && ed.target == v) with
  | none => res ++ [⟨eid, u, v, w + 0⟩]
  | some ed =>
    res.map (fun ed2 =>
      if ed2.eid == ed.eid then { ed2 with weight := w + ed.weight } else ed2)

/-- The edge part of `buildLayerGraph`: the double `forEach` of lines
54-110. -/
def buildEdges (g : LGraph) (rank : Int) (dir : Bool) : List LEdge :=
  g.nodes.foldl (fun res v =>
    if movable v rank then
      (relatedEdges g v.id dir).foldl (fun res2 e =>
        addOrUpdate res2 e.eid
          (if e.source == v.id then e.target else e.source) v.id e.weight) res
    else res) []

/-- The `(u, v)` key a raw edge is aggregated under: `v` is its endpoint in
the requested direction and `u` the other endpoint. -/
def keyOf (dir : Bool) (e : LEdge) : Nat × Nat :=
  ((if e.source == (if dir then e.target else e.source) then e.target
    else e.source),
   (if dir then e.target else e.source))

/-- The raw edges a run over the movable nodes processes, in order. -/
def flatRaw (g : LGraph) (rank : Int) (dir : Bool) : List LEdge :=
  (g.nodes.filter (fun v => movable v rank)).flatMap
    (fun v => relatedEdges g v.id dir)

/-- The fold of `addOrUpdate` over a raw edge sequence. -/
def processAll (dir : Bool) (raw : List LEdge) (res : List LEdge) :
    List LEdge :=
  raw.foldl (fun res2 e =>
    addOrUpdate res2 e.eid (keyOf dir e).1 (keyOf dir e).2 e.weight) res

/-- The single result edge expected for a key, from the raw edges aggregated
under it. -/
def aggOf (es : List LEdge) (u v : Nat) : List LEdge :=
  match es with
  | [] => []
  | e0 :: rest => [⟨e0.eid, u, v, ((e0 :: rest).map (·.weight)).sum⟩]

/-! ### The aggregation invariant -/

theorem find?_of_filter_nil {α : Type} (l : List α) (p : α → Bool)
    (h : l.filter p = []) : l.find? p = none :=
  List.find?_eq_none.mpr (List.filter_eq_nil_iff.mp h)

theorem find?_of_filter_singleton {α : Type} : ∀ (l : List α) (p : α → Bool)
    (x : α), l.filter p = [x] → l.find? p = some x := by
  intro l
  induction l with
  | nil =>
    intro p x h
    cases h
  | cons a t ih =>
    intro p x h
    rw [List.filter_cons] at h
    by_cases hp : p a = true
    · rw [if_pos hp] at h
      injection h with h1 h2
      rw [List.find?_cons_of_pos _ hp, h1]
    · rw [if_neg hp] at h
      rw [List.find?_cons_of_neg _ hp]
      exact ih p x h

theorem filter_map_update {α : Type} (l : List α) (p : α → Bool) (f : α → α)
    (hf : ∀ x, p (f x) = p x) :
    (l.map f).filter p = (l.filter p).map f := by
  induction l with
  | nil => rfl
  | cons a t ih =>
    rw [List.map_cons, List.filter_cons, List.filter_cons, hf]
    by_cases hp : p a = true
    · rw [if_pos hp, if_pos hp, List.map_cons, ih]
    · rw [if_neg hp, if_neg hp, ih]

/-- The invariant after folding the raw edges in `processed`: result edge ids
are distinct and drawn from the processed edges, and each endpoint pair holds
exactly the aggregate of the raw edges keyed to it. -/
def AggInv (dir : Bool) (processed res : List LEdge) : Prop :=
  (res.map (·.eid)).Nodup ∧
  (∀ ed ∈ res, ed.eid ∈ processed.map (·.eid)) ∧
  (∀ u v, res.filter (fun ed => ed.source == u && ed.target == v) =
    aggOf (processed.filter (fun e => keyOf dir e == (u, v))) u v)

theorem addOrUpdate_step (dir : Bool) (processed res : List LEdge) (e : LEdge)
    (hinv : AggInv dir processed res)
    (hnew : e.eid ∉ processed.map (·.eid)) :
    AggInv dir (processed ++ [e])
      (addOrUpdate res e.eid (keyOf dir e).1 (keyOf dir e).2 e.weight) := by
  obtain ⟨hnd, hsub, hagg⟩ := hinv
  have hkey : (keyOf dir e == ((keyOf dir e).1, (keyOf dir e).2)) = true := by
    rw [beq_iff_eq]
  have hkeyne : ∀ u v, ¬(u = (keyOf dir e).1 ∧ v = (keyOf dir e).2) →
      (keyOf dir e == (u, v)) = false := by
    intro u v huv
    rw [beq_eq_false_iff_ne]
    intro hq
    apply huv
    rw [hq]
    exact ⟨rfl, rfl⟩
  cases hfind : res.find? (fun ed =>
      ed.source == (keyOf dir e).1 && ed.target == (keyOf dir e).2) with
  | none =>
    have hfil : res.filter (fun ed =>
        ed.source == (keyOf dir e).1 && ed.target == (keyOf dir e).2) = [] :=
      List.filter_eq_nil_iff.mpr (List.find?_eq_none.mp hfind)
    have hold : processed.filter
        (fun e2 => keyOf dir e2 == ((keyOf dir e).1, (keyOf dir e).2)) = [] := by
      have h2 := hagg (keyOf dir e).1 (keyOf dir e).2
      rw [hfil] at h2
      cases hl : processed.filter
          (fun e2 => keyOf dir e2 == ((keyOf dir e).1, (keyOf dir e).2)) with
      | nil => rfl
      | cons x xs =>
        rw [hl] at h2
        cases h2
    have hstep : addOrUpdate res e.eid (keyOf dir e).1 (keyOf dir e).2 e.weight =
        res ++ [⟨e.eid, (keyOf dir e).1, (keyOf dir e).2, e.weight + 0⟩] := by
      simp only [addOrUpdate, hfind]
    rw [hstep]
    refine ⟨?_, ?_, ?_⟩
    · rw [List.map_append]
      apply List.nodup_append.mpr
      refine ⟨hnd, List.nodup_singleton _, ?_⟩
      intro x hx hx2
      rw [List.mem_map] at hx
      obtain ⟨ed2, hed2, hede⟩ := hx
      rw [List.map_cons, List.map_nil, List.mem_singleton] at hx2
      apply hnew
      have hxe : e.eid = ed2.eid := by
        rw [hede, hx2]
      rw [hxe]
      exact hsub ed2 hed2
    · intro ed hed
      rcases List.mem_append.mp hed with h | h
      · rw [List.map_append]
        exact List.mem_append_left _ (hsub ed h)
      · rw [List.mem_singleton] at h
        rw [h, List.map_append]
        exact List.mem_append_right _ (by simp)
    · intro u v
      by_cases huv : u = (keyOf dir e).1 ∧ v = (keyOf dir e).2
      · obtain ⟨hu, hv⟩ := huv
        subst hu
        subst hv
        have hr1 : (res ++ [(⟨e.eid, (keyOf dir e).1, (keyOf dir e).2,
            e.weight + 0⟩ : LEdge)]).filter
            (fun ed => ed.source == (keyOf dir e).1 &&
              ed.target == (keyOf dir e).2) =
            res.filter (fun ed => ed.source == (keyOf dir e).1 &&
              ed.target == (keyOf dir e).2) ++
            [⟨e.eid, (keyOf dir e).1, (keyOf dir e).2, e.weight + 0⟩] :=
          AntvOrder.filter_append_single_pos _ _ _ (by simp)
        have hr2 : (processed ++ [e]).filter
            (fun e2 => keyOf dir e2 == ((keyOf dir e).1, (keyOf dir e).2)) =
            processed.filter (fun e2 => keyOf dir e2 ==
              ((keyOf dir e).1, (keyOf dir e).2)) ++ [e] :=
          AntvOrder.filter_append_single_pos _ _ _ hkey
        rw [hr1, hr2, hfil, hold]
        rw [List.nil_append, List.nil_append]
        show [(⟨e.eid, (keyOf dir e).1, (keyOf dir e).2,
          e.weight + 0⟩ : LEdge)] = aggOf [e] (keyOf dir e).1 (keyOf dir e).2
        rw [aggOf]
        simp
      · have hp : ((⟨e.eid, (keyOf dir e).1, (keyOf dir e).2,
            e.weight + 0⟩ : LEdge).source == u &&
            (⟨e.eid, (keyOf dir e).1, (keyOf dir e).2,
            e.weight + 0⟩ : LEdge).target == v) = false := by
          show ((keyOf dir e).1 == u && (keyOf dir e).2 == v) = false
          rw [Bool.and_eq_false_iff]
          by_cases h1 : (keyOf dir e).1 = u
          · right
            rw [beq_eq_false_iff_ne]
            intro h2
            exact huv ⟨h1.symm, h2.symm⟩
          · left
            rw [beq_eq_false_iff_ne]
            exact fun hq => h1 hq
        have hr1 : (res ++ [(⟨e.eid, (keyOf dir e).1, (keyOf dir e).2,
            e.weight + 0⟩ : LEdge)]).filter
            (fun ed => ed.source == u && ed.target == v) =
            res.filter (fun ed => ed.source == u && ed.target == v) :=
          AntvOrder.filter_append_single_neg _ _ _ hp
        have hr2 : (processed ++ [e]).filter
            (fun e2 => keyOf dir e2 == (u, v)) =
            processed.filter (fun e2 => keyOf dir e2 == (u, v)) :=
          AntvOrder.filter_append_single_neg _ _ _ (hkeyne u v huv)
        rw [hr1, hr2, hagg u v]
  | some ed =>
    have hmem : ed ∈ res := List.mem_of_find?_eq_some hfind
    have hpred := List.find?_some hfind
    rw [Bool.and_eq_true, beq_iff_eq, beq_iff_eq] at hpred
    have hfil1 := hagg (keyOf dir e).1 (keyOf dir e).2
    have hcase : ∃ e0 rest, processed.filter
        (fun e2 => keyOf dir e2 == ((keyOf dir e).1, (keyOf dir e).2)) =
        e0 :: rest := by
      cases hl : processed.filter
          (fun e2 => keyOf dir e2 == ((keyOf dir e).1, (keyOf dir e).2)) with
      | nil =>
        exfalso
        rw [hl] at hfil1
        have h5 : res.find? (fun ed =>
            ed.source == (keyOf dir e).1 && ed.target == (keyOf dir e).2) =
            none := find?_of_filter_nil _ _ hfil1
        rw [hfind] at h5
        cases h5
      | cons e0 rest => exact ⟨e0, rest, rfl⟩
    obtain ⟨e0, rest, hl⟩ := hcase
    rw [hl] at hfil1
    have hedcur : ed = ⟨e0.eid, (keyOf dir e).1, (keyOf dir e).2,
        ((e0 :: rest).map (·.weight)).sum⟩ := by
      have h2 := find?_of_filter_singleton res _ _ hfil1
      rw [hfind] at h2
      exact Option.some.inj h2
    have hstep : addOrUpdate res e.eid (keyOf dir e).1 (keyOf dir e).2 e.weight =
        res.map (fun ed2 => if ed2.eid == ed.eid then
          { ed2 with weight := e.weight + ed.weight } else ed2) := by
      simp only [addOrUpdate, hfind]
    rw [hstep]
    have heidkeep : ∀ x : LEdge, (if x.eid == ed.eid then
        ({ x with weight := e.weight + ed.weight } : LEdge) else x).eid =
        x.eid := by
      intro x
      by_cases h : x.eid == ed.eid
      · rw [if_pos h]
      · rw [if_neg h]
    have heidmap : (res.map (fun ed2 => if ed2.eid == ed.eid then
        { ed2 with weight := e.weight + ed.weight } else ed2)).map (·.eid) =
        res.map (·.eid) := by
      rw [List.map_map]
      apply List.map_congr_left
      intro x _
      exact heidkeep x
    have hinj := List.inj_on_of_nodup_map (f := fun ed2 : LEdge => ed2.eid) hnd
    refine ⟨by rw [heidmap]; exact hnd, ?_, ?_⟩
    · intro ed2 hed2
      rw [List.mem_map] at hed2
      obtain ⟨x, hx, hxe⟩ := hed2
      rw [List.map_append]
      apply List.mem_append_left
      have h6 : ed2.eid = x.eid := by
        rw [← hxe]
        exact heidkeep x
      rw [h6]
      exact hsub x hx
    · intro u v
      rw [filter_map_update _ _ _ (fun x => by
        by_cases h : x.eid == ed.eid
        · rw [if_pos h]
        · rw [if_neg h])]
      by_cases huv : u = (keyOf dir e).1 ∧ v = (keyOf dir e).2
      · obtain ⟨hu, hv⟩ := huv
        subst hu
        subst hv
        have hr2 : (processed ++ [e]).filter
            (fun e2 => keyOf dir e2 == ((keyOf dir e).1, (keyOf dir e).2)) =
            processed.filter (fun e2 => keyOf dir e2 ==
              ((keyOf dir e).1, (keyOf dir e).2)) ++ [e] :=
          AntvOrder.filter_append_single_pos _ _ _ hkey
        rw [hfil1, hr2, hl, aggOf]
        rw [List.map_cons, List.map_nil]
        have hcur : (if (⟨e0.eid, (keyOf dir e).1, (keyOf dir e).2,
            ((e0 :: rest).map (·.weight)).sum⟩ : LEdge).eid == ed.eid then
            ({ (⟨e0.eid, (keyOf dir e).1, (keyOf dir e).2,
              ((e0 :: rest).map (·.weight)).sum⟩ : LEdge) with
              weight := e.weight + ed.weight } : LEdge)
            else ⟨e0.eid, (keyOf dir e).1, (keyOf dir e).2,
              ((e0 :: rest).map (·.weight)).sum⟩) =
            ⟨e0.eid, (keyOf dir e).1, (keyOf dir e).2,
              ((e0 :: (rest ++ [e])).map (·.weight)).sum⟩ := by
          rw [if_pos (by rw [hedcur]; exact beq_self_eq_true _)]
          have hw : e.weight + ed.weight =
              ((e0 :: (rest ++ [e])).map (·.weight)).sum := by
            rw [hedcur]
            show e.weight + ((e0 :: rest).map (·.weight)).sum = _
            simp only [List.map_cons, List.sum_cons, List.map_append,
              List.sum_append, List.map_nil, List.sum_nil]
            omega
          rw [hw]
        rw [hcur]
        rfl
      · have hr2 : (processed ++ [e]).filter
            (fun e2 => keyOf dir e2 == (u, v)) =
            processed.filter (fun e2 => keyOf dir e2 == (u, v)) :=
          AntvOrder.filter_append_single_neg _ _ _ (hkeyne u v huv)
        rw [hr2, hagg u v]
        cases hl2 : processed.filter (fun e2 => keyOf dir e2 == (u, v)) with
        | nil => rfl
        | cons f0 frest =>
          show ((aggOf (f0 :: frest) u v).map _) = aggOf (f0 :: frest) u v
          rw [aggOf]
          rw [List.map_cons, List.map_nil]
          have hne2 : (⟨f0.eid, u, v, ((f0 :: frest).map (·.weight)).sum⟩ :
              LEdge).eid ≠ ed.eid := by
            intro hq
            have hmem2 : (⟨f0.eid, u, v, ((f0 :: frest).map (·.weight)).sum⟩ :
                LEdge) ∈ res := by
              have h3 := hagg u v
              rw [hl2] at h3
              have h4 : (⟨f0.eid, u, v, ((f0 :: frest).map (·.weight)).sum⟩ :
                  LEdge) ∈ res.filter (fun ed => ed.source == u &&
                    ed.target == v) := by
                rw [h3, aggOf]
                exact List.mem_singleton_self _
              exact List.mem_of_mem_filter h4
            have h4 := hinj hmem2 hmem hq
            rw [hedcur] at h4
            injection h4 with ha hb hc hd
            exact huv ⟨hb, hc⟩
          rw [if_neg (fun hq => hne2 (beq_iff_eq.mp hq))]

theorem AggInv_nil (dir : Bool) : AggInv dir [] [] := by
  refine ⟨List.nodup_nil, ?_, ?_⟩
  · intro ed hed
    cases hed
  · intro u v
    rfl

theorem processAll_inv (dir : Bool) : ∀ (raw processed res : List LEdge),
    AggInv dir processed res →
    ((processed ++ raw).map (·.eid)).Nodup →
    AggInv dir (processed ++ raw) (processAll dir raw res) := by
  intro raw
  induction raw with
  | nil =>
    intro processed res h _
    simpa using h
  | cons e t ih =>
    intro processed res h hnd
    have hnew : e.eid ∉ processed.map (·.eid) := by
      rw [List.map_append] at hnd
      have hdis := (List.nodup_append.mp hnd).2.2
      intro hq
      exact hdis hq (by simp)
    have h2 := addOrUpdate_step dir processed res e h hnew
    have h3 := ih (processed ++ [e])
      (addOrUpdate res e.eid (keyOf dir e).1 (keyOf dir e).2 e.weight) h2
      (by simpa using hnd)
    show AggInv dir (processed ++ e :: t) (processAll dir t _)
    have h4 : processed ++ e :: t = (processed ++ [e]) ++ t := by simp
    rw [h4]
    exact h3

/-- The per-node step of the outer loop. -/
def stepNode (g : LGraph) (rank : Int) (dir : Bool) (res : List LEdge)
    (v : LNode) : List LEdge :=
  if movable v rank then
    (relatedEdges g v.id dir).foldl (fun res2 e =>
      addOrUpdate res2 e.eid
        (if e.source == v.id then e.target else e.source) v.id e.weight) res
  else res

theorem buildEdges_eq_fold (g : LGraph) (rank : Int) (dir : Bool) :
    buildEdges g rank dir = g.nodes.foldl (stepNode g rank dir) [] := rfl

theorem relatedEdges_endpoint (g : LGraph) (v : Nat) (dir : Bool) (e : LEdge)
    (h : e ∈ relatedEdges g v dir) :
    e ∈ g.edges ∧ (if dir then e.target else e.source) = v := by
  rw [relatedEdges, List.mem_filter] at h
  refine ⟨h.1, ?_⟩
  have h2 := h.2
  cases dir with
  | true => simpa using h2
  | false => simpa using h2

theorem foldl_congr_mem {α β : Type} : ∀ (l : List α) (f f2 : β → α → β)
    (b : β), (∀ x ∈ l, ∀ acc, f acc x = f2 acc x) →
    l.foldl f b = l.foldl f2 b := by
  intro l
  induction l with
  | nil => intro f f2 b _; rfl
  | cons a t ih =>
    intro f f2 b h
    rw [List.foldl_cons, List.foldl_cons, h a (List.mem_cons_self a t) b]
    exact ih f f2 (f2 b a) (fun x hx acc => h x (List.mem_cons_of_mem a hx) acc)

theorem inner_fold_eq (g : LGraph) (dir : Bool) (v : LNode)
    (res : List LEdge) :
    (relatedEdges g v.id dir).foldl (fun res2 e =>
      addOrUpdate res2 e.eid
        (if e.source == v.id then e.target else e.source) v.id e.weight) res =
    processAll dir (relatedEdges g v.id dir) res := by
  apply foldl_congr_mem
  intro e he acc
  have hve := (relatedEdges_endpoint g v.id dir e he).2
  rw [← hve]
  rfl

theorem processAll_append (dir : Bool) (l1 l2 : List LEdge)
    (res : List LEdge) :
    processAll dir (l1 ++ l2) res = processAll dir l2 (processAll dir l1 res) := by
  simp only [processAll, List.foldl_append]

theorem buildEdges_eq (g : LGraph) (rank : Int) (dir : Bool) :
    buildEdges g rank dir = processAll dir (flatRaw g rank dir) [] := by
  rw [buildEdges_eq_fold, flatRaw]
  have haux : ∀ (vs : List LNode) (res : List LEdge),
      vs.foldl (stepNode g rank dir) res =
      processAll dir ((vs.filter (fun v => movable v rank)).flatMap
        (fun v => relatedEdges g v.id dir)) res := by
    intro vs
    induction vs with
    | nil => intro res; rfl
    | cons v t ih =>
      intro res
      rw [List.foldl_cons, List.filter_cons]
      by_cases hm : movable v rank = true
      · rw [if_pos hm, List.flatMap_cons, processAll_append]
        have hstep : stepNode g rank dir res v =
            processAll dir (relatedEdges g v.id dir) res := by
          rw [stepNode, if_pos hm]
          exact inner_fold_eq g dir v res
        rw [hstep]
        exact ih _
      · rw [if_neg hm]
        have hstep : stepNode g rank dir res v = res := by
          rw [stepNode, if_neg hm]
        rw [hstep]
        exact ih res
  exact haux g.nodes []

theorem flatRaw_nodup (g : LGraph) (rank : Int) (dir : Bool)
    (hnid : (g.nodes.map (·.id)).Nodup) (heid : (g.edges.map (·.eid)).Nodup) :
    ((flatRaw g rank dir).map (·.eid)).Nodup := by
  rw [flatRaw]
  have hnid2 : ((g.nodes.filter (fun v => movable v rank)).map (·.id)).Nodup :=
    hnid.sublist ((List.filter_sublist _).map _)
  have haux : ∀ (vs : List LNode), (vs.map (·.id)).Nodup →
      ((vs.flatMap (fun v => relatedEdges g v.id dir)).map (·.eid)).Nodup := by
    intro vs
    induction vs with
    | nil => intro _; exact List.nodup_nil
    | cons v t ih =>
      intro hnd
      rw [List.flatMap_cons, List.map_append]
      rw [List.map_cons, List.nodup_cons] at hnd
      apply List.nodup_append.mpr
      refine ⟨heid.sublist ((List.filter_sublist _).map _), ih hnd.2, ?_⟩
      intro x hx hx2
      rw [List.mem_map] at hx
      obtain ⟨e1, he1, he1e⟩ := hx
      rw [List.mem_map] at hx2
      obtain ⟨e2, he2, he2e⟩ := hx2
      rw [List.mem_flatMap] at he2
      obtain ⟨v2, hv2, he2r⟩ := he2
      obtain ⟨he1g, he1v⟩ := relatedEdges_endpoint g v.id dir e1 he1
      obtain ⟨he2g, he2v⟩ := relatedEdges_endpoint g v2.id dir e2 he2r
      have heq : e1 = e2 := by
        apply List.inj_on_of_nodup_map (f := fun e : LEdge => e.eid) heid
          he1g he2g
        rw [he1e, he2e]
      have hvid : v.id = v2.id := by
        rw [← he1v, heq, he2v]
      exact hnd.1 (hvid ▸ List.mem_map_of_mem (·.id) hv2)
  exact haux _ hnid2

/-- C8: with distinct node ids and raw edge ids, for every endpoint pair
`(u, v)` the built layer graph holds exactly one edge `u → v` when at least
one raw edge of the requested direction aggregates to that pair — carrying
the first such raw edge's id and the sum of all their weights (duplicate raw
edges are summed, never overwritten) — and no edge otherwise. -/
theorem claim_C8_edge_aggregation (g : LGraph) (rank : Int) (dir : Bool)
    (hnid : (g.nodes.map (·.id)).Nodup) (heid : (g.edges.map (·.eid)).Nodup)
    (u v : Nat) :
    (buildEdges g rank dir).filter
      (fun ed => ed.source == u && ed.target == v) =
      aggOf ((flatRaw g rank dir).filter
        (fun e => keyOf dir e == (u, v))) u v := by
  have h := processAll_inv dir (flatRaw g rank dir) [] [] (AggInv_nil dir)
    (by simpa using flatRaw_nodup g rank dir hnid heid)
  rw [buildEdges_eq]
  have h2 := h.2.2 u v
  simpa using h2

def g8w : LGraph := ⟨[⟨1, some 1, none, none⟩, ⟨2, some 0, none, none⟩],
  [⟨10, 1, 2, 3⟩, ⟨11, 1, 2, 4⟩]⟩

theorem claim_C8_edge_aggregation_witness :
    ((g8w.nodes.map (·.id)).Nodup ∧ (g8w.edges.map (·.eid)).Nodup) ∧
    ((buildEdges g8w 0 true).filter
      (fun ed => ed.source == 1 && ed.target == 2) =
      aggOf ((flatRaw g8w 0 true).filter
        (fun e => keyOf true e == (1, 2))) 1 2 ∧
     (buildEdges g8w 0 true).filter
      (fun ed => ed.source == 1 && ed.target == 2) = [⟨10, 1, 2, 7⟩]) :=
  ⟨⟨by decide, by decide⟩,
    claim_C8_edge_aggregation g8w 0 true (by decide) (by decide) 1 2,
    by decide⟩

end AntvLayerGraph
